import Mathlib

/-!
# Ostinato transmit thread (`server/pcaptxthread.cpp`)

A shallow embedding of `PcapTxThread`: the packet-list builder
(`clearPacketList`, `loopNextPacketSet`, `appendToPacketList`,
`setPacketListLoopMode`, `setPacketListTtagMarkers`), the transmit loop
(`run`, `sendQueueTransmit`) with T-Tag stamping and the incremental L4
checksum, and the post-run attribution (`updateTxStreamStats`).

Conventions of the embedding
* `quint64` members are `Nat` reduced modulo `2 ^ 64`, `uint` values are `Nat`
  reduced modulo `2 ^ 32`, `int` values are `Int` wrapped by `toInt32`.
  `long` timing values (microseconds) are `Int`; signed `long` arithmetic is
  not wrapped. `QList::size()` is an `int` that never overflows: the length of
  the list.
* A pointer into `packetSequenceList_` is the index of the pointed sequence.
* `Q_ASSERT`, `QList::at` outside the list and writes outside a packet abort
  the operation: they are faults of the model.
* The build is the portable one (`Q_OS_WIN32` undefined).
* The clock, the controller thread that calls `stop()` and the pcap handle are
  the environment `Env` of a run.
* `lastTxDuration_` (a `double`) is not modelled.
-/

namespace PcapTx

/-! ## Machine integers -/

/-- Modulus of the `quint64` members, two to the 64. -/
def U64 : Nat := 18446744073709551616

/-- Constant `ULLONG_MAX`. -/
def ULLONG_MAX : Nat := 18446744073709551615

/-- Modulus of `uint`, two to the 32. -/
def U32 : Nat := 4294967296

/-- Conversion of an integer value to `int` (two's complement, 32 bits). -/
def toInt32 (x : Int) : Int := (x + 2147483648) % 4294967296 - 2147483648

/-- Conversion of an integer value to `long` (two's complement, 64 bits). -/
def toInt64 (x : Int) : Int :=
  (x + 9223372036854775808) % 18446744073709551616 - 9223372036854775808

/-- Conversion of an integer value to `quint64`. -/
def toU64 (x : Int) : Nat := (x % 18446744073709551616).toNat

/-! ## Data model -/

/-- Value of a `struct timeval`. -/
structure Timeval where
  tv_sec : Int
  tv_usec : Int
deriving DecidableEq, Repr

/-- Macro `timersub(a, b, res)` of `sys/time.h`. -/
def timersub (a b : Timeval) : Timeval :=
  let sec := a.tv_sec - b.tv_sec
  let usec := a.tv_usec - b.tv_usec
  if usec < 0 then ⟨sec - 1, usec + 1000000⟩ else ⟨sec, usec⟩

/-- Value of a `struct pcap_pkthdr`. -/
structure PktHdr where
  ts : Timeval
  caplen : Nat
  len : Nat
deriving DecidableEq, Repr

/-- One record of a send queue buffer: the header followed by the packet
bytes (each byte a number below 256). -/
structure Record where
  hdr : PktHdr
  data : List Nat
deriving DecidableEq, Repr

/-- Value of a `StreamStatsTuple`; only the transmit counters are used by the
transmit thread. -/
structure StreamStatsTuple where
  tx_pkts : Nat
  tx_bytes : Nat
deriving DecidableEq, Repr

/-- Map `StreamStats` (guid to tuple), kept as an association list. -/
abbrev StreamStats := List (Nat × StreamStatsTuple)

/-- Value of `streamStats[guid]` (a default-constructed tuple when absent). -/
def ssGet (m : StreamStats) (guid : Nat) : StreamStatsTuple :=
  match m.find? (fun e => e.1 == guid) with
  | some e => e.2
  | none => ⟨0, 0⟩

/-- Update `streamStats[guid].tx_pkts += dp; streamStats[guid].tx_bytes += db`
on 64-bit counters. -/
def ssAdd (m : StreamStats) (guid : Nat) (dp db : Nat) : StreamStats :=
  let old := ssGet m guid
  (guid, ⟨(old.tx_pkts + dp) % U64, (old.tx_bytes + db) % U64⟩) ::
    m.filter (fun e => e.1 != guid)

/-- Members of a `PacketSequence`. The send queue buffer is the list of its
records; `sendQueue_->len` is derived from it (`queueLen`), and `lastPacket_`
is the last record. -/
structure PacketSequence where
  records : List Record
  packets_ : Int
  bytes_ : Int
  usecDuration_ : Int
  repeatCount_ : Int
  repeatSize_ : Int
  usecDelay_ : Int
  ttagL4CksumOffset_ : Nat
  streamStatsMeta_ : StreamStats
  trackGuidStats_ : Bool
deriving DecidableEq, Repr

/-- Modelled from the spec: what `packetsequence.h`, `sign.h` and `pcap.h`
declare and the translated file only uses, none of them among the sources.
`maxlen` is the fixed per-sequence capacity of the send queue, `hdrSize` is
`sizeof(pcap_pkthdr)`, `repeatCount0` and `repeatSize0` are the repeat count
and repeat size a freshly constructed `PacketSequence` starts with, and
`packetGuid` is `SignProtocol::packetGuid` (the stream guid of a signed
packet, if it carries one). -/
structure SeqParams where
  maxlen : Nat
  hdrSize : Nat
  repeatCount0 : Int
  repeatSize0 : Int
  packetGuid : List Nat → Nat → Option Nat

/-- Modelled from the spec: the `PacketSequence` constructor, which is not
among the sources: an empty buffer, no packets, no tail delay, not T-Tag
eligible, and the repeat fields of `SeqParams`. -/
def PacketSequence.fresh (P : SeqParams) (trackGuidStats : Bool) : PacketSequence :=
  { records := []
    packets_ := 0
    bytes_ := 0
    usecDuration_ := 0
    repeatCount_ := P.repeatCount0
    repeatSize_ := P.repeatSize0
    usecDelay_ := 0
    ttagL4CksumOffset_ := 0
    streamStatsMeta_ := []
    trackGuidStats_ := trackGuidStats }

/-- Number of bytes in use in the send queue (`sendQueue_->len`): every record
takes a header and its captured bytes. -/
def queueLen (P : SeqParams) (s : PacketSequence) : Nat :=
  (s.records.map (fun r => P.hdrSize + r.hdr.caplen)).sum

/-- Modelled from the spec: `PacketSequence::hasFreeSpace(n)`, not among the
sources: true iff `n` more bytes fit within the capacity. -/
def hasFreeSpace (P : SeqParams) (s : PacketSequence) (n : Nat) : Bool :=
  decide (queueLen P s + n ≤ P.maxlen)

/-- Microseconds of a `timeval` difference as the translated file computes
them: `diff.tv_usec`, plus `diff.tv_sec*1e6` when `diff.tv_sec` is not zero. -/
def usecOfDiff (diff : Timeval) : Int :=
  if diff.tv_sec ≠ 0 then diff.tv_usec + diff.tv_sec * 1000000 else diff.tv_usec

/-- Modelled from the spec: `PacketSequence::appendPacket`, not among the
sources. It fails (a negative result, the sequence unchanged) iff the capacity
would be exceeded; otherwise the record is copied to the end of the buffer,
`packets` and `bytes` count it, `usec_duration` grows by the gap to the
previous record, and with stream-stats tracking on the packet is credited to
its guid in `stream_stats_meta`. -/
def appendPacket (P : SeqParams) (s : PacketSequence) (hdr : PktHdr) (data : List Nat) :
    Int × PacketSequence :=
  if hasFreeSpace P s (P.hdrSize + hdr.caplen) then
    let dur := match s.records.getLast? with
      | some l => s.usecDuration_ + usecOfDiff (timersub hdr.ts l.hdr.ts)
      | none => s.usecDuration_
    let stats := match s.trackGuidStats_, P.packetGuid data hdr.caplen with
      | true, some guid => ssAdd s.streamStatsMeta_ guid 1 hdr.caplen
      | _, _ => s.streamStatsMeta_
    (0, { s with
            records := s.records ++ [⟨hdr, data⟩]
            packets_ := s.packets_ + 1
            bytes_ := s.bytes_ + hdr.caplen
            usecDuration_ := dur
            streamStatsMeta_ := stats })
  else (-1, s)

/-- Values of the member `state_`. -/
inductive TxState where
  | kNotStarted
  | kRunning
  | kFinished
deriving DecidableEq, Repr

/-- Value of a `StatsTuple` as far as the transmit thread writes it. -/
structure StatsTuple where
  pkts : Nat
  bytes : Nat
deriving DecidableEq, Repr

/-- One call of `pcap_sendpacket`: the sequence index and record index of the
frame, its header, the bytes handed to the sink, whether the frame was
stamped, and whether the sink accepted it. -/
structure TxEvent where
  seq : Nat
  idx : Nat
  hdr : PktHdr
  sent : List Nat
  stamped : Bool
  accepted : Bool
deriving DecidableEq, Repr

/-- Members of `PcapTxThread` (with `*stats_` held by value), then the local
`overHead` of `run`, then three ghost fields: every `pcap_sendpacket` call,
every `udelayFn_` call, and every delay that fell due (the delay each
application of the delay policy was for), oldest first. -/
structure PcapTxThread where
  state_ : TxState
  stop_ : Bool
  trackStreamStats_ : Bool
  stats_ : StatsTuple
  lastStats_ : StatsTuple
  packetSequenceList_ : List PacketSequence
  currentPacketSequence_ : Option Nat
  repeatSequenceStart_ : Int
  repeatSize_ : Nat
  packetCount_ : Nat
  packetListSize_ : Nat
  returnToQIdx_ : Int
  loopDelay_ : Nat
  firstTtagPkt_ : Int
  ttagDeltaMarkers_ : List Nat
  ttagMarkerIndex_ : Nat
  nextTtagPkt_ : Nat
  ttagId_ : Nat
  streamStats_ : StreamStats
  overHead : Int
  sunk : List TxEvent
  slept : List Int
  due : List Int
deriving DecidableEq, Repr

/-! ## Building the packet list -/

/-- Method `PcapTxThread::setPacketListLoopMode`. -/
def setPacketListLoopMode (t : PcapTxThread) (loop : Bool) (secDelay nsecDelay : Nat) :
    PcapTxThread :=
  { t with
      returnToQIdx_ := if loop then 0 else -1
      loopDelay_ := (secDelay * 1000000 + nsecDelay / 1000) % U64 }

/-- Method `PcapTxThread::clearPacketList`; `none` when `Q_ASSERT(!isRunning())`
fails. -/
def clearPacketList (t : PcapTxThread) : Option PcapTxThread :=
  if t.state_ = TxState.kRunning then none
  else
    some (setPacketListLoopMode
      { t with
          packetSequenceList_ := []
          currentPacketSequence_ := none
          repeatSequenceStart_ := -1
          repeatSize_ := 0
          packetCount_ := 0
          packetListSize_ := 0
          returnToQIdx_ := -1 }
      false 0 0)

/-- Method `PcapTxThread::loopNextPacketSet`. -/
def loopNextPacketSet (P : SeqParams) (t : PcapTxThread) (size repeats : Int)
    (repeatDelaySec repeatDelayNsec : Int) : PcapTxThread :=
  let seq : PacketSequence :=
    { PacketSequence.fresh P t.trackStreamStats_ with
        repeatCount_ := toInt32 repeats
        usecDelay_ := repeatDelaySec * 1000000 + Int.tdiv repeatDelayNsec 1000 }
  { t with
      currentPacketSequence_ := some t.packetSequenceList_.length
      repeatSequenceStart_ := t.packetSequenceList_.length
      repeatSize_ := toU64 size
      packetCount_ := 0
      packetSequenceList_ := t.packetSequenceList_ ++ [seq] }

/-- Rollover branch of `appendToPacketList`: when the current sequence (index
`c`) cannot take two headers and the packet, its `usecDelay_` becomes the gap
between the incoming packet and its last packet, and a fresh sequence is
appended and made current. Returns the list and the current index; `none` when
`lastPacket_` is `NULL` or the assertion on the fresh sequence fails. -/
def rollOver (P : SeqParams) (track : Bool) (l : List PacketSequence) (c : Nat)
    (cur : PacketSequence) (hdr : PktHdr) (length : Nat) :
    Option (List PacketSequence × Nat) :=
  if hasFreeSpace P cur (2 * P.hdrSize + length) then some (l, c)
  else
    match cur.records.getLast? with
    | none => none
    | some last =>
      let diff := timersub hdr.ts last.hdr.ts
      let l1 := l.set c { cur with usecDelay_ := usecOfDiff diff }
      let fresh := PacketSequence.fresh P track
      if hasFreeSpace P fresh (P.hdrSize + length) then
        some (l1 ++ [fresh], l1.length)
      else none

/-- Set completion in `appendToPacketList` (the body of
`if (repeatSize_ > 0 && packetCount_ == repeatSize_)`) on the list, for the
current index `c` and `repeatSequenceStart_ = start`; `none` when one of the
two assertions fails. -/
def completeSet (l : List PacketSequence) (c : Nat) (start : Int) :
    Option (List PacketSequence) :=
  if start < 0 ∨ (l.length : Int) ≤ start then none
  else
    let s := start.toNat
    if c ≠ s then
      match l[s]?, l[c]? with
      | some first, some cur =>
        let l1 := l.set c { cur with usecDelay_ := first.usecDelay_ }
        some (l1.set s
          { first with
              usecDelay_ := 0
              repeatSize_ := (l.length : Int) - start })
      | _, _ => none
    else some l

/-- Method `PcapTxThread::appendToPacketList`: the result `op` and the new
state; `none` when an assertion fails or a null pointer is dereferenced.
`packet` stands for the `length` bytes at the pointer. -/
def appendToPacketList (P : SeqParams) (t : PcapTxThread) (sec nsec : Int)
    (packet : List Nat) (length : Nat) : Option (Bool × PcapTxThread) :=
  let pktHdr : PktHdr := ⟨⟨sec, Int.tdiv nsec 1000⟩, length, length⟩
  match t.currentPacketSequence_ with
  | none => none
  | some c0 =>
    match t.packetSequenceList_[c0]? with
    | none => none
    | some cur0 =>
      match rollOver P t.trackStreamStats_ t.packetSequenceList_ c0 cur0 pktHdr length with
      | none => none
      | some (l1, c) =>
        match l1[c]? with
        | none => none
        | some cur =>
          let res := appendPacket P cur pktHdr packet
          let op := decide (0 ≤ res.1)
          let l2 := l1.set c res.2
          let packetCount := (t.packetCount_ + 1) % U64
          let packetListSize :=
            toU64 ((t.packetListSize_ : Int) +
              (if t.repeatSize_ ≠ 0 then res.2.repeatCount_ else 1))
          if 0 < t.repeatSize_ ∧ packetCount = t.repeatSize_ then
            match completeSet l2 c t.repeatSequenceStart_ with
            | none => none
            | some l3 =>
              some (op, { t with
                packetSequenceList_ := l3
                packetCount_ := packetCount
                packetListSize_ := packetListSize
                repeatSize_ := 0
                currentPacketSequence_ := none })
          else
            some (op, { t with
              packetSequenceList_ := l2
              packetCount_ := packetCount
              packetListSize_ := packetListSize
              currentPacketSequence_ := some c })

/-- Method `PcapTxThread::setPacketListTtagMarkers` (`markers` and
`repeatInterval` are `uint` values). -/
def setPacketListTtagMarkers (t : PcapTxThread) (markers : List Nat)
    (repeatInterval : Nat) : PcapTxThread :=
  let deltas : List Nat :=
    (List.range (markers.length - 1)).map
      (fun i => (markers.getD (i + 1) 0 + U32 - markers.getD i 0) % U32)
  match markers.head?, markers.getLast? with
  | some first, some last =>
    { t with
        firstTtagPkt_ := toInt32 first
        ttagDeltaMarkers_ := deltas ++ [(repeatInterval + U32 - last + first) % U32] }
  | _, _ => { t with firstTtagPkt_ := -1, ttagDeltaMarkers_ := deltas }

/-! ## T-Tag stamping and the incremental checksum -/

/-- Modelled from the spec: `SignProtocol::kTypeLenTtagPlaceholder` of
`sign.h`, not among the sources; the value is the one of the trailer layout
comment in `sendQueueTransmit`. -/
def kTypeLenTtagPlaceholder : Nat := 0x22

/-- Modelled from the spec: `SignProtocol::kTypeLenTtag` of `sign.h`, not
among the sources; the value is the one of the trailer layout comment in
`sendQueueTransmit`. -/
def kTypeLenTtag : Nat := 0x23

/-- Expression `quint16(~x)`. -/
def not16 (x : Nat) : Nat := 65535 - x % 65536

/-- Big-endian 16-bit read at a byte offset, `qFromBigEndian<quint16>(*cksum)`. -/
def readBE16 (pkt : List Nat) (off : Nat) : Nat :=
  pkt.getD off 0 * 256 + pkt.getD (off + 1) 0

/-- Big-endian 16-bit write at a byte offset, `*cksum = qToBigEndian(v)`. -/
def writeBE16 (pkt : List Nat) (off : Nat) (v : Nat) : List Nat :=
  (pkt.set off (v / 256 % 256)).set (off + 1) (v % 256)

/-- Initial value of `quint32 newCksum` in `sendQueueTransmit`: the sum
`~HC + ~m + m'` for the parity of the packet length. -/
def newCksum32 (pktLen ttagId origCksum : Nat) : Nat :=
  (if pktLen % 2 = 1 then
    not16 origCksum + not16 0x221d + 0x231d + not16 0x6100 + (0x6100 ||| ttagId)
  else
    not16 origCksum + not16 0x0022 + (ttagId <<< 8 ||| 0x23)) % U32

/-- Loop `while (newCksum > 0xffff) newCksum = (newCksum & 0xffff) +
(newCksum >> 16)`, run for at most `n` iterations. -/
def foldLoop : Nat → Nat → Nat
  | 0, x => x
  | n + 1, x => if 0xffff < x then foldLoop n ((x &&& 0xffff) + (x >>> 16)) else x

/-- The carry-fold loop run to its end: every iteration lowers the value, so
as many iterations as the value are enough. -/
def foldCksum (x : Nat) : Nat := foldLoop x x

/-- Faults of the model: an index outside `packetSequenceList_`, a failed
`Q_ASSERT`, a T-Tag or checksum write outside the packet, an index outside
`ttagDeltaMarkers_`. -/
inductive Fault where
  | seqIndex
  | overheadAssert
  | pktLenAssert
  | ttagWrite
  | cksumField
  | markerIndex
  | packetsAssert
  | dAssert
deriving DecidableEq, Repr

/-- Stamping of a packet in `sendQueueTransmit`: the two T-Tag bytes, then
(for a non-zero `ttagL4CksumOffset_`) the rewritten checksum. Returns the
stamped bytes and `origCksum`. -/
def stampPacket (pkt : List Nat) (pktLen ttagId off : Nat) : Except Fault (List Nat × Nat) :=
  if pktLen < 6 ∨ pkt.length < pktLen then .error .ttagWrite
  else
    let p1 := (pkt.set (pktLen - 5) kTypeLenTtag).set (pktLen - 6) ttagId
    if off = 0 then .ok (p1, 0)
    else if pktLen < off + 2 then .error .cksumField
    else
      let origCksum := readBE16 p1 off
      .ok (writeBE16 p1 off (not16 (foldCksum (newCksum32 pktLen ttagId origCksum))),
        origCksum)

/-- Restoration after the sink call in `sendQueueTransmit` ("Revert T-Tag
packet changes"). -/
def restorePacket (pkt : List Nat) (pktLen off origCksum : Nat) : List Nat :=
  let p1 := (pkt.set (pktLen - 5) kTypeLenTtagPlaceholder).set (pktLen - 6) 0
  if off ≠ 0 then writeBE16 p1 off origCksum else p1

/-- Advance of the stamper after a stamp: `ttagId_++`, `nextTtagPkt_ +=
ttagDeltaMarkers_.at(ttagMarkerIndex_)`, and the cyclic marker index. -/
def ttagAdvance (t : PcapTxThread) : Except Fault PcapTxThread :=
  match t.ttagDeltaMarkers_[t.ttagMarkerIndex_]? with
  | none => .error .markerIndex
  | some d =>
    .ok { t with
            ttagId_ := (t.ttagId_ + 1) % 256
            nextTtagPkt_ := (t.nextTtagPkt_ + d) % U64
            ttagMarkerIndex_ :=
              if t.ttagDeltaMarkers_.length ≤ t.ttagMarkerIndex_ + 1 then 0
              else t.ttagMarkerIndex_ + 1 }

/-! ## The transmit loop -/

/-- Environment of one run. Every field is indexed by the number of packets
sunk so far: `elapsed k` is the time `udiffTimeStamp(&ovrStart, &ovrEnd)`
measures before packet `k` is sunk (a difference of a monotonic clock),
`stopReq k` says that `stop()` sets `stop_` while packet `k` is processed,
`stopReqDelay k` that it does so during a tail or loop delay taken when `k`
packets have been sunk, and `sinkOk k` is whether `pcap_sendpacket` accepts
packet `k`. -/
structure Env where
  elapsed : Nat → Nat
  stopReq : Nat → Bool
  stopReqDelay : Nat → Bool
  sinkOk : Nat → Bool

/-- The overhead-aware delay policy: `if (usecs > 0) { (*udelayFn_)(usecs);
overHead = 0; } else overHead = usecs;`. -/
def applyDelay (usecs : Int) (t : PcapTxThread) : PcapTxThread :=
  if 0 < usecs then { t with slept := t.slept ++ [usecs], overHead := 0 }
  else { t with overHead := usecs }

/-- The `if (sync)` block of `sendQueueTransmit` for a record with timestamp
`hdrTs`, the anchor `ts` and the measured time `elapsed`; the delay that falls
due is the gap `usec` of the record to the anchor. -/
def syncDelay (elapsed : Int) (hdrTs ts : Timeval) (t : PcapTxThread) :
    Except Fault PcapTxThread :=
  let usec := (hdrTs.tv_sec - ts.tv_sec) * 1000000 + (hdrTs.tv_usec - ts.tv_usec)
  let o := t.overHead - elapsed
  if 0 < o then .error .overheadAssert
  else .ok (applyDelay (usec + o) { t with overHead := o, due := t.due ++ [usec] })

/-- Apply a function to the element at an index of a list, if there is one. -/
def modifyAt {α : Type} (f : α → α) : Nat → List α → List α
  | _, [] => []
  | 0, a :: as => f a :: as
  | n + 1, a :: as => a :: modifyAt f n as

/-- Store packet bytes into record `idx` of sequence `q` (the buffer is
written in place). -/
def setRecordData (l : List PacketSequence) (q idx : Nat) (data : List Nat) :
    List PacketSequence :=
  modifyAt (fun s => { s with records := modifyAt (fun r => { r with data := data }) idx s.records })
    q l

/-- The "Time for a T-Tag packet?" block of `sendQueueTransmit`: whether the
packet is stamped, its bytes as handed to the sink, `origCksum`, and the
stamper state. -/
def stampStep (off : Nat) (r : Record) (t : PcapTxThread) :
    Except Fault (Bool × List Nat × Nat × PcapTxThread) :=
  if t.stats_.pkts = t.nextTtagPkt_ then
    match stampPacket r.data r.hdr.caplen t.ttagId_ off with
    | .error f => .error f
    | .ok (d, origCksum) =>
      match ttagAdvance t with
      | .error f => .error f
      | .ok t1 => .ok (true, d, origCksum, t1)
  else .ok (false, r.data, 0, t)

/-- One iteration of the `while` loop of `sendQueueTransmit`, for record `idx`
(value `r`) of sequence `q`, up to but not including the test of `stop_`. The
buffer is written only when the packet is stamped: it then holds the restored
bytes. -/
def txPacket (env : Env) (q idx off : Nat) (sync : Bool) (r : Record) (ts : Timeval)
    (t : PcapTxThread) : Except Fault PcapTxThread :=
  let n := t.sunk.length
  match stampStep off r t with
  | .error f => .error f
  | .ok (ttagPkt, d1, origCksum, t1) =>
    match (if sync then syncDelay (env.elapsed n) r.hdr.ts ts t1 else .ok t1) with
    | .error f => .error f
    | .ok t2 =>
      if r.hdr.caplen = 0 then .error .pktLenAssert
      else
        let d2 := if ttagPkt then restorePacket d1 r.hdr.caplen off origCksum else d1
        .ok { t2 with
                stats_ := ⟨(t2.stats_.pkts + 1) % U64, (t2.stats_.bytes + r.hdr.caplen) % U64⟩
                sunk := t2.sunk ++ [⟨q, idx, r.hdr, d1, ttagPkt, env.sinkOk n⟩]
                packetSequenceList_ :=
                  if ttagPkt then setRecordData t2.packetSequenceList_ q idx d2
                  else t2.packetSequenceList_
                stop_ := t2.stop_ || env.stopReq n }

/-- Result of `sendQueueTransmit`: its return value and the state, or a fault
and the state before the faulting packet. -/
inductive SendResult where
  | ret (code : Int) (t : PcapTxThread)
  | abort (f : Fault) (t : PcapTxThread)

/-- The `while` loop of `sendQueueTransmit` over the records still ahead in
the buffer of sequence `q`. -/
def sendLoop (env : Env) (q off : Nat) (sync : Bool) :
    List Record → Nat → Timeval → PcapTxThread → SendResult
  | [], _, _, t => .ret 0 t
  | r :: rs, idx, ts, t =>
    match txPacket env q idx off sync r ts t with
    | .error f => .abort f t
    | .ok t1 =>
      if t1.stop_ then .ret (-2) t1
      else sendLoop env q off sync rs (idx + 1) (if sync then r.hdr.ts else ts) t1

/-- Method `PcapTxThread::sendQueueTransmit` on sequence `seq` at index `q`;
`overHead` is the state field of that name. -/
def sendQueueTransmit (env : Env) (q : Nat) (seq : PacketSequence) (sync : Bool)
    (t : PcapTxThread) : SendResult :=
  let ts := match seq.records with
    | r :: _ => r.hdr.ts
    | [] => ⟨0, 0⟩
  sendLoop env q seq.ttagL4CksumOffset_ sync seq.records 0 ts t

/-- Element `packetSequenceList_.at(i)` with its index, `none` outside the list. -/
def seqAt (t : PcapTxThread) (i : Int) : Option (Nat × PacketSequence) :=
  if i < 0 then none
  else match t.packetSequenceList_[i.toNat]? with
    | some s => some (i.toNat, s)
    | none => none

/-- Result of the repeat loops of `run`: the loops ran to their end, or
control left through `goto _exit`, or a fault. -/
inductive LoopResult where
  | next (t : PcapTxThread)
  | exit (t : PcapTxThread)
  | abort (f : Fault) (t : PcapTxThread)

/-- A tail or loop delay of `run`: the delay policy applied to the local
`long usecs`, during which `stop()` may be called; `delay` is the delay that
falls due (`seq->usecDelay_` or `loopDelay_`). -/
def runDelay (env : Env) (delay usecs : Int) (t : PcapTxThread) : PcapTxThread :=
  let t1 := applyDelay usecs { t with due := t.due ++ [delay] }
  { t1 with stop_ := t1.stop_ || env.stopReqDelay t1.sunk.length }

/-- Loop `for (int k = 0; k < rptSz; k++)` of `run` at group head `i`, with
`n` iterations left and counter `k`. -/
def forK (env : Env) (i : Int) : Nat → Int → PcapTxThread → LoopResult
  | 0, _, t => .next t
  | n + 1, k, t =>
    match seqAt t (i + k) with
    | none => .abort .seqIndex t
    | some (q, seq) =>
      match sendQueueTransmit env q seq true t with
      | .abort f t1 => .abort f t1
      | .ret code t1 =>
        if 0 ≤ code then
          forK env i n (k + 1) (runDelay env seq.usecDelay_ (seq.usecDelay_ + t1.overHead) t1)
        else .exit { t1 with stop_ := false }

/-- Loop `for (int j = 0; j < rptCnt; j++)` of `run`, with `n` iterations
left. -/
def forJ (env : Env) (i rptSz : Int) : Nat → PcapTxThread → LoopResult
  | 0, t => .next t
  | n + 1, t =>
    match forK env i rptSz.toNat 0 t with
    | .next t1 => forJ env i rptSz n t1
    | r => r

/-- How a run or a walk ends: it reached its end, the fuel of the model ran
out, or it aborted on a fault. -/
inductive Exit where
  | finished
  | outOfFuel
  | fault (f : Fault)
deriving DecidableEq, Repr

/-- End of a run and the state reached. -/
structure Outcome where
  exit : Exit
  t : PcapTxThread

/-- The outer walk of `run` from the label `_restart` with index `i`: one unit
of fuel per group visited. `finished` is reaching `_exit`. -/
def walk (env : Env) : Nat → Int → PcapTxThread → Outcome
  | 0, _, t => ⟨.outOfFuel, t⟩
  | fuel + 1, i, t =>
    match seqAt t i with
    | none => ⟨.fault .seqIndex, t⟩
    | some (_, head) =>
      match forJ env i head.repeatSize_ head.repeatCount_.toNat t with
      | .abort f t1 => ⟨.fault f, t1⟩
      | .exit t1 => ⟨.finished, t1⟩
      | .next t1 =>
        let i1 := toInt32 (i + head.repeatSize_)
        if i1 < t1.packetSequenceList_.length then walk env fuel i1 t1
        else if 0 ≤ t1.returnToQIdx_ then
          walk env fuel t1.returnToQIdx_
            (runDelay env (t1.loopDelay_ : Int)
              (toInt64 ((t1.loopDelay_ : Int) + t1.overHead)) t1)
        else ⟨.finished, t1⟩

/-! ## Stream statistics after a run -/

/-- Credit every `(guid, ssm)` of a sequence's `streamStatsMeta_` to the
stream statistics, `mult` times (a `quint64` product). -/
def creditSeq (mult : Nat) (ss : StreamStats) (s : PacketSequence) : StreamStats :=
  s.streamStatsMeta_.foldl
    (fun acc e => ssAdd acc e.1 (mult * e.2.tx_pkts % U64) (mult * e.2.tx_bytes % U64)) ss

/-- The number of packets sent during the last transmit, as
`updateTxStreamStats` computes it. -/
def txPktsDelta (cur last : Nat) : Nat :=
  if last < cur then cur - last else (cur + (ULLONG_MAX - last)) % U64

/-- Loop `for (int k = 0; k < rptSz; k++)` of the full-revolution walk. -/
def creditK (mult : Nat) (i : Int) : Nat → Int → PcapTxThread → Except Fault PcapTxThread
  | 0, _, t => .ok t
  | n + 1, k, t =>
    match seqAt t (i + k) with
    | none => .error .seqIndex
    | some (_, seq) =>
      creditK mult i n (k + 1) { t with streamStats_ := creditSeq mult t.streamStats_ seq }

/-- First walk of `updateTxStreamStats` (complete repeats of the list), from
the test of `while (i < packetSequenceList_.size())`. -/
def creditWalk (c : Int) : Nat → Int → PcapTxThread → Outcome
  | 0, _, t => ⟨.outOfFuel, t⟩
  | fuel + 1, i, t =>
    if i < t.packetSequenceList_.length then
      match seqAt t i with
      | none => ⟨.fault .seqIndex, t⟩
      | some (_, head) =>
        match creditK (toU64 (toInt32 (c * head.repeatCount_))) i head.repeatSize_.toNat 0 t with
        | .error f => ⟨.fault f, t⟩
        | .ok t1 => creditWalk c fuel (toInt32 (i + head.repeatSize_)) t1
    else ⟨.finished, t⟩

/-- Record-by-record walk `while (d && hdr < end)` of a sequence's buffer. -/
def lastRecords (P : SeqParams) : List Record → Int → StreamStats → Int × StreamStats
  | [], d, ss => (d, ss)
  | r :: rs, d, ss =>
    if d = 0 then (d, ss)
    else
      let ss1 := match P.packetGuid r.data r.hdr.caplen with
        | some guid => ssAdd ss guid 1 r.hdr.caplen
        | none => ss
      lastRecords P rs (toInt32 (d - 1)) ss1

/-- Result of the loops of the last-repeat walk: they ran to their end with
`d` left, or reached `_done`, or a fault. -/
inductive LastResult where
  | next (d : Int) (t : PcapTxThread)
  | done (t : PcapTxThread)
  | abort (f : Fault) (t : PcapTxThread)

/-- Loop `for (int k = 0; k < rptSz; k++)` of the last-repeat walk. -/
def lastK (P : SeqParams) (i : Int) : Nat → Int → Int → PcapTxThread → LastResult
  | 0, _, d, t => .next d t
  | n + 1, k, d, t =>
    match seqAt t (i + k) with
    | none => .abort .seqIndex t
    | some (_, seq) =>
      if seq.packets_ = 0 then .abort .packetsAssert t
      else if seq.packets_ ≤ d then
        lastK P i n (k + 1) (toInt32 (d - seq.packets_))
          { t with streamStats_ := creditSeq 1 t.streamStats_ seq }
      else
        let res := lastRecords P seq.records d t.streamStats_
        if res.1 = 0 then .done { t with streamStats_ := res.2 }
        else .abort .dAssert { t with streamStats_ := res.2 }

/-- Loop `for (int j = 0; j < rptCnt; j++)` of the last-repeat walk. -/
def lastJ (P : SeqParams) (i rptSz : Int) : Nat → Int → PcapTxThread → LastResult
  | 0, d, t => .next d t
  | n + 1, d, t =>
    match lastK P i rptSz.toNat 0 d t with
    | .next d1 t1 => lastJ P i rptSz n d1 t1
    | r => r

/-- Second walk of `updateTxStreamStats` (last repeat of the list, possibly
cut short), from the test of `while (i < packetSequenceList_.size())`. -/
def lastWalk (P : SeqParams) : Nat → Int → Int → PcapTxThread → Outcome
  | 0, _, _, t => ⟨.outOfFuel, t⟩
  | fuel + 1, i, d, t =>
    if i < t.packetSequenceList_.length then
      match seqAt t i with
      | none => ⟨.fault .seqIndex, t⟩
      | some (_, head) =>
        match lastJ P i head.repeatSize_ head.repeatCount_.toNat d t with
        | .abort f t1 => ⟨.fault f, t1⟩
        | .done t1 => ⟨.finished, t1⟩
        | .next d1 t1 => lastWalk P fuel (toInt32 (i + head.repeatSize_)) d1 t1
    else ⟨.finished, t⟩

/-- The two walks of `updateTxStreamStats` for given `c` and `d`: the first
is skipped when `c` is zero (`goto _last_repeat`), the second when `d` is zero
(`goto _done`). -/
def updateWalks (P : SeqParams) (fuel : Nat) (c d : Int) (t : PcapTxThread) : Outcome :=
  let o1 : Outcome := if c = 0 then ⟨.finished, t⟩ else creditWalk c fuel 0 t
  match o1 with
  | ⟨.finished, t1⟩ => if d = 0 then ⟨.finished, t1⟩ else lastWalk P fuel 0 d t1
  | o => o

/-- The local `int c = pkts/packetListSize_` of `updateTxStreamStats`: the
`quint64` quotient stored in an `int`. -/
def statsC (t : PcapTxThread) : Int :=
  toInt32 ((txPktsDelta t.stats_.pkts t.lastStats_.pkts / t.packetListSize_ : Nat) : Int)

/-- The local `int d = pkts%packetListSize_` of `updateTxStreamStats`: the
`quint64` remainder stored in an `int`. -/
def statsD (t : PcapTxThread) : Int :=
  toInt32 ((txPktsDelta t.stats_.pkts t.lastStats_.pkts % t.packetListSize_ : Nat) : Int)

/-- Method `PcapTxThread::updateTxStreamStats`, each of its two walks with
`fuel` units of fuel. -/
def updateTxStreamStats (P : SeqParams) (fuel : Nat) (t : PcapTxThread) : Outcome :=
  if t.packetListSize_ = 0 then ⟨.finished, t⟩
  else updateWalks P fuel (statsC t) (statsD t) t

/-- The code of `run` from the label `_exit2`: the stream statistics when they
are tracked, then `state_ = kFinished`. -/
def runExit (P : SeqParams) (fuel : Nat) (t : PcapTxThread) : Outcome :=
  if t.trackStreamStats_ then
    match updateTxStreamStats P fuel t with
    | ⟨.finished, t1⟩ => ⟨.finished, { t1 with state_ := TxState.kFinished }⟩
    | o => o
  else ⟨.finished, { t with state_ := TxState.kFinished }⟩

/-- State of `run` when it enters the outer walk: the snapshot `lastStats_`,
the T-Tag variables, `state_ = kRunning`. -/
def runInit (t : PcapTxThread) : PcapTxThread :=
  { t with
      lastStats_ := t.stats_
      ttagMarkerIndex_ := 0
      nextTtagPkt_ := toU64 ((t.stats_.pkts : Int) + t.firstTtagPkt_)
      state_ := TxState.kRunning
      overHead := 0 }

/-- Method `PcapTxThread::run`, with `fuel` units of fuel for the outer walk
and for each walk of the stream statistics. The local `overHead` starts at
zero. -/
def run (P : SeqParams) (env : Env) (fuel : Nat) (t : PcapTxThread) : Outcome :=
  if t.packetSequenceList_.length = 0 then runExit P fuel { t with overHead := 0 }
  else
    match walk env fuel 0 (runInit t) with
    | ⟨.finished, t1⟩ => runExit P fuel t1
    | o => o

/-! ## Reference definitions for the checksum and the T-Tag markers -/

/-- Sum of the big-endian 16-bit words of a byte string, a trailing odd byte
padded with a zero byte (RFC 1071). -/
def sumWords : List Nat → Nat
  | [] => 0
  | [a] => a * 256
  | a :: b :: rest => a * 256 + b + sumWords rest

/-- The Internet checksum computed from scratch (RFC 1071): the ones'
complement of the carry-folded sum of the pseudo-header sum and the 16-bit
words of the covered bytes. -/
def inetChecksum (pseudo : Nat) (covered : List Nat) : Nat :=
  not16 (foldCksum (pseudo + sumWords covered))

/-- Weight of the byte at an offset of a word-aligned byte string: the high
byte of a word at even offsets, the low byte at odd ones. -/
def byteWeight (i : Nat) : Nat := if i % 2 = 0 then 256 else 1

/-- The three variables the T-Tag test of `sendQueueTransmit` reads and
writes: `stats_->pkts`, `nextTtagPkt_` and `ttagMarkerIndex_`. -/
structure Stamper where
  pkts : Nat
  next : Nat
  idx : Nat
deriving DecidableEq, Repr

/-- The stamper variables of a thread state. -/
def stamperOf (t : PcapTxThread) : Stamper :=
  ⟨t.stats_.pkts, t.nextTtagPkt_, t.ttagMarkerIndex_⟩

/-- The stamper variables as `run` initialises them when the packet counter
is `start`. -/
def stamperStart (t : PcapTxThread) (start : Nat) : Stamper :=
  ⟨start, toU64 ((start : Int) + t.firstTtagPkt_), 0⟩

/-- Effect of one iteration of the loop of `sendQueueTransmit` on the stamper
variables: the test `stats_->pkts == nextTtagPkt_`, the advance when it holds,
and `stats_->pkts++`. Returns whether the packet is stamped. -/
def stamperTick (deltas : List Nat) (s : Stamper) : Except Fault (Bool × Stamper) :=
  if s.pkts = s.next then
    match deltas[s.idx]? with
    | none => .error .markerIndex
    | some d =>
      .ok (true, ⟨(s.pkts + 1) % U64, (s.next + d) % U64,
        if deltas.length ≤ s.idx + 1 then 0 else s.idx + 1⟩)
  else .ok (false, ⟨(s.pkts + 1) % U64, s.next, s.idx⟩)

/-- The stamper variables after `k` packets. -/
def stamperAfter (deltas : List Nat) : Nat → Stamper → Except Fault Stamper
  | 0, s => .ok s
  | k + 1, s =>
    match stamperTick deltas s with
    | .ok (_, s1) => stamperAfter deltas k s1
    | .error f => .error f

/-- Whether the packet with index `k` (counted from the stamper state `s`) is
stamped. -/
def stampedAt (deltas : List Nat) (k : Nat) (s : Stamper) : Except Fault Bool :=
  match stamperAfter deltas k s with
  | .ok s1 =>
    match stamperTick deltas s1 with
    | .ok (b, _) => .ok b
    | .error f => .error f
  | .error f => .error f

/-- Index, relative to the start of the run, of the `j`-th packet the markers
`m` with repeat interval `ri` ask to stamp: `m[j mod n] + (j div n) * ri`. -/
def markerPos (m : List Nat) (ri j : Nat) : Nat :=
  m.getD (j % m.length) 0 + (j / m.length) * ri

/-! ## Sequences of builder calls -/

/-- State of a `PcapTxThread` after its constructor: `state_`, `stop_` and
`trackStreamStats_` as the constructor sets them, the packet list cleared, and
zero for the members the constructor leaves unset (with `firstTtagPkt_ = -1`,
no T-Tag). -/
def PcapTxThread.initial : PcapTxThread :=
  { state_ := TxState.kNotStarted
    stop_ := false
    trackStreamStats_ := false
    stats_ := ⟨0, 0⟩
    lastStats_ := ⟨0, 0⟩
    packetSequenceList_ := []
    currentPacketSequence_ := none
    repeatSequenceStart_ := -1
    repeatSize_ := 0
    packetCount_ := 0
    packetListSize_ := 0
    returnToQIdx_ := -1
    loopDelay_ := 0
    firstTtagPkt_ := -1
    ttagDeltaMarkers_ := []
    ttagMarkerIndex_ := 0
    nextTtagPkt_ := 0
    ttagId_ := 0
    streamStats_ := []
    overHead := 0
    sunk := []
    slept := []
    due := [] }

/-- One call of the packet-list building interface. -/
inductive Call where
  | loopNext (size repeats repeatDelaySec repeatDelayNsec : Int)
  | append (sec nsec : Int) (packet : List Nat) (length : Nat)

/-- Effect of one building call; `none` when the call aborts. -/
def applyCall (P : SeqParams) (t : PcapTxThread) : Call → Option PcapTxThread
  | .loopNext size repeats sec nsec => some (loopNextPacketSet P t size repeats sec nsec)
  | .append sec nsec packet length =>
    match appendToPacketList P t sec nsec packet length with
    | some r => some r.2
    | none => none

/-- Effect of a sequence of building calls, in order. -/
def applyCalls (P : SeqParams) : PcapTxThread → List Call → Option PcapTxThread
  | t, [] => some t
  | t, c :: cs =>
    match applyCall P t c with
    | some t1 => applyCalls P t1 cs
    | none => none

/-- Sum over the sequences of a list of `packets × repeat_count`, each
sequence weighted by its own repeat count. -/
def listWeight (l : List PacketSequence) : Int :=
  (l.map (fun s => s.packets_ * s.repeatCount_)).sum

/-- Whether a building call opens a packet set of size zero. -/
def Call.opensEmptySet : Call → Bool
  | .loopNext size _ _ _ => decide (toU64 size = 0)
  | .append _ _ _ _ => false

/-- A building call that opens a packet set. -/
def Call.isLoopNext : Call → Bool
  | .loopNext _ _ _ _ => true
  | .append _ _ _ _ => false

/-- Invariant behind the packet list size: it is the weight of the list
modulo `2 ^ 64`, and a packet set is open only with a non-zero size. -/
def WeightInv (t : PcapTxThread) : Prop :=
  (t.packetListSize_ : Int) = listWeight t.packetSequenceList_ % 18446744073709551616 ∧
  (t.currentPacketSequence_ ≠ none → t.repeatSize_ ≠ 0)


/-- Whether every packet set opened by a sequence of building calls is
completed: `loopNextPacketSet` is only called with no set open, no call
aborts, and no set is open at the end. -/
def allCompleted (P : SeqParams) : PcapTxThread → List Call → Bool
  | t, [] => t.currentPacketSequence_.isNone
  | t, c :: cs =>
    (!c.isLoopNext || t.currentPacketSequence_.isNone) &&
      match applyCall P t c with
      | some t1 => allCompleted P t1 cs
      | none => false

/-- Shape of the sequences of one completed packet set: the head's
`repeatSize_` is the number of sequences when there are several and the value
a fresh sequence starts with when it is alone; every other sequence keeps the
value a fresh sequence starts with. -/
def GroupOk (P : SeqParams) (g : List PacketSequence) : Prop :=
  ∃ h tl, g = h :: tl ∧ (∀ s ∈ tl, s.repeatSize_ = P.repeatSize0) ∧
    h.repeatSize_ = if tl = [] then P.repeatSize0 else ((tl.length + 1 : Nat) : Int)

/-- Invariant behind the group structure, for `n` packet sets opened so far:
the list is the completed sets `gs` in order, followed, when a set is open, by
its sequences (from index `k` on), all with the `repeatSize_` of a fresh
sequence, the last of them current. -/
def GroupInv (P : SeqParams) (n : Nat) (t : PcapTxThread) : Prop :=
  ∃ gs : List (List PacketSequence), (∀ g ∈ gs, GroupOk P g) ∧
    match t.currentPacketSequence_ with
    | none => gs.length = n ∧ t.packetSequenceList_ = gs.flatten
    | some c =>
      gs.length + 1 = n ∧ ∃ k : Nat, c + 1 = t.packetSequenceList_.length ∧
      t.repeatSequenceStart_ = (k : Int) ∧ k ≤ c ∧
      t.packetSequenceList_.take k = gs.flatten ∧
      ∀ s ∈ t.packetSequenceList_.drop k, s.repeatSize_ = P.repeatSize0
/-! ## Concrete programs used as witnesses and failing inputs -/

/-- Parameters of the examples: a send queue of 200 bytes, a 24-byte
`pcap_pkthdr`, fresh sequences with repeat count 1 and repeat size 1, and no
signed packets. -/
def demoParams : SeqParams := ⟨200, 24, 1, 1, fun _ _ => none⟩

/-- The parameters of the examples with fresh sequences of repeat size 0. -/
def demoParamsZero : SeqParams := ⟨200, 24, 1, 0, fun _ _ => none⟩

/-- A packet of 60 zero bytes. -/
def demoPacket : List Nat := List.replicate 60 0

/-- The cleared thread state the examples start from. -/
def demoCleared : PcapTxThread := (clearPacketList PcapTxThread.initial).getD PcapTxThread.initial

/-- One packet set of three 60-byte packets, five repeats and an inter-repeat
delay of 10 ms; the third packet does not fit the 200-byte send queue and
rolls over into a second sequence. -/
def demoRollCalls : List Call :=
  [.loopNext 3 5 0 10000000, .append 0 0 demoPacket 60, .append 0 1000 demoPacket 60,
   .append 0 3000 demoPacket 60]

/-- One packet set of two 60-byte packets in a single sequence, five repeats
and an inter-repeat delay of 10 ms (scenario S2 of the spec). -/
def demoSingleCalls : List Call :=
  [.loopNext 2 5 0 10000000, .append 0 0 demoPacket 60, .append 0 1000 demoPacket 60]

/-- An environment in which no time is measured, `stop()` is never called and
the sink accepts every packet. -/
def demoEnv : Env := ⟨fun _ => 0, fun _ => false, fun _ => false, fun _ => true⟩

/-- A 65-byte UDP over IPv4 packet with the signature trailer `0x61 0x00 0x22
0x1d10c0da`: the UDP header starts at offset 34 and its checksum (offset 40)
is `0xb406`, the Internet checksum of the pseudo-header and the UDP bytes. -/
def demoPacket65 : List Nat :=
  [0, 1, 2, 3, 4, 5, 6, 7, 8, 9, 10, 11, 8, 0,
   0x45, 0, 0, 51, 0, 0, 0, 0, 64, 17, 0, 0, 10, 0, 0, 1, 10, 0, 0, 2,
   0x04, 0x00, 0x04, 0x01, 0, 31, 0xb4, 0x06,
   1, 2, 3, 4, 5, 6, 7, 8, 9, 10, 11, 12, 0xde, 0xad, 0xbe, 0xef,
   0x61, 0x00, 0x22, 0x1d, 0x10, 0xc0, 0xda]

/-- Sum of the pseudo-header words of `demoPacket65`: source and destination
address, protocol 17 and UDP length 31. -/
def demoPseudo65 : Nat := 0x0a00 + 0x0001 + 0x0a00 + 0x0002 + 17 + 31
/-! ## Invariants of a run -/

/-- What it takes for `I` to be an invariant of the transmit loop in the
environment `env`, with `sendQueueTransmit` called with the given `sync`:
every packet step, every tail delay and every loop delay keeps it; `X` is what
a packet step establishes when it leaves `stop_` set, and `F` what holds of
the state at a fault. -/
structure Preserved (env : Env) (sync : Bool) (I X : PcapTxThread → Prop)
    (F : Fault → PcapTxThread → Prop) : Prop where
  pkt : ∀ q idx off r ts t t1, I t →
    txPacket env q idx off sync r ts t = .ok t1 → I t1
  pktStop : ∀ q idx off r ts t t1, I t →
    txPacket env q idx off sync r ts t = .ok t1 → t1.stop_ = true → X t1
  pktFault : ∀ q idx off r ts t f, I t →
    txPacket env q idx off sync r ts t = .error f → F f t
  seqFault : ∀ t, I t → F Fault.seqIndex t
  tail : ∀ d t, I t → I (runDelay env d (d + t.overHead) t)
  loop : ∀ t, I t → 0 ≤ t.returnToQIdx_ →
    I (runDelay env (t.loopDelay_ : Int) (toInt64 ((t.loopDelay_ : Int) + t.overHead)) t)

/-- The faults the stream-statistics walks can end on. -/
def Fault.ofStats : Fault → Bool
  | .seqIndex => true
  | .packetsAssert => true
  | .dAssert => true
  | _ => false

/-- The faults the stamping block of `sendQueueTransmit` can end on. -/
def Fault.ofStamp : Fault → Bool
  | .ttagWrite => true
  | .cksumField => true
  | .markerIndex => true
  | _ => false
/-! ## Building calls between two clears -/

/-- One call made while a packet list is built: a packet-set call
(`loopNextPacketSet`, `appendToPacketList`) or `setPacketListLoopMode`. -/
inductive BuildOp where
  | call (c : Call)
  | loopMode (loop : Bool) (secDelay nsecDelay : Nat)

/-- Effect of one call of the building interface; `none` when it aborts. -/
def applyOp (P : SeqParams) (t : PcapTxThread) : BuildOp → Option PcapTxThread
  | .call c => applyCall P t c
  | .loopMode loop secDelay nsecDelay => some (setPacketListLoopMode t loop secDelay nsecDelay)

/-- Effect of a sequence of calls of the building interface, in order. -/
def applyOps (P : SeqParams) : PcapTxThread → List BuildOp → Option PcapTxThread
  | t, [] => some t
  | t, o :: os =>
    match applyOp P t o with
    | some t1 => applyOps P t1 os
    | none => none

/-- A state with the members of the packet list set to what `clearPacketList`
leaves: the empty program. -/
def emptyProgram (t : PcapTxThread) : PcapTxThread :=
  { t with
      packetSequenceList_ := []
      currentPacketSequence_ := none
      repeatSequenceStart_ := -1
      repeatSize_ := 0
      packetCount_ := 0
      packetListSize_ := 0
      returnToQIdx_ := -1
      loopDelay_ := 0 }

/-- A program with loop mode on, three building calls and loop mode changed
again. -/
def demoOps : List BuildOp :=
  [.loopMode true 1 500000, .call (.loopNext 2 5 0 10000000),
   .call (.append 0 0 demoPacket 60), .call (.append 0 1000 demoPacket 60),
   .loopMode true 0 0]
/-! ## Further concrete programs and environments -/

/-- The parameters of the examples with every packet signed for stream guid
7. -/
def demoGuidParams : SeqParams := ⟨200, 24, 1, 1, fun _ _ => some 7⟩

/-- The cleared thread state with stream-statistics tracking switched on
(`setStreamStatsTracking(true)`). -/
def demoTracked : PcapTxThread := { demoCleared with trackStreamStats_ := true }

/-- Scenario S6 of the spec: a packet set of three 60-byte packets and three
repeats, whose third packet rolls over into a second sequence (a group of two
sequences), then a packet set of one packet and two repeats. -/
def demoS6Calls : List Call :=
  [.loopNext 3 3 0 0, .append 0 0 demoPacket 60, .append 0 0 demoPacket 60,
   .append 0 0 demoPacket 60, .loopNext 1 2 0 0, .append 0 0 demoPacket 60]

/-- Scenario S2 of the spec with both packets on the same timestamp: one
packet set of two packets in a single sequence, five repeats and an
inter-repeat gap of 10 ms. -/
def demoS2Calls : List Call :=
  [.loopNext 2 5 0 10000000, .append 0 0 demoPacket 60, .append 0 0 demoPacket 60]

/-- One packet set of a single packet, no repeats. -/
def demoOneCalls : List Call := [.loopNext 1 1 0 0, .append 0 0 demoPacket 60]

/-- Two packet sets of one packet each, both with `2 ^ 31 - 1` repeats. -/
def demoHugeCalls : List Call :=
  [.loopNext 1 2147483647 0 0, .append 0 0 demoPacket 60,
   .loopNext 1 2147483647 0 0, .append 0 0 demoPacket 60]

/-- The state a sequence of building calls leaves, from a given state (the
given state itself when a call aborts). -/
def built (P : SeqParams) (t : PcapTxThread) (calls : List Call) : PcapTxThread :=
  (applyCalls P t calls).getD t

/-- An environment in which the sink rejects the packet with index 2 and
accepts every other one. -/
def demoEnvReject : Env := ⟨fun _ => 0, fun _ => false, fun _ => false, fun k => k != 2⟩

/-- An environment in which `stop()` is called during the delay taken when
ten packets have been sunk. -/
def demoEnvLateStop : Env := ⟨fun _ => 0, fun _ => false, fun k => k == 10, fun _ => true⟩

/-- The one-packet program in loop mode, in the state a looping run leaves
that was stopped after `2 ^ 32` packets (of 60 bytes each). -/
def demoAfter32 : PcapTxThread :=
  { setPacketListLoopMode (built demoGuidParams demoTracked demoOneCalls) true 0 0 with
      stats_ := ⟨4294967296, 257698037760⟩ }

/-- The one-packet program in loop mode, in the state a looping run leaves
that was stopped after three packets. -/
def demoAfter3 : PcapTxThread :=
  { setPacketListLoopMode (built demoGuidParams demoTracked demoOneCalls) true 0 0 with
      stats_ := ⟨3, 180⟩ }

/-- The program of `demoHugeCalls`, in the state a run leaves that was stopped
after `2 ^ 31 + 5` packets. -/
def demoAfterHuge : PcapTxThread :=
  { built demoGuidParams demoTracked demoHugeCalls with
      stats_ := ⟨2147483653, 128849019180⟩ }

/-- An environment in which `stop()` is called while the packet with index 3
is processed. -/
def demoEnvStopAt3 : Env := ⟨fun _ => 0, fun k => k == 3, fun _ => false, fun _ => true⟩

/-- An environment in which `stop()` is called while the packet with index 10
is processed. -/
def demoEnvStopAt10 : Env := ⟨fun _ => 0, fun k => k == 10, fun _ => false, fun _ => true⟩

/-- An environment in which 3 µs are measured before every packet and `stop()`
is called while the packet with index 10 is processed. -/
def demoEnvSlow : Env := ⟨fun _ => 3, fun k => k == 10, fun _ => false, fun _ => true⟩

/-- Scenario S2 in loop mode with a loop delay of 5 ms
(`setPacketListLoopMode(true, 0, 5000000)`). -/
def demoLoop5ms : PcapTxThread :=
  setPacketListLoopMode (built demoParams demoCleared demoS2Calls) true 0 5000000

/-- Scenario S2 in loop mode with a loop delay of 9223372036855 s, which is
more than `2 ^ 63` µs (`setPacketListLoopMode(true, 9223372036855, 0)`). -/
def demoLoopHuge : PcapTxThread :=
  setPacketListLoopMode (built demoParams demoCleared demoS2Calls) true 9223372036855 0

/-- One action of a run that is neither stopped nor stamping: sinking record
`idx` of sequence `q` (the record `r`, with the anchor timestamp `ts` its gap
is measured from), or a tail delay of `usecs` microseconds falling due. -/
inductive Step where
  | frame (q idx : Nat) (r : Record) (ts : Timeval)
  | tail (usecs : Int)

/-- The records of a sequence in buffer order, from record `idx` on; the
anchor of each record is the timestamp of the record before it. -/
def recSteps (q : Nat) : List Record → Nat → Timeval → List Step
  | [], _, _ => []
  | r :: rs, idx, ts => .frame q idx r ts :: recSteps q rs (idx + 1) r.hdr.ts

/-- One pass over sequence `q`: its records in buffer order (the first anchor
is the first record's own timestamp), then its tail delay. -/
def seqSteps (q : Nat) (s : PacketSequence) : List Step :=
  recSteps q s.records 0
    (match s.records with
      | r :: _ => r.hdr.ts
      | [] => ⟨0, 0⟩) ++ [.tail s.usecDelay_]

/-- One pass over the `n` sequences `seq[i+k], seq[i+k+1], ...` in index
order. -/
def setSteps (l : List PacketSequence) (i : Nat) : Nat → Nat → List Step
  | 0, _ => []
  | n + 1, k =>
    (match l[i + k]? with
      | some s => seqSteps (i + k) s
      | none => []) ++ setSteps l i n (k + 1)

/-- The group at head `i`: `rptCnt` times in a row the pass over its `rptSz`
sequences. -/
def groupSteps (l : List PacketSequence) (i rptSz rptCnt : Nat) : List Step :=
  (List.replicate rptCnt (setSteps l i rptSz 0)).flatten

/-- One revolution of the program from group head `i`: each group in list
order, with the repeat size and repeat count of its head sequence; `fuel`
bounds the number of groups. -/
def programSteps (l : List PacketSequence) : Nat → Nat → List Step
  | 0, _ => []
  | fuel + 1, i =>
    match l[i]? with
    | none => []
    | some h =>
      groupSteps l i h.repeatSize_.toNat h.repeatCount_.toNat ++
        programSteps l fuel (i + h.repeatSize_.toNat)

/-- Whether the list is made of groups from index `i` on, at most `fuel` of
them: every group head has a repeat size of at least 1 and its span lies
inside the list. -/
def grouped (l : List PacketSequence) : Nat → Nat → Bool
  | 0, _ => false
  | fuel + 1, i =>
    match l[i]? with
    | none => false
    | some h =>
      decide (1 ≤ h.repeatSize_) && decide (i + h.repeatSize_.toNat ≤ l.length) &&
        (decide (l.length ≤ i + h.repeatSize_.toNat) ||
          grouped l fuel (i + h.repeatSize_.toNat))

/-- Number of frames among a list of steps. -/
def frameCount : List Step → Nat
  | [] => 0
  | .frame _ _ _ _ :: ss => frameCount ss + 1
  | .tail _ :: ss => frameCount ss

/-- Sum of the captured lengths of the frames among a list of steps. -/
def frameBytes : List Step → Nat
  | [] => 0
  | .frame _ _ r _ :: ss => r.hdr.caplen + frameBytes ss
  | .tail _ :: ss => frameBytes ss

/-- The calls of `pcap_sendpacket` a list of steps stands for, when `n`
packets were sunk before: each frame unstamped, with the bytes of its record. -/
def stepEvents (env : Env) : Nat → List Step → List TxEvent
  | _, [] => []
  | n, .frame q idx r _ :: ss =>
    ⟨q, idx, r.hdr, r.data, false, env.sinkOk n⟩ :: stepEvents env (n + 1) ss
  | n, .tail _ :: ss => stepEvents env n ss

/-- Sum of the delays that fall due in a list of steps: the gap of each frame
to its anchor, and the tail delays. -/
def stepsDue : List Step → Int
  | [] => 0
  | .frame _ _ r ts :: ss =>
    (r.hdr.ts.tv_sec - ts.tv_sec) * 1000000 + (r.hdr.ts.tv_usec - ts.tv_usec) + stepsDue ss
  | .tail usecs :: ss => usecs + stepsDue ss

/-- Sum of the times measured before the `m` packets that follow the first
`n`. -/
def measured (env : Env) (n : Nat) : Nat → Int
  | 0 => 0
  | m + 1 => measured env n m + (env.elapsed (n + m) : Int)

/-- Effect of one step on the state when the packet is not stamped: for a
frame the delay before the packet, the sink call and the counters; for a tail
delay the delay policy. -/
def playStep (env : Env) : Step → PcapTxThread → PcapTxThread
  | .frame q idx r ts, t =>
    let n := t.sunk.length
    let o := t.overHead - env.elapsed n
    let usec := (r.hdr.ts.tv_sec - ts.tv_sec) * 1000000 + (r.hdr.ts.tv_usec - ts.tv_usec)
    let t2 := applyDelay (usec + o) { t with overHead := o, due := t.due ++ [usec] }
    { t2 with
        stats_ := ⟨(t2.stats_.pkts + 1) % U64, (t2.stats_.bytes + r.hdr.caplen) % U64⟩
        sunk := t2.sunk ++ [⟨q, idx, r.hdr, r.data, false, env.sinkOk n⟩]
        stop_ := t2.stop_ || env.stopReq n }
  | .tail usecs, t => runDelay env usecs (usecs + t.overHead) t

/-- Effect of a list of steps, in order. -/
def playSteps (env : Env) : List Step → PcapTxThread → PcapTxThread
  | [], t => t
  | s :: ss, t => playSteps env ss (playStep env s t)

/-- No packet among the next `m` is due for a T-Tag: the packet counter does
not meet `nextTtagPkt_`. -/
def Clear (m : Nat) (t : PcapTxThread) : Prop :=
  ∀ j, j < m → (t.stats_.pkts + j) % U64 ≠ t.nextTtagPkt_

/-- Every record of the list has a captured length that is not zero. -/
def AllSendable (l : List PacketSequence) : Prop :=
  ∀ s ∈ l, ∀ r ∈ s.records, r.hdr.caplen ≠ 0

/-- In the environment `stop()` is never called. -/
def NeverStopped (env : Env) : Prop :=
  (∀ k, env.stopReq k = false) ∧ (∀ k, env.stopReqDelay k = false)

/-- What the expansion of a one-shot run needs of a state with the packet
list `l` and `m` packets ahead: `stop_` clear, the overhead not positive, the
counters within 64 bits, no T-Tag due, loop mode off. -/
structure Ready (l : List PacketSequence) (m : Nat) (t : PcapTxThread) : Prop where
  list : t.packetSequenceList_ = l
  stop : t.stop_ = false
  over : t.overHead ≤ 0
  pkts : t.stats_.pkts < U64
  bytes : t.stats_.bytes < U64
  clear : Clear m t
  oneShot : t.returnToQIdx_ < 0

/-- What identifies a sunk frame: its sequence, the index of its record and
the header of the record. -/
def TxEvent.key (e : TxEvent) : Nat × Nat × PktHdr := (e.seq, e.idx, e.hdr)

theorem foldLoop_spec : ∀ n x, x ≤ n → foldLoop n x = if x = 0 then 0 else (x - 1) % 65535 + 1 := by
  intro n
  induction n with
  | zero => intro x hx; have : x = 0 := by omega
            subst this; simp [foldLoop]
  | succ n ih =>
    intro x hx
    unfold foldLoop
    by_cases h : 0xffff < x
    · have e1 : x &&& 0xffff = x % 65536 := Nat.and_pow_two_sub_one_eq_mod x 16
      have e2 : x >>> 16 = x / 65536 := Nat.shiftRight_eq_div_pow x 16
      rw [if_pos h, e1, e2, ih _ (by omega)]
      have h0 : ¬ x = 0 := by omega
      have h1 : ¬ (x % 65536 + x / 65536 = 0) := by omega
      rw [if_neg h0, if_neg h1]
      omega
    · rw [if_neg h]
      split <;> omega

theorem foldCksum_spec (x : Nat) : foldCksum x = if x = 0 then 0 else (x - 1) % 65535 + 1 :=
  foldLoop_spec x x (Nat.le_refl x)

set_option maxRecDepth 100000 in
theorem lor_6100 : ∀ i < 256, 0x6100 ||| i = 0x6100 + i := by decide
set_option maxRecDepth 100000 in
theorem shl_23 : ∀ i < 256, (i <<< 8 ||| 0x23) = 256 * i + 0x23 := by decide

theorem sumWords_set : ∀ (l : List Nat) (i v : Nat), i < l.length →
    sumWords (l.set i v) + byteWeight i * l.getD i 0 = sumWords l + byteWeight i * v
  | [], i, v, h => by simp at h
  | [a], i, v, h => by
    have : i = 0 := by simpa using h
    subst this
    simp [sumWords, byteWeight]; omega
  | a :: b :: rest, 0, v, _ => by simp [sumWords, byteWeight]; omega
  | a :: b :: rest, 1, v, _ => by simp [sumWords, byteWeight]; omega
  | a :: b :: rest, i + 2, v, h => by
    have ih := sumWords_set rest i v (by simpa using h)
    have hw : byteWeight (i + 2) = byteWeight i := by simp [byteWeight]
    simp only [List.set_cons_succ, sumWords, hw, List.getD_cons_succ]
    omega

theorem sumWords_drop_set (l : List Nat) (k i v : Nat) (hk : k % 2 = 0) (hki : k ≤ i)
    (hi : i < l.length) :
    sumWords ((l.set i v).drop k) + byteWeight i * l.getD i 0
      = sumWords (l.drop k) + byteWeight i * v := by
  rw [List.drop_set, if_neg (by omega)]
  have h := sumWords_set (l.drop k) (i - k) v (by simp; omega)
  have hw : byteWeight (i - k) = byteWeight i := by
    simp only [byteWeight]
    have : (i - k) % 2 = i % 2 := by omega
    rw [this]
  have hg : (l.drop k).getD (i - k) 0 = l.getD i 0 := by
    simp only [List.getD_eq_getElem?_getD, List.getElem?_drop]
    congr 2; omega
  rw [hw, hg] at h
  exact h


theorem not16_le (x : Nat) : not16 x ≤ 65535 := by unfold not16; omega

theorem readBE16_set_ne (l : List Nat) (off i v : Nat) (h1 : i ≠ off) (h2 : i ≠ off + 1) :
    readBE16 (l.set i v) off = readBE16 l off := by
  simp [readBE16, List.getElem?_set, h1, h2]

theorem readBE16_writeBE16 (l : List Nat) (off v : Nat) (hv : v < 65536) (h : off + 1 < l.length) :
    readBE16 (writeBE16 l off v) off = v := by
  simp only [readBE16, writeBE16, List.getD_eq_getElem?_getD, List.getElem?_set, List.length_set]
  have h1 : off < l.length := by omega
  simp [h, h1]
  omega

theorem writeBE16_writeBE16 (l : List Nat) (off v w : Nat) :
    writeBE16 (writeBE16 l off v) off w = writeBE16 l off w := by
  simp only [writeBE16]
  apply List.ext_getElem?
  intro i
  simp only [List.getElem?_set, List.length_set]
  split <;> split <;> simp_all

theorem writeBE16_set_comm (l : List Nat) (off i v w : Nat) (h1 : i ≠ off) (h2 : i ≠ off + 1) :
    writeBE16 (l.set i v) off w = (writeBE16 l off w).set i v := by
  simp only [writeBE16]
  rw [List.set_comm _ _ _ h1, List.set_comm _ _ _ h2]

theorem length_writeBE16 (l : List Nat) (off v : Nat) : (writeBE16 l off v).length = l.length := by
  simp [writeBE16]

theorem getD_writeBE16_ne (l : List Nat) (off v i : Nat) (h1 : i ≠ off) (h2 : i ≠ off + 1) :
    (writeBE16 l off v).getD i 0 = l.getD i 0 := by
  simp only [writeBE16, List.getD_eq_getElem?_getD, List.getElem?_set]
  simp [Ne.symm h1, Ne.symm h2]

/-- Claim C8. For a packet of even or odd length whose trailer holds the
placeholder bytes `0x00` at `len-6` and `0x22` at `len-5`, whose L4 words are
aligned to even packet offsets and cover the packet from `l4` to its end, and
whose 16-bit big-endian field at a non-zero `ttagL4CksumOffset_` (inside the
covered bytes, before the trailer) is the Internet checksum of the covered
words and of the pseudo-header sum, the checksum that stamping writes for any
`ttagId` below 256 is the Internet checksum recomputed from scratch over the
stamped bytes. The trailer bytes `0x61` and `0x1d` of the claim are not
needed. -/
theorem stamp_checksum_recomputed (pkt : List Nat) (l4 off ttagId pseudo : Nat)
    (hid : ttagId < 256)
    (hl4 : l4 % 2 = 0) (hl4off : l4 ≤ off) (h0 : 0 < off)
    (hfield : off + 2 + 7 ≤ pkt.length)
    (h00 : pkt[pkt.length - 6]? = some 0x00)
    (h22 : pkt[pkt.length - 5]? = some 0x22)
    (hck : readBE16 pkt off = inetChecksum pseudo ((writeBE16 pkt off 0).drop l4)) :
    ∃ p orig, stampPacket pkt pkt.length ttagId off = .ok (p, orig) ∧
      readBE16 p off = inetChecksum pseudo ((writeBE16 p off 0).drop l4) := by
  have hstamp : stampPacket pkt pkt.length ttagId off =
      .ok (writeBE16 ((pkt.set (pkt.length - 5) kTypeLenTtag).set (pkt.length - 6) ttagId) off
        (not16 (foldCksum (newCksum32 pkt.length ttagId
          (readBE16 ((pkt.set (pkt.length - 5) kTypeLenTtag).set (pkt.length - 6) ttagId) off)))),
        readBE16 ((pkt.set (pkt.length - 5) kTypeLenTtag).set (pkt.length - 6) ttagId) off) := by
    unfold stampPacket
    rw [if_neg (by omega), if_neg (by omega), if_neg (by omega)]
  refine ⟨_, _, hstamp, ?_⟩
  have horig : readBE16 ((pkt.set (pkt.length - 5) kTypeLenTtag).set (pkt.length - 6) ttagId) off
      = readBE16 pkt off := by
    rw [readBE16_set_ne _ _ _ _ (by omega) (by omega), readBE16_set_ne _ _ _ _ (by omega) (by omega)]
  rw [horig, readBE16_writeBE16 _ _ _ (by have := not16_le (foldCksum (newCksum32 pkt.length ttagId (readBE16 pkt off))); omega) (by simp; omega),
    writeBE16_writeBE16, writeBE16_set_comm _ _ _ _ _ (by omega) (by omega),
    writeBE16_set_comm _ _ _ _ _ (by omega) (by omega)]
  -- the covered sums
  have hs1 := sumWords_drop_set ((writeBE16 pkt off 0).set (pkt.length - 5) kTypeLenTtag) l4
    (pkt.length - 6) ttagId hl4 (by omega) (by simp [length_writeBE16]; omega)
  have hs2 := sumWords_drop_set (writeBE16 pkt off 0) l4 (pkt.length - 5) kTypeLenTtag hl4
    (by omega) (by simp [length_writeBE16]; omega)
  have hg1 : ((writeBE16 pkt off 0).set (pkt.length - 5) kTypeLenTtag).getD (pkt.length - 6) 0 = 0 := by
    simp only [List.getD_eq_getElem?_getD]
    rw [List.getElem?_set_ne (by omega)]
    have := getD_writeBE16_ne pkt off 0 (pkt.length - 6) (by omega) (by omega)
    simp only [List.getD_eq_getElem?_getD] at this
    rw [this, h00]; rfl
  have hg2 : (writeBE16 pkt off 0).getD (pkt.length - 5) 0 = 0x22 := by
    have := getD_writeBE16_ne pkt off 0 (pkt.length - 5) (by omega) (by omega)
    rw [this]; simp only [List.getD_eq_getElem?_getD]; rw [h22]; rfl
  rw [hg1] at hs1
  rw [hg2] at hs2
  simp only [inetChecksum] at hck ⊢
  generalize sumWords (List.drop l4 (((writeBE16 pkt off 0).set (pkt.length - 5) kTypeLenTtag).set (pkt.length - 6) ttagId)) = S2 at hs1 ⊢
  generalize sumWords (List.drop l4 ((writeBE16 pkt off 0).set (pkt.length - 5) kTypeLenTtag)) = S1 at hs1 hs2
  generalize sumWords (List.drop l4 (writeBE16 pkt off 0)) = S0 at hs2 hck
  rw [hck]
  congr 1
  have hFA := foldCksum_spec (pseudo + S0)
  have hF2 := foldCksum_spec (pseudo + S2)
  generalize foldCksum (pseudo + S0) = FA at hFA ⊢
  generalize foldCksum (pseudo + S2) = F2 at hF2 ⊢
  have hFAle : FA ≤ 65535 := by rw [hFA]; split <;> omega
  have hFAmod : FA % 65535 = (pseudo + S0) % 65535 := by
    by_cases hA : pseudo + S0 = 0
    · rw [if_pos hA] at hFA; omega
    · rw [if_neg hA] at hFA; omega
  have hnn : not16 (not16 FA) = FA := by unfold not16; omega
  rw [foldCksum_spec]
  simp only [byteWeight, kTypeLenTtag] at hs1 hs2
  unfold newCksum32
  rw [hnn, lor_6100 ttagId hid, shl_23 ttagId hid]
  simp only [not16, U32]
  clear hFA hck hstamp horig hg1 hg2 h00 h22
  by_cases hpar : pkt.length % 2 = 1
  · have e5 : (pkt.length - 5) % 2 = 0 := by omega
    have e6 : ¬ (pkt.length - 6) % 2 = 0 := by omega
    rw [if_pos e5] at hs2
    rw [if_neg e6] at hs1
    rw [if_pos hpar]
    have h2 : ¬ pseudo + S2 = 0 := by omega
    rw [if_neg h2] at hF2
    have hX : (FA + (65535 - 8733 % 65536) + 8989 + (65535 - 24832 % 65536) + (24832 + ttagId))
        % 4294967296 = FA + 256 + ttagId + 65535 + 65535 := by omega
    have hS : pseudo + S2 - 1 = pseudo + S0 + 255 + ttagId := by omega
    rw [hF2, hX, if_neg (by omega), hS]
    have hL : FA + 256 + ttagId + 65535 + 65535 - 1 = (FA + 255 + ttagId) + 65535 + 65535 := by omega
    rw [hL, Nat.add_mod_right, Nat.add_mod_right]
    omega
  · have e5 : ¬ (pkt.length - 5) % 2 = 0 := by omega
    have e6 : (pkt.length - 6) % 2 = 0 := by omega
    rw [if_neg e5] at hs2
    rw [if_pos e6] at hs1
    rw [if_neg hpar]
    have h2 : ¬ pseudo + S2 = 0 := by omega
    rw [if_neg h2] at hF2
    have hX : (FA + (65535 - 34 % 65536) + (256 * ttagId + 35)) % 4294967296
        = FA + 1 + 256 * ttagId + 65535 := by omega
    have hS : pseudo + S2 - 1 = pseudo + S0 + 256 * ttagId := by omega
    rw [hF2, hX, if_neg (by omega), hS]
    have hL : FA + 1 + 256 * ttagId + 65535 - 1 = (FA + 256 * ttagId) + 65535 := by omega
    rw [hL, Nat.add_mod_right]
    omega

/-- Witness of claim C8: the 65-byte UDP packet `demoPacket65` stamped with
`ttagId = 0x5A`. -/
theorem stamp_checksum_recomputed_witness :
    ∃ p orig, stampPacket demoPacket65 demoPacket65.length 0x5A 40 = .ok (p, orig) ∧
      readBE16 p 40 = inetChecksum demoPseudo65 ((writeBE16 p 40 0).drop 34) :=
  stamp_checksum_recomputed demoPacket65 34 40 0x5A demoPseudo65 (by decide) (by decide)
    (by decide) (by decide) (by decide) (by decide) (by decide) (by decide)

/-! ## Stamp and restore -/

theorem getElem?_writeBE16 (l : List Nat) (off v i : Nat) :
    (writeBE16 l off v)[i]? =
      if i = off + 1 then (if off + 1 < l.length then some (v % 256) else none)
      else if i = off then (if off < l.length then some (v / 256 % 256) else none)
      else l[i]? := by
  simp only [writeBE16, List.getElem?_set, List.length_set]
  by_cases h1 : i = off + 1
  · subst h1; simp
  · by_cases h2 : i = off
    · subst h2; simp
    · simp [h1, h2, Ne.symm h1, Ne.symm h2]

theorem readBE16_eq (l : List Nat) (off a b : Nat) (ha : l[off]? = some a) (hb : l[off + 1]? = some b) :
    readBE16 l off = a * 256 + b := by
  simp [readBE16, ha, hb]

theorem stampPacket_cksum (pkt : List Nat) (ttagId off : Nat) (hlen : 6 ≤ pkt.length)
    (h0 : off ≠ 0) (hoff : off + 2 ≤ pkt.length) :
    stampPacket pkt pkt.length ttagId off =
      .ok (writeBE16 ((pkt.set (pkt.length - 5) kTypeLenTtag).set (pkt.length - 6) ttagId) off
        (not16 (foldCksum (newCksum32 pkt.length ttagId
          (readBE16 ((pkt.set (pkt.length - 5) kTypeLenTtag).set (pkt.length - 6) ttagId) off)))),
        readBE16 ((pkt.set (pkt.length - 5) kTypeLenTtag).set (pkt.length - 6) ttagId) off) := by
  unfold stampPacket
  rw [if_neg (by omega), if_neg h0, if_neg (by omega)]

/-- Claim C7, as amended. For every packet byte string of length at least 6
whose bytes at `len-6` and `len-5` are `0x00` and the placeholder `0x22`, and
every `ttagL4CksumOffset_` that is zero or points at a 16-bit field inside the
packet that does not overlap those two bytes, stamping succeeds and restoring
the stamped packet yields the original byte string. -/
theorem stamp_restore_roundtrip (pkt : List Nat) (ttagId off : Nat)
    (hlen : 6 ≤ pkt.length)
    (hbytes : ∀ b ∈ pkt, b < 256)
    (h00 : pkt[pkt.length - 6]? = some 0)
    (h22 : pkt[pkt.length - 5]? = some kTypeLenTtagPlaceholder)
    (hoff : off = 0 ∨ off + 2 ≤ pkt.length - 6 ∨ (pkt.length - 4 ≤ off ∧ off + 2 ≤ pkt.length)) :
    ∃ p orig, stampPacket pkt pkt.length ttagId off = .ok (p, orig) ∧
      restorePacket p pkt.length off orig = pkt := by
  by_cases h0 : off = 0
  · subst h0
    refine ⟨(pkt.set (pkt.length - 5) kTypeLenTtag).set (pkt.length - 6) ttagId, 0, ?_, ?_⟩
    · unfold stampPacket
      rw [if_neg (by omega)]; simp
    · unfold restorePacket
      simp only [ne_eq, not_true_eq_false, if_false]
      apply List.ext_getElem?
      intro i
      simp only [List.getElem?_set, List.length_set]
      by_cases h6 : pkt.length - 6 = i
      · subst h6; rw [if_pos rfl, if_pos (by omega), h00]
      · rw [if_neg h6]
        by_cases h5 : pkt.length - 5 = i
        · subst h5; rw [if_pos rfl, if_pos (by omega), h22]
        · rw [if_neg h5, if_neg h6, if_neg h5]
  · have hoff2 : off + 2 ≤ pkt.length - 6 ∨ (pkt.length - 4 ≤ off ∧ off + 2 ≤ pkt.length) := by
      rcases hoff with h | h
      · exact absurd h h0
      · exact h
    have hlt : off + 1 < pkt.length := by omega
    obtain ⟨a, ha⟩ : ∃ a, pkt[off]? = some a := ⟨pkt[off], by simp [List.getElem?_eq_getElem (by omega : off < pkt.length)]⟩
    obtain ⟨b, hb⟩ : ∃ b, pkt[off + 1]? = some b := ⟨pkt[off + 1], by simp [List.getElem?_eq_getElem hlt]⟩
    have ha256 : a < 256 := hbytes a (List.getElem?_mem ha)
    have hb256 : b < 256 := hbytes b (List.getElem?_mem hb)
    have horig : readBE16 ((pkt.set (pkt.length - 5) kTypeLenTtag).set (pkt.length - 6) ttagId) off
        = a * 256 + b := by
      apply readBE16_eq
      · rw [List.getElem?_set_ne (by omega), List.getElem?_set_ne (by omega), ha]
      · rw [List.getElem?_set_ne (by omega), List.getElem?_set_ne (by omega), hb]
    refine ⟨_, _, stampPacket_cksum pkt ttagId off hlen h0 (by omega), ?_⟩
    · rw [horig]
      unfold restorePacket
      rw [if_pos h0]
      apply List.ext_getElem?
      intro i
      simp only [List.getElem?_set, List.length_set, writeBE16]
      by_cases h1 : off + 1 = i
      · subst h1; rw [if_pos rfl, if_pos hlt, hb]; congr 1; omega
      · rw [if_neg h1]
        by_cases h2 : off = i
        · subst h2; rw [if_pos rfl, if_pos (by omega), ha]; congr 1; omega
        · rw [if_neg h2]
          by_cases h6 : pkt.length - 6 = i
          · subst h6; rw [if_pos rfl, if_pos (by omega), h00]
          · rw [if_neg h6]
            by_cases h5 : pkt.length - 5 = i
            · subst h5; rw [if_pos rfl, if_pos (by omega), h22]
            · rw [if_neg h5, if_neg h1, if_neg h2, if_neg h6, if_neg h5]

/-- Witness of claim C7: the 65-byte packet `demoPacket65` with its checksum
field at offset 40. -/
theorem stamp_restore_roundtrip_witness :
    ∃ p orig, stampPacket demoPacket65 demoPacket65.length 0x5A 40 = .ok (p, orig) ∧
      restorePacket p demoPacket65.length 40 orig = demoPacket65 :=
  stamp_restore_roundtrip demoPacket65 0x5A 40 (by decide) (by decide) (by decide) (by decide)
    (by decide)

/-- Counterexample to claim C7 as stated. A 6-byte string without the
placeholder bytes is not restored (the restoration writes the constants `0x00`
and `0x22`), and neither is an 8-byte packet with the placeholder bytes whose
checksum field lies on the two T-Tag bytes (the saved checksum is read after
the T-Tag bytes are written). -/
theorem stamp_restore_not_identity :
    (stampPacket [1, 2, 3, 4, 5, 6] 6 7 0 = .ok ([7, 0x23, 3, 4, 5, 6], 0) ∧
      restorePacket [7, 0x23, 3, 4, 5, 6] 6 0 0 = [0, 0x22, 3, 4, 5, 6]) ∧
    (∃ p orig, stampPacket [9, 9, 0, 0x22, 0x1d, 0x10, 0xc0, 0xda] 8 5 2 = .ok (p, orig) ∧
      restorePacket p 8 2 orig = [9, 9, 5, 0x23, 0x1d, 0x10, 0xc0, 0xda]) :=
  ⟨⟨by rfl, by rfl⟩, ⟨_, _, by rfl, by rfl⟩⟩

/-! ## T-Tag markers -/


theorem succ_divmod (n j : Nat) (hn : 0 < n) :
    (j % n + 1 < n → (j + 1) / n = j / n ∧ (j + 1) % n = j % n + 1) ∧
    (¬ j % n + 1 < n → (j + 1) / n = j / n + 1 ∧ (j + 1) % n = 0) := by
  have hdm := Nat.div_add_mod j n
  have hlt := Nat.mod_lt j hn
  constructor
  · intro h
    have e : j + 1 = (j % n + 1) + n * (j / n) := by omega
    rw [e, Nat.add_mul_div_left _ _ hn, Nat.add_mul_mod_self_left, Nat.div_eq_of_lt h,
      Nat.mod_eq_of_lt h]
    simp
  · intro h
    have e : j + 1 = n * (j / n + 1) := by
      rw [Nat.mul_add, Nat.mul_one]; omega
    rw [e, Nat.mul_div_cancel_left _ hn, Nat.mul_mod_right]
    simp

/-- Abstract cycling lemma. -/
theorem stamper_cycle (D : List Nat) (T : Nat → Nat) (start : Nat)
    (hn : 0 < D.length)
    (hstep : ∀ j, T (j + 1) = T j + D.getD (j % D.length) 0)
    (hpos : ∀ i, i < D.length → 0 < D.getD i 0 ∧ D.getD i 0 < U32)
    (hT0 : T 0 < U32) (k : Nat) :
    ∃ b, stampedAt D k ⟨start % U64, (start + T 0) % U64, 0⟩ = .ok b ∧
      (b = true ↔ ∃ j, k = T j) := by
  have hmono1 : ∀ j, T j < T (j + 1) := by
    intro j
    have := hpos (j % D.length) (Nat.mod_lt j hn)
    rw [hstep]; omega
  have hmono : ∀ a b, a < b → T a < T b := by
    intro a b hab
    induction b with
    | zero => omega
    | succ b ih =>
      by_cases h : a = b
      · subst h; exact hmono1 a
      · exact Nat.lt_trans (ih (by omega)) (hmono1 b)
  -- invariant
  have tick : ∀ k (s : Stamper), (∃ j, s = ⟨(start + k) % U64, (start + T j) % U64, j % D.length⟩ ∧
        k ≤ T j ∧ T j < k + U32 ∧ ∀ j', j' < j → T j' < k) →
      ∃ b s', stamperTick D s = .ok (b, s') ∧ (b = true ↔ ∃ j, k = T j) ∧
        (∃ j, s' = ⟨(start + (k + 1)) % U64, (start + T j) % U64, j % D.length⟩ ∧
          k + 1 ≤ T j ∧ T j < k + 1 + U32 ∧ ∀ j', j' < j → T j' < k + 1) := by
    intro k s ⟨j, hs, hle, hlt, hprev⟩
    subst hs
    have hjn := Nat.mod_lt j hn
    by_cases hdue : k = T j
    · -- stamped
      obtain ⟨d, hd⟩ : ∃ d, D[j % D.length]? = some d :=
        ⟨D[j % D.length], List.getElem?_eq_getElem hjn⟩
      have hdD : D.getD (j % D.length) 0 = d := by simp [hd]
      have hp := hpos _ hjn
      rw [hdD] at hp
      refine ⟨true, ⟨(start + (k + 1)) % U64, (start + T (j + 1)) % U64, (j + 1) % D.length⟩, ?_, ?_, ?_⟩
      · unfold stamperTick
        simp only [hdue, if_true, hd]
        have e1 : ((start + T j) % U64 + 1) % U64 = (start + (T j + 1)) % U64 := by
          unfold U64; omega
        have e2 : ((start + T j) % U64 + d) % U64 = (start + T (j + 1)) % U64 := by
          rw [hstep, hdD]; unfold U64; omega
        have e3 : (if D.length ≤ j % D.length + 1 then 0 else j % D.length + 1) = (j + 1) % D.length := by
          have := succ_divmod D.length j hn
          by_cases h : j % D.length + 1 < D.length
          · rw [if_neg (by omega), (this.1 h).2]
          · rw [if_pos (by omega), (this.2 h).2]
        rw [e1, e2, e3]
      · simp only [true_iff]; exact ⟨j, hdue⟩
      · refine ⟨j + 1, rfl, ?_, ?_, ?_⟩
        · have := hmono1 j; omega
        · rw [hstep, hdD]; omega
        · intro j' hj'
          by_cases h : j' = j
          · subst h; omega
          · have := hmono j' j (by omega); omega
    · refine ⟨false, ⟨(start + (k + 1)) % U64, (start + T j) % U64, j % D.length⟩, ?_, ?_, ?_⟩
      · unfold stamperTick
        have hne : ¬ (start + k) % U64 = (start + T j) % U64 := by
          unfold U64 U32 at *; omega
        simp only [hne, if_false]
        have e1 : ((start + k) % U64 + 1) % U64 = (start + (k + 1)) % U64 := by
          unfold U64; omega
        rw [e1]
      · simp only [Bool.false_eq_true, false_iff]
        rintro ⟨j', hj'⟩
        rcases Nat.lt_trichotomy j' j with h | h | h
        · have := hprev j' h; omega
        · subst h; exact hdue hj'
        · have := hmono j j' h; omega
      · refine ⟨j, rfl, by omega, by omega, ?_⟩
        intro j' hj'; have := hprev j' hj'; omega
  have after : ∀ steps k (s : Stamper), (∃ j, s = ⟨(start + k) % U64, (start + T j) % U64, j % D.length⟩ ∧
        k ≤ T j ∧ T j < k + U32 ∧ ∀ j', j' < j → T j' < k) →
      ∃ s', stamperAfter D steps s = .ok s' ∧
        (∃ j, s' = ⟨(start + (k + steps)) % U64, (start + T j) % U64, j % D.length⟩ ∧
          k + steps ≤ T j ∧ T j < k + steps + U32 ∧ ∀ j', j' < j → T j' < k + steps) := by
    intro steps
    induction steps with
    | zero => intro k s h; exact ⟨s, rfl, h⟩
    | succ steps ih =>
      intro k s h
      obtain ⟨b, s1, h1, _, hinv⟩ := tick k s h
      obtain ⟨s2, h2, hinv2⟩ := ih (k + 1) s1 hinv
      refine ⟨s2, ?_, ?_⟩
      · simp only [stamperAfter, h1]; exact h2
      · have e : k + 1 + steps = k + (steps + 1) := by omega
        rw [e] at hinv2; exact hinv2
  obtain ⟨s', hs', hinv⟩ := after k 0 ⟨start % U64, (start + T 0) % U64, 0⟩
    ⟨0, by simp [Nat.zero_mod], Nat.zero_le _, by omega, by intro j' h; omega⟩
  rw [Nat.zero_add] at hinv
  obtain ⟨b, s2, h2, hb, _⟩ := tick k s' hinv
  refine ⟨b, ?_, hb⟩
  simp only [stampedAt, hs', h2]


theorem markers_fields (t : PcapTxThread) (m : List Nat) (ri : Nat) (hne : m ≠ []) :
    (setPacketListTtagMarkers t m ri).ttagDeltaMarkers_ =
      (List.range (m.length - 1)).map
        (fun i => (m.getD (i + 1) 0 + U32 - m.getD i 0) % U32) ++
        [(ri + U32 - m.getD (m.length - 1) 0 + m.getD 0 0) % U32] ∧
    (setPacketListTtagMarkers t m ri).firstTtagPkt_ = toInt32 (m.getD 0 0) := by
  cases m with
  | nil => exact absurd rfl hne
  | cons a tl =>
    have hl : (a :: tl).getLast? = some ((a :: tl).getD ((a :: tl).length - 1) 0) := by
      rw [List.getLast?_eq_getElem?]
      simp only [List.getD_eq_getElem?_getD]
      have : (a :: tl).length - 1 < (a :: tl).length := by simp
      rw [List.getElem?_eq_getElem this]; rfl
    unfold setPacketListTtagMarkers
    rw [hl]
    simp

theorem markers_getD (t : PcapTxThread) (m : List Nat) (ri : Nat) (hne : m ≠ [])
    (hinc : m.Pairwise (fun a b => a < b)) (hlt : ∀ x ∈ m, x < ri) (hri : ri < U32) :
    (setPacketListTtagMarkers t m ri).ttagDeltaMarkers_.length = m.length ∧
    (∀ i, i + 1 < m.length →
      (setPacketListTtagMarkers t m ri).ttagDeltaMarkers_.getD i 0 + m.getD i 0 = m.getD (i + 1) 0 ∧
      m.getD i 0 < m.getD (i + 1) 0) ∧
    (setPacketListTtagMarkers t m ri).ttagDeltaMarkers_.getD (m.length - 1) 0
        + m.getD (m.length - 1) 0 = ri + m.getD 0 0 ∧
    m.getD 0 0 ≤ m.getD (m.length - 1) 0 ∧ m.getD (m.length - 1) 0 < ri := by
  have hpos : 0 < m.length := List.length_pos.mpr hne
  have hget : ∀ i, i < m.length → m.getD i 0 < ri := by
    intro i hi
    apply hlt
    rw [List.getD_eq_getElem _ _ hi]
    exact List.getElem_mem hi
  have hincr : ∀ i j, i < j → j < m.length → m.getD i 0 < m.getD j 0 := by
    intro i j hij hj
    rw [List.getD_eq_getElem _ _ hj, List.getD_eq_getElem _ _ (by omega : i < m.length)]
    exact List.pairwise_iff_getElem.mp hinc i j (by omega) hj hij
  rw [(markers_fields t m ri hne).1]
  refine ⟨by simp; omega, ?_, ?_, ?_, hget _ (by omega)⟩
  · intro i hi
    have h1 := hincr i (i + 1) (by omega) hi
    have h2 := hget (i + 1) hi
    refine ⟨?_, h1⟩
    simp only [List.getD_eq_getElem?_getD]
    rw [List.getElem?_append_left (by simp; omega)]
    simp only [List.getElem?_map, List.getElem?_range (by omega : i < m.length - 1),
      Option.map_some', Option.getD_some]
    simp only [List.getD_eq_getElem?_getD] at h1 h2 ⊢
    unfold U32 at *; omega
  · have h2 := hget (m.length - 1) (by omega)
    have h3 : m.getD 0 0 ≤ m.getD (m.length - 1) 0 := by
      by_cases h : m.length - 1 = 0
      · rw [h]
      · exact Nat.le_of_lt (hincr 0 (m.length - 1) (by omega) (by omega))
    simp only [List.getD_eq_getElem?_getD] at h2 h3 ⊢
    rw [List.getElem?_append_right (by simp)]
    simp
    unfold U32 at *; omega
  · by_cases h : m.length - 1 = 0
    · rw [h]
    · exact Nat.le_of_lt (hincr 0 (m.length - 1) (by omega) (by omega))

theorem markerPos_succ (t : PcapTxThread) (m : List Nat) (ri : Nat) (hne : m ≠ [])
    (hinc : m.Pairwise (fun a b => a < b)) (hlt : ∀ x ∈ m, x < ri) (hri : ri < U32) (j : Nat) :
    markerPos m ri (j + 1) = markerPos m ri j +
      (setPacketListTtagMarkers t m ri).ttagDeltaMarkers_.getD
        (j % (setPacketListTtagMarkers t m ri).ttagDeltaMarkers_.length) 0 := by
  obtain ⟨hlen, hmid, hlast, hle, _⟩ := markers_getD t m ri hne hinc hlt hri
  have hpos : 0 < m.length := List.length_pos.mpr hne
  rw [hlen]
  have hdm := succ_divmod m.length j hpos
  unfold markerPos
  by_cases h : j % m.length + 1 < m.length
  · rw [(hdm.1 h).1, (hdm.1 h).2]
    have := (hmid _ h).1
    omega
  · rw [(hdm.2 h).1, (hdm.2 h).2]
    have e : j % m.length = m.length - 1 := by
      have := Nat.mod_lt j hpos; omega
    rw [e, Nat.add_mul, Nat.one_mul]
    omega

theorem markers_sum (t : PcapTxThread) (m : List Nat) (ri : Nat) (hne : m ≠ [])
    (hinc : m.Pairwise (fun a b => a < b)) (hlt : ∀ x ∈ m, x < ri) (hri : ri < U32) :
    (setPacketListTtagMarkers t m ri).ttagDeltaMarkers_.sum = ri := by
  obtain ⟨hlen, _, _, _, _⟩ := markers_getD t m ri hne hinc hlt hri
  have hpos : 0 < m.length := List.length_pos.mpr hne
  have hstep := markerPos_succ t m ri hne hinc hlt hri
  generalize (setPacketListTtagMarkers t m ri).ttagDeltaMarkers_ = D at hlen hstep
  have hpre : ∀ k, k ≤ D.length → markerPos m ri k = markerPos m ri 0 + (D.take k).sum := by
    intro k
    induction k with
    | zero => intro _; simp
    | succ k ih =>
      intro hk
      rw [hstep, ih (by omega), Nat.mod_eq_of_lt (by omega), List.take_succ,
        List.sum_append, List.getD_eq_getElem?_getD, List.getElem?_eq_getElem (by omega)]
      simp
      omega
  have h := hpre D.length (Nat.le_refl _)
  rw [List.take_length, hlen] at h
  simp only [markerPos, Nat.mod_self, Nat.div_self hpos, Nat.zero_mod, Nat.zero_div] at h
  omega
theorem toU64_natCast (n : Nat) : toU64 (n : Int) = n % U64 := by
  unfold toU64 U64
  have h : ((n : Int) % 18446744073709551616) = ((n % 18446744073709551616 : Nat) : Int) := by
    norm_cast
  rw [h, Int.toNat_natCast]

theorem toInt32_of_lt (n : Nat) (h : n < 2147483648) : toInt32 (n : Int) = (n : Int) := by
  unfold toInt32; omega

/-- Claim C6, as amended. For every non-empty strictly increasing list of
marker indices `m`, all smaller than `repeatInterval`, whose first index is
below `2 ^ 31` (it is stored in an `int`), after
`setPacketListTtagMarkers(m, repeatInterval)` the deltas sum to
`repeatInterval`, and the stamper started by `run` at packet counter `start`
and advanced by cycling `ttagDeltaMarkers_` stamps exactly the packets whose
index relative to the start of the run is `m[j mod n] + (j div n) *
repeatInterval` for some `j`. -/
theorem ttag_markers_cycle (t : PcapTxThread) (m : List Nat) (ri start : Nat)
    (hne : m ≠ []) (hinc : m.Pairwise (fun a b => a < b)) (hlt : ∀ x ∈ m, x < ri)
    (hri : ri < U32) (hfirst : m.getD 0 0 < 2147483648) (hstart : start < U64) :
    (setPacketListTtagMarkers t m ri).ttagDeltaMarkers_.sum = ri ∧
    ∀ k, ∃ b, stampedAt (setPacketListTtagMarkers t m ri).ttagDeltaMarkers_ k
        (stamperStart (setPacketListTtagMarkers t m ri) start) = .ok b ∧
      (b = true ↔ ∃ j, k = markerPos m ri j) := by
  refine ⟨markers_sum t m ri hne hinc hlt hri, ?_⟩
  obtain ⟨hlen, hmid, hlast, hle, hlastlt⟩ := markers_getD t m ri hne hinc hlt hri
  have hpos : 0 < m.length := List.length_pos.mpr hne
  have hT0 : markerPos m ri 0 = m.getD 0 0 := by simp [markerPos]
  have e1 : toInt32 ((m.getD 0 0 : Nat) : Int) = ((m.getD 0 0 : Nat) : Int) :=
    toInt32_of_lt _ hfirst
  have e2 : toU64 ((start : Int) + ((m.getD 0 0 : Nat) : Int)) = (start + m.getD 0 0) % U64 := by
    rw [← Nat.cast_add, toU64_natCast]
  have hs : stamperStart (setPacketListTtagMarkers t m ri) start
      = ⟨start % U64, (start + markerPos m ri 0) % U64, 0⟩ := by
    unfold stamperStart
    rw [(markers_fields t m ri hne).2, hT0, e1, e2, Nat.mod_eq_of_lt hstart]
  intro k
  rw [hs]
  have hD0 : 0 < (setPacketListTtagMarkers t m ri).ttagDeltaMarkers_.length := by omega
  have hpos2 : ∀ i, i < (setPacketListTtagMarkers t m ri).ttagDeltaMarkers_.length →
      0 < (setPacketListTtagMarkers t m ri).ttagDeltaMarkers_.getD i 0 ∧
      (setPacketListTtagMarkers t m ri).ttagDeltaMarkers_.getD i 0 < U32 := by
    intro i hi
    rw [hlen] at hi
    by_cases h : i + 1 < m.length
    · have h1 := hmid i h
      have hl := hlt (m.getD (i + 1) 0) (by
        rw [List.getD_eq_getElem _ _ h]; exact List.getElem_mem h)
      clear hmid hlt hinc hs e1 e2 hT0 hlast hle hlastlt hfirst hstart
      omega
    · have e : i = m.length - 1 := by omega
      rw [e]
      clear hmid hlt hinc hs e1 e2 hT0 hfirst hstart
      omega
  have hT0lt : markerPos m ri 0 < U32 := by
    rw [hT0]; exact Nat.lt_trans hfirst (by decide)
  exact stamper_cycle _ (markerPos m ri) start hD0
    (markerPos_succ t m ri hne hinc hlt hri) hpos2 hT0lt k

theorem stamper_idle (D : List Nat) : ∀ k (s : Stamper), s.pkts + k < s.next → s.next < U64 →
    stamperAfter D k s = .ok ⟨s.pkts + k, s.next, s.idx⟩
  | 0, s, _, _ => rfl
  | k + 1, s, h, hn => by
    have hne : ¬ s.pkts = s.next := by omega
    have e : (s.pkts + 1) % U64 = s.pkts + 1 := Nat.mod_eq_of_lt (by omega)
    simp only [stamperAfter, stamperTick, if_neg hne, e]
    rw [stamper_idle D k ⟨s.pkts + 1, s.next, s.idx⟩ (by simp; omega) hn]
    simp; omega

theorem stampedAt_idle (D : List Nat) (k : Nat) (s : Stamper) (h : s.pkts + k < s.next)
    (hn : s.next < U64) : stampedAt D k s = .ok false := by
  have hne : ¬ s.pkts + k = s.next := by omega
  simp [stampedAt, stamper_idle D k s h hn, stamperTick, hne]

/-- Witness of claim C6: markers `[0, 2]` with repeat interval 4 (scenario S4
of the spec). -/
theorem ttag_markers_cycle_witness :
    (setPacketListTtagMarkers PcapTxThread.initial [0, 2] 4).ttagDeltaMarkers_.sum = 4 ∧
    ∀ k, ∃ b, stampedAt (setPacketListTtagMarkers PcapTxThread.initial [0, 2] 4).ttagDeltaMarkers_ k
        (stamperStart (setPacketListTtagMarkers PcapTxThread.initial [0, 2] 4) 0) = .ok b ∧
      (b = true ↔ ∃ j, k = markerPos [0, 2] 4 j) :=
  ttag_markers_cycle PcapTxThread.initial [0, 2] 4 0 (by decide) (by decide) (by decide)
    (by decide) (by decide) (by decide)

/-- Counterexample to claim C6 as stated. With the single marker `2 ^ 31` and
repeat interval `2 ^ 31 + 1`, `int(markers.first())` is negative, the stamper
starts `2 ^ 31` packets behind the counter, and the packet with index
`2 ^ 31 = m[0]` is not stamped. -/
theorem ttag_first_marker_int_wrap :
    stampedAt (setPacketListTtagMarkers PcapTxThread.initial [2147483648] 2147483649).ttagDeltaMarkers_
        2147483648
        (stamperStart (setPacketListTtagMarkers PcapTxThread.initial [2147483648] 2147483649) 0)
      = .ok false ∧
    2147483648 = markerPos [2147483648] 2147483649 0 :=
  ⟨stampedAt_idle _ 2147483648 _ (by decide) (by decide), by decide⟩

/-! ## The packet-list builder -/

theorem listWeight_append (l₁ l₂ : List PacketSequence) :
    listWeight (l₁ ++ l₂) = listWeight l₁ + listWeight l₂ := by
  simp [listWeight, List.sum_append]

theorem listWeight_set : ∀ (l : List PacketSequence) (c : Nat) (s s' : PacketSequence),
    l[c]? = some s →
    listWeight (l.set c s') =
      listWeight l - s.packets_ * s.repeatCount_ + s'.packets_ * s'.repeatCount_
  | [], c, s, s', h => by simp at h
  | a :: l, 0, s, s', h => by
    simp at h; subst h
    simp [listWeight]; omega
  | a :: l, c + 1, s, s', h => by
    have ih := listWeight_set l c s s' (by simpa using h)
    simp only [listWeight, List.set_cons_succ, List.map_cons, List.sum_cons] at ih ⊢
    omega

theorem hasFreeSpace_mono (P : SeqParams) (s : PacketSequence) (a b : Nat) (hab : a ≤ b)
    (h : hasFreeSpace P s b = true) : hasFreeSpace P s a = true := by
  simp only [hasFreeSpace, decide_eq_true_eq] at h ⊢
  omega

/-- What the rollover branch leaves: the weight of the list, a current
sequence with room for the packet, and no shorter list. -/
theorem rollOver_spec (P : SeqParams) (track : Bool) (l : List PacketSequence) (c : Nat)
    (cur : PacketSequence) (hdr : PktHdr) (length : Nat) (l1 : List PacketSequence) (c1 : Nat)
    (hc : l[c]? = some cur)
    (h : rollOver P track l c cur hdr length = some (l1, c1)) :
    listWeight l1 = listWeight l ∧
    ∃ cur1, l1[c1]? = some cur1 ∧ hasFreeSpace P cur1 (P.hdrSize + length) = true ∧
      ((l1 = l ∧ c1 = c ∧ cur1 = cur) ∨
       (c1 = l.length ∧ cur1 = PacketSequence.fresh P track ∧
        ∃ d, l1 = l.set c { cur with usecDelay_ := d } ++ [PacketSequence.fresh P track])) := by
  unfold rollOver at h
  by_cases hfree : hasFreeSpace P cur (2 * P.hdrSize + length) = true
  · rw [if_pos hfree] at h
    simp only [Option.some.injEq, Prod.mk.injEq] at h
    obtain ⟨rfl, rfl⟩ := h
    exact ⟨rfl, cur, hc, hasFreeSpace_mono P cur _ _ (by omega) hfree, Or.inl ⟨rfl, rfl, rfl⟩⟩
  · rw [if_neg hfree] at h
    cases hlast : cur.records.getLast? with
    | none => rw [hlast] at h; simp at h
    | some last =>
      rw [hlast] at h
      simp only at h
      by_cases hf2 : hasFreeSpace P (PacketSequence.fresh P track) (P.hdrSize + length) = true
      · rw [if_pos hf2] at h
        simp only [Option.some.injEq, Prod.mk.injEq] at h
        obtain ⟨rfl, rfl⟩ := h
        refine ⟨?_, PacketSequence.fresh P track, ?_, hf2, Or.inr ⟨by simp, rfl, _, rfl⟩⟩
        · rw [listWeight_append, listWeight_set l c cur _ hc]
          simp [listWeight, PacketSequence.fresh]
        · rw [List.getElem?_append_right (by simp)]
          simp
      · rw [if_neg hf2] at h; simp at h

theorem appendPacket_ok (P : SeqParams) (s : PacketSequence) (hdr : PktHdr) (data : List Nat)
    (h : hasFreeSpace P s (P.hdrSize + hdr.caplen) = true) :
    (appendPacket P s hdr data).1 = 0 ∧
    (appendPacket P s hdr data).2.packets_ = s.packets_ + 1 ∧
    (appendPacket P s hdr data).2.repeatCount_ = s.repeatCount_ ∧
    (appendPacket P s hdr data).2.repeatSize_ = s.repeatSize_ ∧
    (appendPacket P s hdr data).2.usecDelay_ = s.usecDelay_ ∧
    (appendPacket P s hdr data).2.records = s.records ++ [⟨hdr, data⟩] := by
  unfold appendPacket
  rw [if_pos h]
  simp

theorem completeSet_weight (l : List PacketSequence) (c : Nat) (start : Int)
    (l3 : List PacketSequence) (h : completeSet l c start = some l3) :
    listWeight l3 = listWeight l := by
  unfold completeSet at h
  by_cases hbad : start < 0 ∨ (l.length : Int) ≤ start
  · rw [if_pos hbad] at h; simp at h
  · rw [if_neg hbad] at h
    simp only at h
    by_cases hc : c = start.toNat
    · rw [if_neg (by simpa using hc)] at h
      simp only [Option.some.injEq] at h; subst h; rfl
    · rw [if_pos (by simpa using hc)] at h
      cases hf : l[start.toNat]? with
      | none => rw [hf] at h; simp at h
      | some first =>
        cases hcur : l[c]? with
        | none => rw [hf, hcur] at h; simp at h
        | some cur =>
          rw [hf, hcur] at h
          simp only [Option.some.injEq] at h
          subst h
          have hs : (l.set c { cur with usecDelay_ := first.usecDelay_ })[start.toNat]?
              = some first := by
            rw [List.getElem?_set_ne hc]; exact hf
          rw [listWeight_set _ _ first _ hs, listWeight_set _ _ cur _ hcur]
          simp

/-- Inversion of a successful `appendToPacketList`: the values its branches
went through. -/
theorem appendToPacketList_inv (P : SeqParams) (t : PcapTxThread) (sec nsec : Int)
    (packet : List Nat) (length : Nat) (op : Bool) (t' : PcapTxThread)
    (h : appendToPacketList P t sec nsec packet length = some (op, t')) :
    ∃ c0 cur0 l1 c cur,
      t.currentPacketSequence_ = some c0 ∧ t.packetSequenceList_[c0]? = some cur0 ∧
      rollOver P t.trackStreamStats_ t.packetSequenceList_ c0 cur0
        ⟨⟨sec, Int.tdiv nsec 1000⟩, length, length⟩ length = some (l1, c) ∧
      l1[c]? = some cur ∧
      op = decide (0 ≤ (appendPacket P cur ⟨⟨sec, Int.tdiv nsec 1000⟩, length, length⟩ packet).1) ∧
      ((0 < t.repeatSize_ ∧ (t.packetCount_ + 1) % U64 = t.repeatSize_ ∧
        ∃ l3, completeSet (l1.set c
            (appendPacket P cur ⟨⟨sec, Int.tdiv nsec 1000⟩, length, length⟩ packet).2) c
            t.repeatSequenceStart_ = some l3 ∧
          t' = { t with
            packetSequenceList_ := l3
            packetCount_ := (t.packetCount_ + 1) % U64
            packetListSize_ := toU64 ((t.packetListSize_ : Int) +
              (if t.repeatSize_ ≠ 0 then
                (appendPacket P cur ⟨⟨sec, Int.tdiv nsec 1000⟩, length, length⟩ packet).2.repeatCount_
              else 1))
            repeatSize_ := 0
            currentPacketSequence_ := none }) ∨
       (¬ (0 < t.repeatSize_ ∧ (t.packetCount_ + 1) % U64 = t.repeatSize_) ∧
          t' = { t with
            packetSequenceList_ := l1.set c
              (appendPacket P cur ⟨⟨sec, Int.tdiv nsec 1000⟩, length, length⟩ packet).2
            packetCount_ := (t.packetCount_ + 1) % U64
            packetListSize_ := toU64 ((t.packetListSize_ : Int) +
              (if t.repeatSize_ ≠ 0 then
                (appendPacket P cur ⟨⟨sec, Int.tdiv nsec 1000⟩, length, length⟩ packet).2.repeatCount_
              else 1))
            currentPacketSequence_ := some c })) := by
  unfold appendToPacketList at h
  cases hc0 : t.currentPacketSequence_ with
  | none => rw [hc0] at h; simp at h
  | some c0 =>
    rw [hc0] at h
    simp only at h
    cases hcur0 : t.packetSequenceList_[c0]? with
    | none => rw [hcur0] at h; simp at h
    | some cur0 =>
      rw [hcur0] at h
      simp only at h
      cases hro : rollOver P t.trackStreamStats_ t.packetSequenceList_ c0 cur0
          ⟨⟨sec, Int.tdiv nsec 1000⟩, length, length⟩ length with
      | none => rw [hro] at h; simp at h
      | some lc =>
        obtain ⟨l1, c⟩ := lc
        rw [hro] at h
        simp only at h
        cases hcur : l1[c]? with
        | none => rw [hcur] at h; simp at h
        | some cur =>
          rw [hcur] at h
          simp only at h
          refine ⟨c0, cur0, l1, c, cur, rfl, hcur0, hro, hcur, ?_⟩
          by_cases hdone : 0 < t.repeatSize_ ∧ (t.packetCount_ + 1) % U64 = t.repeatSize_
          · rw [if_pos hdone] at h
            cases hcs : completeSet (l1.set c
                (appendPacket P cur ⟨⟨sec, Int.tdiv nsec 1000⟩, length, length⟩ packet).2) c
                t.repeatSequenceStart_ with
            | none => rw [hcs] at h; simp at h
            | some l3 =>
              rw [hcs] at h
              simp only [Option.some.injEq, Prod.mk.injEq] at h
              obtain ⟨h1, h2⟩ := h
              exact ⟨h1.symm, Or.inl ⟨hdone.1, hdone.2, l3, rfl, h2.symm⟩⟩
          · rw [if_neg hdone] at h
            simp only [Option.some.injEq, Prod.mk.injEq] at h
            obtain ⟨h1, h2⟩ := h
            exact ⟨h1.symm, Or.inr ⟨hdone, h2.symm⟩⟩

theorem toU64_cast (x : Int) : ((toU64 x : Nat) : Int) = x % 18446744073709551616 := by
  unfold toU64; omega

theorem WeightInv_clear (t tc : PcapTxThread) (h : clearPacketList t = some tc) :
    WeightInv tc := by
  unfold clearPacketList at h
  split at h
  · simp at h
  · simp only [Option.some.injEq] at h
    subst h
    simp [WeightInv, setPacketListLoopMode, listWeight]

theorem WeightInv_loopNext (P : SeqParams) (t : PcapTxThread) (size repeats sec nsec : Int)
    (hsize : toU64 size ≠ 0) (h : WeightInv t) :
    WeightInv (loopNextPacketSet P t size repeats sec nsec) := by
  obtain ⟨h1, _⟩ := h
  refine ⟨?_, fun _ => hsize⟩
  simp only [loopNextPacketSet, listWeight_append]
  simp [listWeight, PacketSequence.fresh, h1]

theorem WeightInv_append (P : SeqParams) (t : PcapTxThread) (sec nsec : Int)
    (packet : List Nat) (length : Nat) (op : Bool) (t' : PcapTxThread)
    (h : appendToPacketList P t sec nsec packet length = some (op, t')) (hinv : WeightInv t) :
    WeightInv t' := by
  obtain ⟨hw, hopen⟩ := hinv
  obtain ⟨c0, cur0, l1, c, cur, hc0, hcur0, hro, hcur, _, hcase⟩ :=
    appendToPacketList_inv P t sec nsec packet length op t' h
  have hrs : t.repeatSize_ ≠ 0 := hopen (by rw [hc0]; simp)
  obtain ⟨hw1, cur1, hcur1, hfree, _⟩ :=
    rollOver_spec P _ _ _ _ _ _ _ _ hcur0 hro
  rw [hcur] at hcur1
  simp only [Option.some.injEq] at hcur1
  subst hcur1
  obtain ⟨_, hp, hrc, _, _, _⟩ := appendPacket_ok P cur ⟨⟨sec, Int.tdiv nsec 1000⟩, length, length⟩ packet hfree
  have hw2 : listWeight (l1.set c
      (appendPacket P cur ⟨⟨sec, Int.tdiv nsec 1000⟩, length, length⟩ packet).2)
      = listWeight t.packetSequenceList_ + cur.repeatCount_ := by
    rw [listWeight_set l1 c cur _ hcur, hp, hrc, hw1]
    have : (cur.packets_ + 1) * cur.repeatCount_ = cur.packets_ * cur.repeatCount_ + cur.repeatCount_ := by
      rw [Int.add_mul, Int.one_mul]
    omega
  rcases hcase with ⟨_, _, l3, hcs, ht'⟩ | ⟨_, ht'⟩
  · subst ht'
    refine ⟨?_, by simp⟩
    simp only [toU64_cast, if_pos hrs, hrc, completeSet_weight _ _ _ _ hcs, hw2]
    omega
  · subst ht'
    refine ⟨?_, fun _ => hrs⟩
    simp only [toU64_cast, if_pos hrs, hrc, hw2]
    omega

theorem WeightInv_calls (P : SeqParams) : ∀ (calls : List Call) (t t' : PcapTxThread),
    applyCalls P t calls = some t' → (∀ c ∈ calls, c.opensEmptySet = false) → WeightInv t →
    WeightInv t'
  | [], t, t', h, _, hinv => by
    simp only [applyCalls, Option.some.injEq] at h; subst h; exact hinv
  | c :: cs, t, t', h, hsz, hinv => by
    simp only [applyCalls] at h
    cases hc : applyCall P t c with
    | none => rw [hc] at h; simp at h
    | some t1 =>
      rw [hc] at h
      simp only at h
      apply WeightInv_calls P cs t1 t' h (fun c' hc' => hsz c' (List.mem_cons_of_mem _ hc'))
      cases c with
      | loopNext size repeats sec nsec =>
        simp only [applyCall, Option.some.injEq] at hc
        subst hc
        have hs := hsz _ (List.mem_cons_self _ _)
        simp only [Call.opensEmptySet, decide_eq_false_iff_not] at hs
        exact WeightInv_loopNext P t size repeats sec nsec hs hinv
      | append sec nsec packet length =>
        simp only [applyCall] at hc
        cases ha : appendToPacketList P t sec nsec packet length with
        | none => rw [ha] at hc; simp at hc
        | some r =>
          rw [ha] at hc
          simp only [Option.some.injEq] at hc
          subst hc
          exact WeightInv_append P t sec nsec packet length r.1 r.2 ha hinv

/-! ## Group structure of a built list -/

theorem take_set_of_le {α : Type} (l : List α) (k c : Nat) (a : α) (h : k ≤ c) :
    (l.set c a).take k = l.take k := by
  apply List.ext_getElem?
  intro i
  simp only [List.getElem?_take]
  split
  · rw [List.getElem?_set_ne (by omega)]
  · rfl

theorem mem_drop_set {α : Type} (l : List α) (k c : Nat) (a x : α)
    (h : x ∈ (l.set c a).drop k) : x ∈ l.drop k ∨ x = a := by
  rw [List.drop_set] at h
  split at h
  · exact Or.inl h
  · exact List.mem_or_eq_of_mem_set h

theorem mem_drop_of_getElem? {α : Type} (l : List α) (k c : Nat) (a : α) (hk : k ≤ c)
    (h : l[c]? = some a) : a ∈ l.drop k := by
  apply List.getElem?_mem (n := c - k)
  rw [List.getElem?_drop]
  have : k + (c - k) = c := by omega
  rw [this]; exact h

theorem GroupInv_clear (P : SeqParams) (t tc : PcapTxThread) (h : clearPacketList t = some tc) :
    GroupInv P 0 tc ∧ tc.currentPacketSequence_ = none := by
  unfold clearPacketList at h
  split at h
  · simp at h
  · simp only [Option.some.injEq] at h
    subst h
    refine ⟨⟨[], by simp, ?_⟩, rfl⟩
    simp [setPacketListLoopMode]

theorem GroupInv_loopNext (P : SeqParams) (n : Nat) (t : PcapTxThread)
    (size repeats sec nsec : Int) (hnone : t.currentPacketSequence_ = none)
    (h : GroupInv P n t) : GroupInv P (n + 1) (loopNextPacketSet P t size repeats sec nsec) := by
  obtain ⟨gs, hgs, hm⟩ := h
  rw [hnone] at hm
  obtain ⟨hlen, hl⟩ := hm
  refine ⟨gs, hgs, ?_⟩
  simp only [loopNextPacketSet]
  refine ⟨by omega, t.packetSequenceList_.length, by simp, rfl, Nat.le_refl _, ?_, ?_⟩
  · rw [List.take_left, hl]
  · rw [List.drop_left]
    intro s hs
    simp only [List.mem_singleton] at hs
    subst hs
    rfl

/-- Set completion closes the open sequences into one group. -/
theorem completeSet_group (P : SeqParams) (l l3 : List PacketSequence) (c k : Nat)
    (h : completeSet l c (k : Int) = some l3) (hc : c + 1 = l.length) (hkc : k ≤ c)
    (hdrop : ∀ s ∈ l.drop k, s.repeatSize_ = P.repeatSize0) :
    ∃ g, GroupOk P g ∧ l3 = l.take k ++ g := by
  unfold completeSet at h
  have hbad : ¬ (((k : Nat) : Int) < 0 ∨ (l.length : Int) ≤ ((k : Nat) : Int)) := by omega
  rw [if_neg hbad] at h
  simp only [Int.toNat_ofNat] at h
  have hklt : k < l.length := by omega
  have hclt : c < l.length := by omega
  by_cases hck : c = k
  · rw [if_neg (by simpa using hck)] at h
    simp only [Option.some.injEq] at h
    subst h
    refine ⟨l.drop k, ⟨l[k], [], ?_, by simp, ?_⟩, (List.take_append_drop k l).symm⟩
    · rw [List.drop_eq_getElem_cons hklt, List.drop_of_length_le (by omega)]
    · simp only [if_true]
      apply hdrop
      rw [List.drop_eq_getElem_cons hklt]
      exact List.mem_cons_self _ _
  · rw [if_pos (by simpa using hck)] at h
    have hfirst : l[k]? = some l[k] := List.getElem?_eq_getElem hklt
    have hcur : l[c]? = some l[c] := List.getElem?_eq_getElem (by omega)
    rw [hfirst, hcur] at h
    simp only [Option.some.injEq] at h
    have hcurrs : l[c].repeatSize_ = P.repeatSize0 :=
      hdrop _ (mem_drop_of_getElem? _ _ _ _ hkc hcur)
    obtain ⟨A, hA⟩ : ∃ A : PacketSequence,
        A = { l[c] with usecDelay_ := l[k].usecDelay_ } := ⟨_, rfl⟩
    obtain ⟨B, hB⟩ : ∃ B : PacketSequence,
        B = { l[k] with usecDelay_ := 0, repeatSize_ := (l.length : Int) - (k : Int) } :=
      ⟨_, rfl⟩
    rw [← hA, ← hB] at h
    have hArs : A.repeatSize_ = P.repeatSize0 := by rw [hA]; exact hcurrs
    have hBrs : B.repeatSize_ = (l.length : Int) - (k : Int) := by rw [hB]
    clear hA hB
    subst h
    refine ⟨B :: ((l.set c A).drop (k + 1)), ⟨B, _, rfl, ?_, ?_⟩, ?_⟩
    · intro s hs
      rcases mem_drop_set _ _ _ _ _ hs with hs | hs
      · apply hdrop
        rw [← List.drop_drop] at hs
        exact List.mem_of_mem_drop hs
      · subst hs; exact hArs
    · have hne : ¬ ((l.set c A).drop (k + 1) = []) := by
        intro hnil
        have := congrArg List.length hnil
        simp only [List.length_drop, List.length_set, List.length_nil] at this
        omega
      rw [if_neg hne, hBrs]
      simp only [List.length_drop, List.length_set]
      omega
    · apply List.ext_getElem?
      intro i
      rw [List.getElem?_append]
      simp only [List.length_take, List.getElem?_set, List.length_set, List.getElem?_take]
      have h3 : min k l.length = k := Nat.min_eq_left (Nat.le_of_lt hklt)
      rw [h3]
      by_cases hik : i < k
      · rw [if_neg (by omega), if_neg (by omega), if_pos hik, if_pos hik]
      · by_cases hik2 : i = k
        · subst hik2
          rw [if_pos rfl, if_pos hklt, if_neg hik]
          simp
        · have h4 : i - k = (i - (k + 1)) + 1 := by omega
          rw [if_neg (by omega), if_neg hik, h4, List.getElem?_cons_succ,
            List.getElem?_drop, List.getElem?_set]
          have h5 : k + 1 + (i - (k + 1)) = i := by omega
          rw [h5]

theorem GroupInv_append (P : SeqParams) (n : Nat) (t : PcapTxThread) (sec nsec : Int)
    (packet : List Nat) (length : Nat) (op : Bool) (t' : PcapTxThread)
    (h : appendToPacketList P t sec nsec packet length = some (op, t'))
    (hinv : GroupInv P n t) : GroupInv P n t' := by
  obtain ⟨gs, hgs, hm⟩ := hinv
  obtain ⟨c0, cur0, l1, c, cur, hc0, hcur0, hro, hcur, _, hcase⟩ :=
    appendToPacketList_inv P t sec nsec packet length op t' h
  rw [hc0] at hm
  obtain ⟨hn, k, hclen, hstart, hkc, htake, hdrop⟩ := hm
  obtain ⟨_, cur1, hcur1, hfree, hshape⟩ := rollOver_spec P _ _ _ _ _ _ _ _ hcur0 hro
  rw [hcur] at hcur1
  simp only [Option.some.injEq] at hcur1
  subst hcur1
  -- the list after the rollover branch
  have hl1 : c + 1 = l1.length ∧ k ≤ c ∧ l1.take k = gs.flatten ∧
      ∀ s ∈ l1.drop k, s.repeatSize_ = P.repeatSize0 := by
    rcases hshape with ⟨rfl, rfl, rfl⟩ | ⟨rfl, rfl, d, rfl⟩
    · exact ⟨hclen, hkc, htake, hdrop⟩
    · refine ⟨by simp, by omega, ?_, ?_⟩
      · rw [List.take_append_of_le_length (by simp only [List.length_set]; omega),
          take_set_of_le _ _ _ _ hkc, htake]
      · intro s hs
        rw [List.drop_append_of_le_length (by simp only [List.length_set]; omega)] at hs
        rcases List.mem_append.mp hs with hs | hs
        · rcases mem_drop_set _ _ _ _ _ hs with hs | hs
          · exact hdrop s hs
          · subst hs
            exact hdrop cur0 (mem_drop_of_getElem? _ _ _ _ hkc hcur0)
        · simp only [List.mem_singleton] at hs
          subst hs; rfl
  obtain ⟨hclen1, hkc1, htake1, hdrop1⟩ := hl1
  obtain ⟨_, _, _, hrs, _, _⟩ :=
    appendPacket_ok P cur ⟨⟨sec, Int.tdiv nsec 1000⟩, length, length⟩ packet hfree
  have hcurrs : cur.repeatSize_ = P.repeatSize0 :=
    hdrop1 cur (mem_drop_of_getElem? _ _ _ _ hkc1 hcur)
  generalize (appendPacket P cur ⟨⟨sec, Int.tdiv nsec 1000⟩, length, length⟩ packet).2 = cur2
    at hrs hcase
  have hdrop2 : ∀ s ∈ (l1.set c cur2).drop k, s.repeatSize_ = P.repeatSize0 := by
    intro s hs
    rcases mem_drop_set _ _ _ _ _ hs with hs | hs
    · exact hdrop1 s hs
    · subst hs; rw [hrs, hcurrs]
  have htake2 : (l1.set c cur2).take k = gs.flatten := by
    rw [take_set_of_le _ _ _ _ hkc1, htake1]
  rcases hcase with ⟨_, _, l3, hcs, ht'⟩ | ⟨_, ht'⟩
  · -- the set completes
    subst ht'
    rw [hstart] at hcs
    obtain ⟨g, hg, hl3⟩ := completeSet_group P _ _ _ _ hcs
      (by simp only [List.length_set]; exact hclen1) hkc1 hdrop2
    refine ⟨gs ++ [g], ?_, ?_⟩
    · intro g' hg'
      rcases List.mem_append.mp hg' with hg' | hg'
      · exact hgs g' hg'
      · simp only [List.mem_singleton] at hg'
        subst hg'; exact hg
    · simp only
      refine ⟨by simp only [List.length_append, List.length_singleton]; exact hn, ?_⟩
      rw [hl3, htake2, List.flatten_append]
      simp
  · subst ht'
    refine ⟨gs, hgs, ?_⟩
    simp only
    exact ⟨hn, k, by simp only [List.length_set]; exact hclen1, hstart, hkc1, htake2, hdrop2⟩

theorem GroupInv_calls (P : SeqParams) : ∀ (calls : List Call) (n : Nat) (t t' : PcapTxThread),
    applyCalls P t calls = some t' → allCompleted P t calls = true → GroupInv P n t →
    GroupInv P (n + (calls.filter Call.isLoopNext).length) t' ∧
      t'.currentPacketSequence_ = none
  | [], n, t, t', h, hdone, hinv => by
    simp only [applyCalls, Option.some.injEq] at h
    subst h
    simp only [allCompleted, Option.isNone_iff_eq_none] at hdone
    exact ⟨by simpa using hinv, hdone⟩
  | c :: cs, n, t, t', h, hdone, hinv => by
    simp only [applyCalls] at h
    simp only [allCompleted, Bool.and_eq_true, Bool.or_eq_true, Bool.not_eq_true',
      Option.isNone_iff_eq_none] at hdone
    obtain ⟨hopen, hrest⟩ := hdone
    cases hc : applyCall P t c with
    | none => rw [hc] at h; simp at h
    | some t1 =>
      rw [hc] at h hrest
      simp only at h hrest
      cases c with
      | loopNext size repeats sec nsec =>
        simp only [applyCall, Option.some.injEq] at hc
        subst hc
        have hnone : t.currentPacketSequence_ = none := by
          rcases hopen with h1 | h1
          · simp [Call.isLoopNext] at h1
          · exact h1
        have := GroupInv_calls P cs (n + 1) _ t' h hrest
          (GroupInv_loopNext P n t size repeats sec nsec hnone hinv)
        simp only [List.filter_cons, Call.isLoopNext, if_true, List.length_cons]
        have e : n + ((cs.filter Call.isLoopNext).length + 1)
            = n + 1 + (cs.filter Call.isLoopNext).length := by omega
        rw [e]; exact this
      | append sec nsec packet length =>
        simp only [applyCall] at hc
        cases ha : appendToPacketList P t sec nsec packet length with
        | none => rw [ha] at hc; simp at hc
        | some r =>
          rw [ha] at hc
          simp only [Option.some.injEq] at hc
          subst hc
          have := GroupInv_calls P cs n _ t' h hrest
            (GroupInv_append P n t sec nsec packet length r.1 r.2 ha hinv)
          simpa [List.filter_cons, Call.isLoopNext] using this

/-! ## Claims on the packet-list builder -/

/-- Claim C3, as amended. After any sequence of `loopNextPacketSet` and
`appendToPacketList` calls that starts from a cleared packet list, in which no
call aborts and every packet set is opened with a non-zero size, for any
repeats value and with or without rollover, `packetListSize_` is the sum over
all sequences of the list of `packets × repeat_count`, each sequence weighted
by its own repeat count, reduced modulo `2 ^ 64`. -/
theorem packetListSize_eq_weight (P : SeqParams) (t tc t' : PcapTxThread)
    (calls : List Call) (hclear : clearPacketList t = some tc)
    (hcalls : applyCalls P tc calls = some t')
    (hsize : ∀ c ∈ calls, c.opensEmptySet = false) :
    (t'.packetListSize_ : Int)
      = listWeight t'.packetSequenceList_ % 18446744073709551616 :=
  (WeightInv_calls P calls tc t' hcalls hsize (WeightInv_clear t tc hclear)).1

/-- Witness of claim C3: the packet set of `demoRollCalls`, which rolls over
into a second sequence. -/
theorem packetListSize_eq_weight_witness :
    ∃ t', applyCalls demoParams demoCleared demoRollCalls = some t' ∧
      (t'.packetListSize_ : Int)
        = listWeight t'.packetSequenceList_ % 18446744073709551616 :=
  ⟨_, rfl, packetListSize_eq_weight demoParams PcapTxThread.initial demoCleared _
    demoRollCalls rfl rfl (by decide)⟩

/-- Counterexample to claim C3 as stated. A packet set opened with size 0 and
5 repeats counts its packet once (`repeatSize_ ? repeatCount_ : 1`) while the
sequence weighs 5; and with `repeats = -1` the size is `2 ^ 64 - 1` while the
sequence weighs -1. -/
theorem packetListSize_empty_set_size :
    (∃ t', applyCalls demoParams demoCleared
        [.loopNext 0 5 0 0, .append 0 0 demoPacket 60] = some t' ∧
      t'.packetListSize_ = 1 ∧ listWeight t'.packetSequenceList_ = 5) ∧
    (∃ t', applyCalls demoParams demoCleared
        [.loopNext 1 (-1) 0 0, .append 0 0 demoPacket 60] = some t' ∧
      t'.packetListSize_ = 18446744073709551615 ∧
      listWeight t'.packetSequenceList_ = -1) :=
  ⟨⟨_, rfl, by rfl, by rfl⟩, ⟨_, rfl, by rfl, by rfl⟩⟩

/-- Claim C5, as amended. After any sequence of `loopNextPacketSet` and
`appendToPacketList` calls from a cleared packet list in which every opened set
was completed, the sequence list is the concatenation of one group per set, in
order; the head of a group of several sequences has `repeatSize_` equal to the
number of sequences of its set; the head of a single-sequence group and every
non-head sequence keep the `repeatSize_` a fresh `PacketSequence` is
constructed with. -/
theorem groups_after_build (P : SeqParams) (t tc t' : PcapTxThread) (calls : List Call)
    (hclear : clearPacketList t = some tc) (hcalls : applyCalls P tc calls = some t')
    (hdone : allCompleted P tc calls = true) :
    ∃ gs : List (List PacketSequence), t'.packetSequenceList_ = gs.flatten ∧
      gs.length = (calls.filter Call.isLoopNext).length ∧ ∀ g ∈ gs, GroupOk P g := by
  obtain ⟨⟨gs, hgs, hm⟩, hnone⟩ :=
    GroupInv_calls P calls 0 tc t' hcalls hdone (GroupInv_clear P t tc hclear).1
  rw [hnone] at hm
  exact ⟨gs, hm.2, by rw [hm.1]; omega, hgs⟩

/-- Witness of claim C5: the packet set of `demoRollCalls`. -/
theorem groups_after_build_witness :
    ∃ t', applyCalls demoParams demoCleared demoRollCalls = some t' ∧
      ∃ gs : List (List PacketSequence), t'.packetSequenceList_ = gs.flatten ∧
        gs.length = (demoRollCalls.filter Call.isLoopNext).length ∧
        ∀ g ∈ gs, GroupOk demoParams g :=
  ⟨_, rfl, groups_after_build demoParams PcapTxThread.initial demoCleared _ demoRollCalls
    rfl rfl rfl⟩

/-- Counterexample to claim C5 as stated. When a fresh sequence starts with
repeat size 1, the non-head sequence of a completed two-sequence set has repeat
size 1, not 0; when it starts with repeat size 0, the head of a completed
single-sequence set has repeat size 0, not at least 1. -/
theorem repeat_size_not_zero_one :
    (∃ t', applyCalls demoParams demoCleared demoRollCalls = some t' ∧
      allCompleted demoParams demoCleared demoRollCalls = true ∧
      t'.packetSequenceList_.map (fun s => s.repeatSize_) = [2, 1]) ∧
    (∃ t', applyCalls demoParamsZero demoCleared demoSingleCalls = some t' ∧
      allCompleted demoParamsZero demoCleared demoSingleCalls = true ∧
      t'.packetSequenceList_.map (fun s => s.repeatSize_) = [0]) :=
  ⟨⟨_, rfl, rfl, by rfl⟩, ⟨_, rfl, rfl, by rfl⟩⟩

/-- Claim C4 (the code departs from it). In `demoRollCalls` the set is opened
with an inter-repeat delay of `0 × 10^6 + 10000000 / 1000 = 10000` µs and its
third packet rolls over into a second sequence. After the last packet the
first sequence has `usecDelay_ = 0` and `repeatSize_ = 2`, but the last
sequence has `usecDelay_ = 2`, the gap between the second and third packet
that the rollover wrote over the inter-repeat delay, not 10000. -/
theorem rollover_loses_repeat_delay :
    ∃ t', applyCalls demoParams demoCleared demoRollCalls = some t' ∧
      t'.packetSequenceList_.map (fun s => s.usecDelay_) = [0, 2] ∧
      t'.packetSequenceList_.map (fun s => s.repeatSize_) = [2, 1] ∧
      (0 : Int) * 1000000 + Int.tdiv 10000000 1000 = 10000 :=
  ⟨_, rfl, by rfl, by rfl, by rfl⟩

/-- Claim C2 (the code departs from it). The packet set of `demoRollCalls`
(3 packets, 5 repeats) is completed and rolls over into two sequences of 2 and
1 packets. `packetListSize_` is `2 × 5 + 1 × 1 = 11`, the second sequence
weighted by the repeat count 1 of a fresh sequence, while the one-shot run,
not cancelled, repeats both sequences 5 times and sinks 15 packets. -/
theorem run_sinks_more_than_list_size :
    ∃ t', applyCalls demoParams demoCleared demoRollCalls = some t' ∧
      allCompleted demoParams demoCleared demoRollCalls = true ∧
      t'.packetListSize_ = 11 ∧
      (run demoParams demoEnv 10 t').exit = Exit.finished ∧
      (run demoParams demoEnv 10 t').t.stats_.pkts
        - (run demoParams demoEnv 10 t').t.lastStats_.pkts = 15 :=
  ⟨_, rfl, rfl, by rfl, by rfl, by rfl⟩

/-! ## The packet delta of `updateTxStreamStats` -/

/-- Claim C10 (the code departs from it). With `lastStats_.pkts = ULLONG_MAX - 2`
and 5 packets sunk, the counter wraps to 2 and `updateTxStreamStats` computes a
delta of 4, one less than the number of packets sunk; and with no packet sunk
(`current = last`) it computes `ULLONG_MAX` instead of 0. -/
theorem txPktsDelta_wrap_off_by_one :
    txPktsDelta ((ULLONG_MAX - 2 + 5) % U64) (ULLONG_MAX - 2) = 4 ∧
    txPktsDelta 7 7 = ULLONG_MAX := by
  decide

/-! ## Invariants through the loops of `run` -/

theorem sendLoop_inv {I X : PcapTxThread → Prop} {F : Fault → PcapTxThread → Prop}
    (env : Env) (sync : Bool) (hp : Preserved env sync I X F) (q off : Nat) :
    ∀ (recs : List Record) (idx : Nat) (ts : Timeval) (t : PcapTxThread), I t →
      (∀ code t1, sendLoop env q off sync recs idx ts t = .ret code t1 →
        I t1 ∧ (code = 0 ∨ (code = -2 ∧ X t1))) ∧
      (∀ f t1, sendLoop env q off sync recs idx ts t = .abort f t1 → I t1 ∧ F f t1)
  | [], idx, ts, t, hI => by
    constructor
    · intro code t1 h
      simp only [sendLoop, SendResult.ret.injEq] at h
      obtain ⟨rfl, rfl⟩ := h
      exact ⟨hI, Or.inl rfl⟩
    · intro f t1 h
      simp [sendLoop] at h
  | r :: rs, idx, ts, t, hI => by
    cases hpk : txPacket env q idx off sync r ts t with
    | error f0 =>
      constructor
      · intro code t1 h
        simp [sendLoop, hpk] at h
      · intro f t1 h
        simp only [sendLoop, hpk, SendResult.abort.injEq] at h
        obtain ⟨rfl, rfl⟩ := h
        exact ⟨hI, hp.pktFault _ _ _ _ _ _ _ hI hpk⟩
    | ok t2 =>
      have hI2 := hp.pkt _ _ _ _ _ _ _ hI hpk
      by_cases hstop : t2.stop_ = true
      · constructor
        · intro code t1 h
          simp only [sendLoop, hpk, hstop, if_true, SendResult.ret.injEq] at h
          obtain ⟨rfl, rfl⟩ := h
          exact ⟨hI2, Or.inr ⟨rfl, hp.pktStop _ _ _ _ _ _ _ hI hpk hstop⟩⟩
        · intro f t1 h
          simp [sendLoop, hpk, hstop] at h
      · have ih := sendLoop_inv env sync hp q off rs (idx + 1)
          (if sync then r.hdr.ts else ts) t2 hI2
        constructor
        · intro code t1 h
          simp only [sendLoop, hpk, hstop] at h
          exact ih.1 code t1 h
        · intro f t1 h
          simp only [sendLoop, hpk, hstop] at h
          exact ih.2 f t1 h

theorem forK_inv {I X : PcapTxThread → Prop} {F : Fault → PcapTxThread → Prop}
    (env : Env) (hp : Preserved env true I X F) (i : Int) :
    ∀ (n : Nat) (k : Int) (t : PcapTxThread), I t →
      (∀ t1, forK env i n k t = .next t1 → I t1) ∧
      (∀ t1, forK env i n k t = .exit t1 →
        ∃ t2, I t2 ∧ X t2 ∧ t1 = { t2 with stop_ := false }) ∧
      (∀ f t1, forK env i n k t = .abort f t1 → I t1 ∧ F f t1)
  | 0, k, t, hI => by
    refine ⟨?_, ?_, ?_⟩
    · intro t1 h
      simp only [forK, LoopResult.next.injEq] at h
      subst h; exact hI
    · intro t1 h; simp [forK] at h
    · intro f t1 h; simp [forK] at h
  | n + 1, k, t, hI => by
    cases hs : seqAt t (i + k) with
    | none =>
      refine ⟨?_, ?_, ?_⟩
      · intro t1 h; simp [forK, hs] at h
      · intro t1 h; simp [forK, hs] at h
      · intro f t1 h
        simp only [forK, hs, LoopResult.abort.injEq] at h
        obtain ⟨rfl, rfl⟩ := h
        exact ⟨hI, hp.seqFault _ hI⟩
    | some qs =>
      obtain ⟨q, seq⟩ := qs
      have hsl := sendLoop_inv env true hp q seq.ttagL4CksumOffset_ seq.records 0
        (match seq.records with
          | r :: _ => r.hdr.ts
          | [] => ⟨0, 0⟩) t hI
      cases hq : sendQueueTransmit env q seq true t with
      | abort f0 t2 =>
        have hq2 := hq
        unfold sendQueueTransmit at hq2
        refine ⟨?_, ?_, ?_⟩
        · intro t1 h; simp [forK, hs, hq] at h
        · intro t1 h; simp [forK, hs, hq] at h
        · intro f t1 h
          simp only [forK, hs, hq, LoopResult.abort.injEq] at h
          obtain ⟨rfl, rfl⟩ := h
          exact hsl.2 _ _ hq2
      | ret code t2 =>
        have hq2 := hq
        unfold sendQueueTransmit at hq2
        obtain ⟨hI2, hcode⟩ := hsl.1 _ _ hq2
        by_cases hc : 0 ≤ code
        · have ih := forK_inv env hp i n (k + 1)
            (runDelay env seq.usecDelay_ (seq.usecDelay_ + t2.overHead) t2) (hp.tail _ _ hI2)
          refine ⟨?_, ?_, ?_⟩
          · intro t1 h
            simp only [forK, hs, hq, hc, if_true] at h
            exact ih.1 t1 h
          · intro t1 h
            simp only [forK, hs, hq, hc, if_true] at h
            exact ih.2.1 t1 h
          · intro f t1 h
            simp only [forK, hs, hq, hc, if_true] at h
            exact ih.2.2 f t1 h
        · have hX : X t2 := by
            rcases hcode with h0 | ⟨_, hX⟩
            · exact absurd (by omega) hc
            · exact hX
          refine ⟨?_, ?_, ?_⟩
          · intro t1 h; simp [forK, hs, hq, hc] at h
          · intro t1 h
            simp only [forK, hs, hq, hc, if_false, LoopResult.exit.injEq] at h
            exact ⟨t2, hI2, hX, h.symm⟩
          · intro f t1 h; simp [forK, hs, hq, hc] at h

theorem forJ_inv {I X : PcapTxThread → Prop} {F : Fault → PcapTxThread → Prop}
    (env : Env) (hp : Preserved env true I X F) (i rptSz : Int) :
    ∀ (n : Nat) (t : PcapTxThread), I t →
      (∀ t1, forJ env i rptSz n t = .next t1 → I t1) ∧
      (∀ t1, forJ env i rptSz n t = .exit t1 →
        ∃ t2, I t2 ∧ X t2 ∧ t1 = { t2 with stop_ := false }) ∧
      (∀ f t1, forJ env i rptSz n t = .abort f t1 → I t1 ∧ F f t1)
  | 0, t, hI => by
    refine ⟨?_, ?_, ?_⟩
    · intro t1 h
      simp only [forJ, LoopResult.next.injEq] at h
      subst h; exact hI
    · intro t1 h; simp [forJ] at h
    · intro f t1 h; simp [forJ] at h
  | n + 1, t, hI => by
    have hk := forK_inv env hp i rptSz.toNat 0 t hI
    cases hf : forK env i rptSz.toNat 0 t with
    | next t2 =>
      have ih := forJ_inv env hp i rptSz n t2 (hk.1 t2 hf)
      refine ⟨?_, ?_, ?_⟩
      · intro t1 h
        simp only [forJ, hf] at h
        exact ih.1 t1 h
      · intro t1 h
        simp only [forJ, hf] at h
        exact ih.2.1 t1 h
      · intro f t1 h
        simp only [forJ, hf] at h
        exact ih.2.2 f t1 h
    | exit t2 =>
      refine ⟨?_, ?_, ?_⟩
      · intro t1 h; simp [forJ, hf] at h
      · intro t1 h
        simp only [forJ, hf, LoopResult.exit.injEq] at h
        subst h; exact hk.2.1 t2 hf
      · intro f t1 h; simp [forJ, hf] at h
    | abort f0 t2 =>
      refine ⟨?_, ?_, ?_⟩
      · intro t1 h; simp [forJ, hf] at h
      · intro t1 h; simp [forJ, hf] at h
      · intro f t1 h
        simp only [forJ, hf, LoopResult.abort.injEq] at h
        obtain ⟨rfl, rfl⟩ := h
        exact hk.2.2 _ _ hf

theorem walk_inv {I X : PcapTxThread → Prop} {F : Fault → PcapTxThread → Prop}
    (env : Env) (hp : Preserved env true I X F) :
    ∀ (fuel : Nat) (i : Int) (t : PcapTxThread), I t →
      ((walk env fuel i t).exit = Exit.outOfFuel → I (walk env fuel i t).t) ∧
      (∀ f, (walk env fuel i t).exit = Exit.fault f →
        I (walk env fuel i t).t ∧ F f (walk env fuel i t).t) ∧
      ((walk env fuel i t).exit = Exit.finished →
        (∃ t2, I t2 ∧ X t2 ∧ (walk env fuel i t).t = { t2 with stop_ := false }) ∨
        (I (walk env fuel i t).t ∧ (walk env fuel i t).t.returnToQIdx_ < 0))
  | 0, i, t, hI => by
    simp only [walk]
    exact ⟨fun _ => hI, fun f h => by simp at h, fun h => by simp at h⟩
  | fuel + 1, i, t, hI => by
    cases hs : seqAt t i with
    | none =>
      simp only [walk, hs]
      refine ⟨fun h => by simp at h, fun f h => ?_, fun h => by simp at h⟩
      simp only [Exit.fault.injEq] at h
      subst h
      exact ⟨hI, hp.seqFault _ hI⟩
    | some qs =>
      obtain ⟨q, head⟩ := qs
      have hj := forJ_inv env hp i head.repeatSize_ head.repeatCount_.toNat t hI
      cases hf : forJ env i head.repeatSize_ head.repeatCount_.toNat t with
      | abort f0 t2 =>
        simp only [walk, hs, hf]
        refine ⟨fun h => by simp at h, fun f h => ?_, fun h => by simp at h⟩
        simp only [Exit.fault.injEq] at h
        subst h
        exact hj.2.2 _ _ hf
      | exit t2 =>
        simp only [walk, hs, hf]
        refine ⟨fun h => by simp at h, fun f h => by simp at h, fun _ => Or.inl ?_⟩
        exact hj.2.1 t2 hf
      | next t2 =>
        have hI2 := hj.1 t2 hf
        simp only [walk, hs, hf]
        by_cases hlt : toInt32 (i + head.repeatSize_) < (t2.packetSequenceList_.length : Int)
        · rw [if_pos hlt]
          exact walk_inv env hp fuel _ t2 hI2
        · rw [if_neg hlt]
          by_cases hloop : 0 ≤ t2.returnToQIdx_
          · rw [if_pos hloop]
            exact walk_inv env hp fuel _ _ (hp.loop _ hI2 hloop)
          · rw [if_neg hloop]
            refine ⟨fun h => by simp at h, fun f h => by simp at h, fun _ => Or.inr ?_⟩
            exact ⟨hI2, Int.not_le.mp hloop⟩

/-! ## One packet of `sendQueueTransmit` -/

theorem applyDelay_frame (usecs : Int) (t : PcapTxThread) :
    ∃ sl o, applyDelay usecs t = { t with slept := sl, overHead := o } ∧ o ≤ 0 ∧
      (0 < usecs → sl = t.slept ++ [usecs] ∧ o = 0) ∧
      (¬ 0 < usecs → sl = t.slept ∧ o = usecs) := by
  unfold applyDelay
  by_cases h : 0 < usecs
  · rw [if_pos h]
    exact ⟨_, _, rfl, Int.le_refl 0, fun _ => ⟨rfl, rfl⟩, fun hn => absurd h hn⟩
  · rw [if_neg h]
    exact ⟨_, _, rfl, Int.not_lt.mp h, fun hp => absurd hp h, fun _ => ⟨rfl, rfl⟩⟩

theorem syncDelay_frame (elapsed : Int) (hdrTs ts : Timeval) (t t1 : PcapTxThread)
    (h : syncDelay elapsed hdrTs ts t = .ok t1) :
    ∃ sl o, t1 = { t with slept := sl, overHead := o, due := t.due ++
        [(hdrTs.tv_sec - ts.tv_sec) * 1000000 + (hdrTs.tv_usec - ts.tv_usec)] } ∧ o ≤ 0 := by
  unfold syncDelay at h
  simp only at h
  by_cases hpos : 0 < t.overHead - elapsed
  · rw [if_pos hpos] at h; simp at h
  · rw [if_neg hpos] at h
    simp only [Except.ok.injEq] at h
    obtain ⟨sl, o, he, ho, _, _⟩ := applyDelay_frame
      ((hdrTs.tv_sec - ts.tv_sec) * 1000000 + (hdrTs.tv_usec - ts.tv_usec)
        + (t.overHead - elapsed)) { t with overHead := t.overHead - elapsed, due := t.due ++
          [(hdrTs.tv_sec - ts.tv_sec) * 1000000 + (hdrTs.tv_usec - ts.tv_usec)] }
    rw [he] at h
    exact ⟨sl, o, h.symm, ho⟩

theorem syncDelay_ok (elapsed : Int) (hdrTs ts : Timeval) (t : PcapTxThread)
    (he : 0 ≤ elapsed) (ho : t.overHead ≤ 0) :
    ∃ t1, syncDelay elapsed hdrTs ts t = .ok t1 := by
  unfold syncDelay
  simp only
  rw [if_neg (by omega)]
  exact ⟨_, rfl⟩

theorem ttagAdvance_frame (t t1 : PcapTxThread) (h : ttagAdvance t = .ok t1) :
    ∃ d, t.ttagDeltaMarkers_[t.ttagMarkerIndex_]? = some d ∧
      t1 = { t with
        ttagId_ := (t.ttagId_ + 1) % 256
        nextTtagPkt_ := (t.nextTtagPkt_ + d) % U64
        ttagMarkerIndex_ :=
          if t.ttagDeltaMarkers_.length ≤ t.ttagMarkerIndex_ + 1 then 0
          else t.ttagMarkerIndex_ + 1 } := by
  unfold ttagAdvance at h
  cases hd : t.ttagDeltaMarkers_[t.ttagMarkerIndex_]? with
  | none => rw [hd] at h; simp at h
  | some d =>
    rw [hd] at h
    simp only [Except.ok.injEq] at h
    exact ⟨d, rfl, h.symm⟩

theorem length_stampPacket (pkt : List Nat) (pktLen ttagId off : Nat) (p : List Nat)
    (orig : Nat) (h : stampPacket pkt pktLen ttagId off = .ok (p, orig)) :
    p.length = pkt.length := by
  unfold stampPacket at h
  split at h
  · simp at h
  · simp only at h
    split at h
    · simp only [Except.ok.injEq, Prod.mk.injEq] at h
      rw [← h.1]; simp
    · split at h
      · simp at h
      · simp only [Except.ok.injEq, Prod.mk.injEq] at h
        rw [← h.1]; simp [writeBE16]

theorem length_restorePacket (pkt : List Nat) (pktLen off orig : Nat) :
    (restorePacket pkt pktLen off orig).length = pkt.length := by
  unfold restorePacket
  simp only
  split <;> simp [writeBE16]

/-- Inversion of the T-Tag block: either the packet is not due and nothing
changes, or it is due, stamped, and the stamper advances. -/
theorem stampStep_inv (off : Nat) (r : Record) (t : PcapTxThread) (b : Bool)
    (d1 : List Nat) (orig : Nat) (t1 : PcapTxThread)
    (h : stampStep off r t = .ok (b, d1, orig, t1)) :
    (t.stats_.pkts ≠ t.nextTtagPkt_ ∧ b = false ∧ d1 = r.data ∧ t1 = t) ∨
    (t.stats_.pkts = t.nextTtagPkt_ ∧ b = true ∧
      stampPacket r.data r.hdr.caplen t.ttagId_ off = .ok (d1, orig) ∧
      ttagAdvance t = .ok t1) := by
  unfold stampStep at h
  by_cases hdue : t.stats_.pkts = t.nextTtagPkt_
  · rw [if_pos hdue] at h
    cases hst : stampPacket r.data r.hdr.caplen t.ttagId_ off with
    | error f => rw [hst] at h; simp at h
    | ok po =>
      obtain ⟨p, o⟩ := po
      rw [hst] at h
      simp only at h
      cases hadv : ttagAdvance t with
      | error f => rw [hadv] at h; simp at h
      | ok t2 =>
        rw [hadv] at h
        simp only [Except.ok.injEq, Prod.mk.injEq] at h
        obtain ⟨rfl, rfl, rfl, rfl⟩ := h
        exact Or.inr ⟨hdue, rfl, rfl, rfl⟩
  · rw [if_neg hdue] at h
    simp only [Except.ok.injEq, Prod.mk.injEq] at h
    obtain ⟨rfl, rfl, _, rfl⟩ := h
    exact Or.inl ⟨hdue, rfl, rfl, rfl⟩

/-- Frame of one packet step: the members it writes, and what it writes. -/
theorem txPacket_frame (env : Env) (q idx off : Nat) (sync : Bool) (r : Record)
    (ts : Timeval) (t t1 : PcapTxThread)
    (h : txPacket env q idx off sync r ts t = .ok t1) :
    ∃ (id nx mi : Nat) (sl : List Int) (o : Int) (d1 d2 : List Nat) (b : Bool),
      t1 = { t with
        ttagId_ := id
        nextTtagPkt_ := nx
        ttagMarkerIndex_ := mi
        slept := sl
        overHead := o
        due := if sync = true then t.due ++
            [(r.hdr.ts.tv_sec - ts.tv_sec) * 1000000 + (r.hdr.ts.tv_usec - ts.tv_usec)]
          else t.due
        stats_ := ⟨(t.stats_.pkts + 1) % U64, (t.stats_.bytes + r.hdr.caplen) % U64⟩
        sunk := t.sunk ++ [⟨q, idx, r.hdr, d1, b, env.sinkOk t.sunk.length⟩]
        packetSequenceList_ :=
          if b then setRecordData t.packetSequenceList_ q idx d2 else t.packetSequenceList_
        stop_ := t.stop_ || env.stopReq t.sunk.length } ∧
      (sync = true → o ≤ 0) ∧ (sync = false → o = t.overHead) ∧
      d2.length = r.data.length ∧ r.hdr.caplen ≠ 0 ∧
      (b = true ↔ t.stats_.pkts = t.nextTtagPkt_) ∧
      (b = false → d1 = r.data ∧ d2 = r.data ∧ id = t.ttagId_ ∧ nx = t.nextTtagPkt_ ∧
        mi = t.ttagMarkerIndex_) ∧
      stamperTick t.ttagDeltaMarkers_ (stamperOf t)
        = .ok (b, ⟨(t.stats_.pkts + 1) % U64, nx, mi⟩) := by
  unfold txPacket at h
  simp only at h
  cases hst : stampStep off r t with
  | error f => rw [hst] at h; simp at h
  | ok res =>
    obtain ⟨b, d1, orig, t2⟩ := res
    rw [hst] at h
    simp only at h
    cases hsy : (if sync = true then syncDelay (env.elapsed t.sunk.length) r.hdr.ts ts t2
        else Except.ok t2) with
    | error f => rw [hsy] at h; simp at h
    | ok t3 =>
      rw [hsy] at h
      simp only at h
      by_cases hcap : r.hdr.caplen = 0
      · rw [if_pos hcap] at h; simp at h
      · rw [if_neg hcap] at h
        simp only [Except.ok.injEq] at h
        -- the delay part
        have hdel : ∃ sl o, t3 = { t2 with
              slept := sl
              overHead := o
              due := if sync = true then t2.due ++
                  [(r.hdr.ts.tv_sec - ts.tv_sec) * 1000000 + (r.hdr.ts.tv_usec - ts.tv_usec)]
                else t2.due } ∧
            (sync = true → o ≤ 0) ∧ (sync = false → o = t2.overHead) := by
          cases sync with
          | true =>
            simp only [if_true] at hsy
            obtain ⟨sl, o, he, ho⟩ := syncDelay_frame _ _ _ _ _ hsy
            exact ⟨sl, o, he, fun _ => ho, fun hf => by simp at hf⟩
          | false =>
            simp only [Bool.false_eq_true, if_false, Except.ok.injEq] at hsy
            exact ⟨t2.slept, t2.overHead, hsy.symm, fun hf => by simp at hf, fun _ => rfl⟩
        obtain ⟨sl, o, ht3, ho1, ho2⟩ := hdel
        rcases stampStep_inv off r t b d1 orig t2 hst with
          ⟨hdue, rfl, rfl, rfl⟩ | ⟨hdue, rfl, hsp, hadv⟩
        · refine ⟨t2.ttagId_, t2.nextTtagPkt_, t2.ttagMarkerIndex_, sl, o, r.data, r.data, false,
            ?_, ho1, ho2, rfl, hcap, by simp [hdue], fun _ => ⟨rfl, rfl, rfl, rfl, rfl⟩, ?_⟩
          · rw [← h, ht3]
            simp
          · simp [stamperTick, stamperOf, hdue]
        · obtain ⟨d, hd, ht2⟩ := ttagAdvance_frame t t2 hadv
          refine ⟨t2.ttagId_, t2.nextTtagPkt_, t2.ttagMarkerIndex_, sl, o, d1,
            restorePacket d1 r.hdr.caplen off orig, true,
            ?_, ho1, ?_, ?_, hcap, by simp [hdue], fun hf => by simp at hf, ?_⟩
          · rw [← h, ht3, ht2]
            simp
          · intro hs; rw [ho2 hs, ht2]
          · rw [length_restorePacket, length_stampPacket _ _ _ _ _ _ hsp]
          · rw [ht2]
            simp [stamperTick, stamperOf, hdue, hd]

/-- Frame of a tail or loop delay. -/
theorem runDelay_frame (env : Env) (d usecs : Int) (t : PcapTxThread) :
    ∃ sl o, runDelay env d usecs t
      = { t with slept := sl, overHead := o, due := t.due ++ [d],
                 stop_ := t.stop_ || env.stopReqDelay t.sunk.length } ∧ o ≤ 0 := by
  obtain ⟨sl, o, he, ho, _⟩ := applyDelay_frame usecs { t with due := t.due ++ [d] }
  refine ⟨sl, o, ?_, ho⟩
  simp only [runDelay]
  rw [he]

/-! ## `updateTxStreamStats` writes the stream statistics only -/

theorem creditK_frame (mult : Nat) (i : Int) :
    ∀ (n : Nat) (k : Int) (t t1 : PcapTxThread), creditK mult i n k t = .ok t1 →
      ∃ ss, t1 = { t with streamStats_ := ss }
  | 0, k, t, t1, h => by
    simp only [creditK, Except.ok.injEq] at h
    exact ⟨t.streamStats_, h.symm⟩
  | n + 1, k, t, t1, h => by
    cases hs : seqAt t (i + k) with
    | none => simp [creditK, hs] at h
    | some qs =>
      obtain ⟨q, seq⟩ := qs
      simp only [creditK, hs] at h
      obtain ⟨ss, hss⟩ := creditK_frame mult i n (k + 1) _ t1 h
      exact ⟨ss, hss⟩

theorem creditWalk_frame (c : Int) :
    ∀ (fuel : Nat) (i : Int) (t : PcapTxThread),
      ∃ ss, (creditWalk c fuel i t).t = { t with streamStats_ := ss }
  | 0, i, t => ⟨t.streamStats_, rfl⟩
  | fuel + 1, i, t => by
    simp only [creditWalk]
    split
    · cases hs : seqAt t i with
      | none => exact ⟨t.streamStats_, rfl⟩
      | some qs =>
        obtain ⟨q, head⟩ := qs
        simp only
        cases hk : creditK (toU64 (toInt32 (c * head.repeatCount_))) i
            head.repeatSize_.toNat 0 t with
        | error f => exact ⟨t.streamStats_, rfl⟩
        | ok t1 =>
          simp only
          obtain ⟨ss1, h1⟩ := creditK_frame _ _ _ _ _ _ hk
          obtain ⟨ss2, h2⟩ := creditWalk_frame c fuel (toInt32 (i + head.repeatSize_)) t1
          rw [h2, h1]
          exact ⟨ss2, rfl⟩
    · exact ⟨t.streamStats_, rfl⟩

theorem lastK_frame (P : SeqParams) (i : Int) :
    ∀ (n : Nat) (k d : Int) (t : PcapTxThread),
      (∀ d1 t1, lastK P i n k d t = .next d1 t1 → ∃ ss, t1 = { t with streamStats_ := ss }) ∧
      (∀ t1, lastK P i n k d t = .done t1 → ∃ ss, t1 = { t with streamStats_ := ss }) ∧
      (∀ f t1, lastK P i n k d t = .abort f t1 → ∃ ss, t1 = { t with streamStats_ := ss })
  | 0, k, d, t => by
    refine ⟨?_, ?_, ?_⟩
    · intro d1 t1 h
      simp only [lastK, LastResult.next.injEq] at h
      exact ⟨t.streamStats_, h.2.symm⟩
    · intro t1 h; simp [lastK] at h
    · intro f t1 h; simp [lastK] at h
  | n + 1, k, d, t => by
    cases hs : seqAt t (i + k) with
    | none =>
      refine ⟨?_, ?_, ?_⟩
      · intro d1 t1 h; simp [lastK, hs] at h
      · intro t1 h; simp [lastK, hs] at h
      · intro f t1 h
        simp only [lastK, hs, LastResult.abort.injEq] at h
        exact ⟨t.streamStats_, h.2.symm⟩
    | some qs =>
      obtain ⟨q, seq⟩ := qs
      by_cases hz : seq.packets_ = 0
      · refine ⟨?_, ?_, ?_⟩
        · intro d1 t1 h; simp [lastK, hs, hz] at h
        · intro t1 h; simp [lastK, hs, hz] at h
        · intro f t1 h
          simp only [lastK, hs, hz, if_true, LastResult.abort.injEq] at h
          exact ⟨t.streamStats_, h.2.symm⟩
      · by_cases hle : seq.packets_ ≤ d
        · have ih := lastK_frame P i n (k + 1) (toInt32 (d - seq.packets_))
            { t with streamStats_ := creditSeq 1 t.streamStats_ seq }
          refine ⟨?_, ?_, ?_⟩
          · intro d1 t1 h
            simp only [lastK, hs, hz, hle, if_true, if_false] at h
            obtain ⟨ss, hss⟩ := ih.1 d1 t1 h
            exact ⟨ss, hss⟩
          · intro t1 h
            simp only [lastK, hs, hz, hle, if_true, if_false] at h
            obtain ⟨ss, hss⟩ := ih.2.1 t1 h
            exact ⟨ss, hss⟩
          · intro f t1 h
            simp only [lastK, hs, hz, hle, if_true, if_false] at h
            obtain ⟨ss, hss⟩ := ih.2.2 f t1 h
            exact ⟨ss, hss⟩
        · refine ⟨?_, ?_, ?_⟩
          · intro d1 t1 h
            simp only [lastK, hs, hz, hle, if_false] at h
            split at h <;> simp at h
          · intro t1 h
            simp only [lastK, hs, hz, hle, if_false] at h
            split at h
            · simp only [LastResult.done.injEq] at h
              exact ⟨_, h.symm⟩
            · simp at h
          · intro f t1 h
            simp only [lastK, hs, hz, hle, if_false] at h
            split at h
            · simp at h
            · simp only [LastResult.abort.injEq] at h
              exact ⟨_, h.2.symm⟩

theorem lastJ_frame (P : SeqParams) (i rptSz : Int) :
    ∀ (n : Nat) (d : Int) (t : PcapTxThread),
      (∀ d1 t1, lastJ P i rptSz n d t = .next d1 t1 →
        ∃ ss, t1 = { t with streamStats_ := ss }) ∧
      (∀ t1, lastJ P i rptSz n d t = .done t1 → ∃ ss, t1 = { t with streamStats_ := ss }) ∧
      (∀ f t1, lastJ P i rptSz n d t = .abort f t1 →
        ∃ ss, t1 = { t with streamStats_ := ss })
  | 0, d, t => by
    refine ⟨?_, ?_, ?_⟩
    · intro d1 t1 h
      simp only [lastJ, LastResult.next.injEq] at h
      exact ⟨t.streamStats_, h.2.symm⟩
    · intro t1 h; simp [lastJ] at h
    · intro f t1 h; simp [lastJ] at h
  | n + 1, d, t => by
    have hk := lastK_frame P i rptSz.toNat 0 d t
    cases hf : lastK P i rptSz.toNat 0 d t with
    | next d2 t2 =>
      obtain ⟨ss2, h2⟩ := hk.1 d2 t2 hf
      have ih := lastJ_frame P i rptSz n d2 t2
      refine ⟨?_, ?_, ?_⟩
      · intro d1 t1 h
        simp only [lastJ, hf] at h
        obtain ⟨ss, hss⟩ := ih.1 d1 t1 h
        exact ⟨ss, by rw [hss, h2]⟩
      · intro t1 h
        simp only [lastJ, hf] at h
        obtain ⟨ss, hss⟩ := ih.2.1 t1 h
        exact ⟨ss, by rw [hss, h2]⟩
      · intro f t1 h
        simp only [lastJ, hf] at h
        obtain ⟨ss, hss⟩ := ih.2.2 f t1 h
        exact ⟨ss, by rw [hss, h2]⟩
    | done t2 =>
      refine ⟨?_, ?_, ?_⟩
      · intro d1 t1 h; simp [lastJ, hf] at h
      · intro t1 h
        simp only [lastJ, hf, LastResult.done.injEq] at h
        subst h; exact hk.2.1 t2 hf
      · intro f t1 h; simp [lastJ, hf] at h
    | abort f0 t2 =>
      refine ⟨?_, ?_, ?_⟩
      · intro d1 t1 h; simp [lastJ, hf] at h
      · intro t1 h; simp [lastJ, hf] at h
      · intro f t1 h
        simp only [lastJ, hf, LastResult.abort.injEq] at h
        obtain ⟨rfl, rfl⟩ := h
        exact hk.2.2 _ _ hf

theorem lastWalk_frame (P : SeqParams) :
    ∀ (fuel : Nat) (i d : Int) (t : PcapTxThread),
      ∃ ss, (lastWalk P fuel i d t).t = { t with streamStats_ := ss }
  | 0, i, d, t => ⟨t.streamStats_, rfl⟩
  | fuel + 1, i, d, t => by
    simp only [lastWalk]
    split
    · cases hs : seqAt t i with
      | none => exact ⟨t.streamStats_, rfl⟩
      | some qs =>
        obtain ⟨q, head⟩ := qs
        simp only
        have hj := lastJ_frame P i head.repeatSize_ head.repeatCount_.toNat d t
        cases hf : lastJ P i head.repeatSize_ head.repeatCount_.toNat d t with
        | abort f t1 => exact hj.2.2 f t1 hf
        | done t1 => exact hj.2.1 t1 hf
        | next d1 t1 =>
          simp only
          obtain ⟨ss1, h1⟩ := hj.1 d1 t1 hf
          obtain ⟨ss2, h2⟩ := lastWalk_frame P fuel (toInt32 (i + head.repeatSize_)) d1 t1
          rw [h2, h1]
          exact ⟨ss2, rfl⟩
    · exact ⟨t.streamStats_, rfl⟩

theorem updateWalks_frame (P : SeqParams) (fuel : Nat) (c d : Int) (t : PcapTxThread) :
    ∃ ss, (updateWalks P fuel c d t).t = { t with streamStats_ := ss } := by
  unfold updateWalks
  by_cases hc : c = 0
  · simp only [hc, if_true]
    by_cases hd : d = 0
    · rw [if_pos hd]; exact ⟨t.streamStats_, rfl⟩
    · rw [if_neg hd]; exact lastWalk_frame P fuel 0 d t
  · simp only [hc, if_false]
    obtain ⟨ss1, h1⟩ := creditWalk_frame c fuel 0 t
    cases hw : creditWalk c fuel 0 t with
    | mk e t1 =>
      rw [hw] at h1
      simp only at h1
      cases e with
      | finished =>
        simp only
        by_cases hd : d = 0
        · rw [if_pos hd]; exact ⟨ss1, h1⟩
        · rw [if_neg hd]
          obtain ⟨ss2, h2⟩ := lastWalk_frame P fuel 0 d t1
          rw [h2, h1]
          exact ⟨ss2, rfl⟩
      | outOfFuel => exact ⟨ss1, h1⟩
      | fault f => exact ⟨ss1, h1⟩

theorem updateTxStreamStats_frame (P : SeqParams) (fuel : Nat) (t : PcapTxThread) :
    ∃ ss, (updateTxStreamStats P fuel t).t = { t with streamStats_ := ss } := by
  unfold updateTxStreamStats
  by_cases hz : t.packetListSize_ = 0
  · rw [if_pos hz]; exact ⟨t.streamStats_, rfl⟩
  · rw [if_neg hz]
    exact updateWalks_frame P fuel (statsC t) (statsD t) t

/-- The code from `_exit2` writes the stream statistics and, when it reaches
its end, `state_`. -/
theorem runExit_frame (P : SeqParams) (fuel : Nat) (t : PcapTxThread) :
    ∃ ss st, (runExit P fuel t).t = { t with streamStats_ := ss, state_ := st } ∧
      ((runExit P fuel t).exit = Exit.finished → st = TxState.kFinished) := by
  unfold runExit
  by_cases htr : t.trackStreamStats_ = true
  · rw [if_pos htr]
    obtain ⟨ss, hss⟩ := updateTxStreamStats_frame P fuel t
    cases hu : updateTxStreamStats P fuel t with
    | mk e t1 =>
      rw [hu] at hss
      simp only at hss
      cases e with
      | finished =>
        simp only
        exact ⟨ss, TxState.kFinished, by rw [hss], fun _ => rfl⟩
      | outOfFuel =>
        simp only
        exact ⟨ss, t.state_, by rw [hss], fun h => by simp at h⟩
      | fault f =>
        simp only
        exact ⟨ss, t.state_, by rw [hss], fun h => by simp at h⟩
  · rw [if_neg htr]
    exact ⟨t.streamStats_, TxState.kFinished, rfl, fun _ => rfl⟩

/-! ## Which faults each part of the code can end on -/

theorem creditWalk_fault (c : Int) :
    ∀ (fuel : Nat) (i : Int) (t : PcapTxThread) (f : Fault),
      (creditWalk c fuel i t).exit = Exit.fault f → f = Fault.seqIndex
  | 0, i, t, f => by simp [creditWalk]
  | fuel + 1, i, t, f => by
    simp only [creditWalk]
    split
    · cases hs : seqAt t i with
      | none => simp only [Exit.fault.injEq]; exact fun h => h.symm
      | some qs =>
        obtain ⟨q, head⟩ := qs
        simp only
        cases hk : creditK (toU64 (toInt32 (c * head.repeatCount_))) i
            head.repeatSize_.toNat 0 t with
        | error f0 =>
          simp only [Exit.fault.injEq]
          intro h
          subst h
          clear hs
          -- the only fault of the inner loop is the index fault
          have : ∀ (n : Nat) (k : Int) (t : PcapTxThread) (f : Fault) (mult : Nat),
              creditK mult i n k t = .error f → f = Fault.seqIndex := by
            intro n
            induction n with
            | zero => intro k t f mult h; simp [creditK] at h
            | succ n ih =>
              intro k t f mult h
              cases hs2 : seqAt t (i + k) with
              | none =>
                simp only [creditK, hs2, Except.error.injEq] at h
                exact h.symm
              | some qs2 =>
                simp only [creditK, hs2] at h
                exact ih _ _ _ _ h
          exact this _ _ _ _ _ hk
        | ok t1 =>
          simp only
          exact creditWalk_fault c fuel _ t1 f
    · simp

theorem lastK_fault (P : SeqParams) (i : Int) :
    ∀ (n : Nat) (k d : Int) (t : PcapTxThread) (f : Fault) (t1 : PcapTxThread),
      lastK P i n k d t = .abort f t1 → f.ofStats = true
  | 0, k, d, t, f, t1 => by simp [lastK]
  | n + 1, k, d, t, f, t1 => by
    cases hs : seqAt t (i + k) with
    | none =>
      simp only [lastK, hs, LastResult.abort.injEq]
      rintro ⟨rfl, _⟩; rfl
    | some qs =>
      obtain ⟨q, seq⟩ := qs
      by_cases hz : seq.packets_ = 0
      · simp only [lastK, hs, hz, if_true, LastResult.abort.injEq]
        rintro ⟨rfl, _⟩; rfl
      · by_cases hle : seq.packets_ ≤ d
        · simp only [lastK, hs, hz, hle, if_true, if_false]
          exact lastK_fault P i n (k + 1) _ _ f t1
        · simp only [lastK, hs, hz, hle, if_false]
          split
          · simp
          · simp only [LastResult.abort.injEq]
            rintro ⟨rfl, _⟩; rfl

theorem lastJ_fault (P : SeqParams) (i rptSz : Int) :
    ∀ (n : Nat) (d : Int) (t : PcapTxThread) (f : Fault) (t1 : PcapTxThread),
      lastJ P i rptSz n d t = .abort f t1 → f.ofStats = true
  | 0, d, t, f, t1 => by simp [lastJ]
  | n + 1, d, t, f, t1 => by
    cases hk : lastK P i rptSz.toNat 0 d t with
    | next d1 t2 =>
      simp only [lastJ, hk]
      exact lastJ_fault P i rptSz n d1 t2 f t1
    | done t2 => simp [lastJ, hk]
    | abort f0 t2 =>
      simp only [lastJ, hk, LastResult.abort.injEq]
      rintro ⟨rfl, _⟩
      exact lastK_fault P i _ _ _ _ _ _ hk

theorem lastWalk_fault (P : SeqParams) :
    ∀ (fuel : Nat) (i d : Int) (t : PcapTxThread) (f : Fault),
      (lastWalk P fuel i d t).exit = Exit.fault f → f.ofStats = true
  | 0, i, d, t, f => by simp [lastWalk]
  | fuel + 1, i, d, t, f => by
    simp only [lastWalk]
    split
    · cases hs : seqAt t i with
      | none =>
        simp only [Exit.fault.injEq]
        rintro rfl; rfl
      | some qs =>
        obtain ⟨q, head⟩ := qs
        simp only
        cases hf : lastJ P i head.repeatSize_ head.repeatCount_.toNat d t with
        | abort f0 t1 =>
          simp only [Exit.fault.injEq]
          rintro rfl
          exact lastJ_fault P i _ _ _ _ _ _ hf
        | done t1 => simp
        | next d1 t1 =>
          simp only
          exact lastWalk_fault P fuel _ d1 t1 f
    · simp

theorem updateWalks_fault (P : SeqParams) (fuel : Nat) (c d : Int) (t : PcapTxThread)
    (f : Fault) (h : (updateWalks P fuel c d t).exit = Exit.fault f) : f.ofStats = true := by
  unfold updateWalks at h
  by_cases hc : c = 0
  · simp only [hc, if_true] at h
    by_cases hd : d = 0
    · rw [if_pos hd] at h; simp at h
    · rw [if_neg hd] at h; exact lastWalk_fault P fuel 0 d t f h
  · simp only [hc, if_false] at h
    have h1 := creditWalk_fault c fuel 0 t
    cases hw : creditWalk c fuel 0 t with
    | mk e t1 =>
      rw [hw] at h h1
      cases e with
      | finished =>
        simp only at h
        by_cases hd : d = 0
        · rw [if_pos hd] at h; simp at h
        · rw [if_neg hd] at h; exact lastWalk_fault P fuel 0 d t1 f h
      | outOfFuel => simp at h
      | fault f0 =>
        simp only [Exit.fault.injEq] at h
        subst h
        rw [h1 f0 rfl]; rfl

theorem runExit_fault (P : SeqParams) (fuel : Nat) (t : PcapTxThread) (f : Fault)
    (h : (runExit P fuel t).exit = Exit.fault f) : f.ofStats = true := by
  unfold runExit at h
  by_cases htr : t.trackStreamStats_ = true
  · rw [if_pos htr] at h
    have hu : ∀ f, (updateTxStreamStats P fuel t).exit = Exit.fault f → f.ofStats = true := by
      intro f hf
      unfold updateTxStreamStats at hf
      by_cases hz : t.packetListSize_ = 0
      · rw [if_pos hz] at hf; simp at hf
      · rw [if_neg hz] at hf
        exact updateWalks_fault P fuel (statsC t) (statsD t) t f hf
    cases hw : updateTxStreamStats P fuel t with
    | mk e t1 =>
      rw [hw] at h hu
      cases e with
      | finished => simp at h
      | outOfFuel => simp at h
      | fault f0 =>
        simp only [Exit.fault.injEq] at h
        subst h
        exact hu f0 rfl
  · rw [if_neg htr] at h; simp at h

theorem stampPacket_fault (pkt : List Nat) (pktLen ttagId off : Nat) (f : Fault)
    (h : stampPacket pkt pktLen ttagId off = .error f) : f.ofStamp = true := by
  unfold stampPacket at h
  split at h
  · simp only [Except.error.injEq] at h; subst h; rfl
  · simp only at h
    split at h
    · simp at h
    · split at h
      · simp only [Except.error.injEq] at h; subst h; rfl
      · simp at h

theorem stampStep_fault (off : Nat) (r : Record) (t : PcapTxThread) (f : Fault)
    (h : stampStep off r t = .error f) :
    t.stats_.pkts = t.nextTtagPkt_ ∧ f.ofStamp = true := by
  unfold stampStep at h
  by_cases hdue : t.stats_.pkts = t.nextTtagPkt_
  · rw [if_pos hdue] at h
    refine ⟨hdue, ?_⟩
    cases hsp : stampPacket r.data r.hdr.caplen t.ttagId_ off with
    | error f0 =>
      rw [hsp] at h
      simp only [Except.error.injEq] at h
      subst h
      exact stampPacket_fault _ _ _ _ _ hsp
    | ok res =>
      obtain ⟨d, orig⟩ := res
      rw [hsp] at h
      simp only at h
      cases hadv : ttagAdvance t with
      | error f0 =>
        rw [hadv] at h
        simp only [Except.error.injEq] at h
        subst h
        unfold ttagAdvance at hadv
        split at hadv
        · simp only [Except.error.injEq] at hadv; subst hadv; rfl
        · simp at hadv
      | ok t1 => rw [hadv] at h; simp at h
  · rw [if_neg hdue] at h; simp at h

theorem stampStep_overHead (off : Nat) (r : Record) (t : PcapTxThread) (b : Bool)
    (d1 : List Nat) (orig : Nat) (t1 : PcapTxThread)
    (h : stampStep off r t = .ok (b, d1, orig, t1)) : t1.overHead = t.overHead := by
  rcases stampStep_inv off r t b d1 orig t1 h with ⟨_, _, _, rfl⟩ | ⟨_, _, _, hadv⟩
  · rfl
  · obtain ⟨d, _, ht⟩ := ttagAdvance_frame t t1 hadv
    rw [ht]

/-- The faults of one packet step: a stamping fault needs the T-Tag test to
hold, the overhead assertion needs a positive overhead after the measured time
is taken off, the length assertion needs an empty packet. -/
theorem txPacket_fault (env : Env) (q idx off : Nat) (sync : Bool) (r : Record)
    (ts : Timeval) (t : PcapTxThread) (f : Fault)
    (h : txPacket env q idx off sync r ts t = .error f) :
    (f.ofStamp = true ∧ t.stats_.pkts = t.nextTtagPkt_) ∨
    (f = Fault.overheadAssert ∧ sync = true ∧
      0 < t.overHead - (env.elapsed t.sunk.length : Int)) ∨
    (f = Fault.pktLenAssert ∧ r.hdr.caplen = 0) := by
  unfold txPacket at h
  simp only at h
  cases hst : stampStep off r t with
  | error f0 =>
    rw [hst] at h
    simp only [Except.error.injEq] at h
    subst h
    obtain ⟨h1, h2⟩ := stampStep_fault off r t f0 hst
    exact Or.inl ⟨h2, h1⟩
  | ok res =>
    obtain ⟨b, d1, orig, t2⟩ := res
    have hov := stampStep_overHead off r t b d1 orig t2 hst
    rw [hst] at h
    simp only at h
    cases sync with
    | true =>
      simp only [if_true] at h
      cases hsy : syncDelay (env.elapsed t.sunk.length) r.hdr.ts ts t2 with
      | error f0 =>
        rw [hsy] at h
        simp only [Except.error.injEq] at h
        subst h
        unfold syncDelay at hsy
        simp only at hsy
        split at hsy
        · simp only [Except.error.injEq] at hsy
          subst hsy
          rename_i hpos
          rw [hov] at hpos
          exact Or.inr (Or.inl ⟨rfl, rfl, hpos⟩)
        · simp at hsy
      | ok t3 =>
        rw [hsy] at h
        simp only at h
        split at h
        · simp only [Except.error.injEq] at h
          subst h
          rename_i hcap
          exact Or.inr (Or.inr ⟨rfl, hcap⟩)
        · simp at h
    | false =>
      simp only [Bool.false_eq_true, if_false] at h
      split at h
      · simp only [Except.error.injEq] at h
        subst h
        rename_i hcap
        exact Or.inr (Or.inr ⟨rfl, hcap⟩)
      · simp at h

/-! ## A run as a whole -/

/-- An invariant of the transmit loop that holds when `run` enters the outer
walk describes the state `run` ends in: either the walk reached `_exit` (on a
stop after a packet, or at the end of a one-shot list) and the stream
statistics were attributed, or the walk ended early and the state is the one
it ended in. -/
theorem run_inv {I X : PcapTxThread → Prop} {F : Fault → PcapTxThread → Prop}
    (P : SeqParams) (env : Env) (hp : Preserved env true I X F) (fuel : Nat) (t : PcapTxThread)
    (hne : t.packetSequenceList_.length ≠ 0) (hI : I (runInit t)) :
    ∃ t1 ss st, (run P env fuel t).t = { t1 with streamStats_ := ss, state_ := st } ∧
      ((run P env fuel t).exit = Exit.finished → st = TxState.kFinished) ∧
      ((((∃ t2, I t2 ∧ X t2 ∧ t1 = { t2 with stop_ := false }) ∨
            (I t1 ∧ t1.returnToQIdx_ < 0)) ∧
          ∀ f, (run P env fuel t).exit = Exit.fault f → f.ofStats = true) ∨
        ((run P env fuel t).exit ≠ Exit.finished ∧ I t1 ∧ ss = t1.streamStats_ ∧
          st = t1.state_ ∧ ∀ f, (run P env fuel t).exit = Exit.fault f → F f t1)) := by
  have hw := walk_inv env hp fuel 0 (runInit t) hI
  unfold run
  rw [if_neg hne]
  cases hwk : walk env fuel 0 (runInit t) with
  | mk e t1 =>
    rw [hwk] at hw
    cases e with
    | finished =>
      simp only
      obtain ⟨ss, st, hfr, hst⟩ := runExit_frame P fuel t1
      refine ⟨t1, ss, st, hfr, hst, Or.inl ⟨hw.2.2 rfl, ?_⟩⟩
      intro f hf
      exact runExit_fault P fuel t1 f hf
    | outOfFuel =>
      simp only
      refine ⟨t1, t1.streamStats_, t1.state_, rfl, fun h => by simp at h, Or.inr ?_⟩
      exact ⟨by simp, hw.1 rfl, rfl, rfl, fun f h => by simp at h⟩
    | fault f0 =>
      simp only
      refine ⟨t1, t1.streamStats_, t1.state_, rfl, fun h => by simp at h, Or.inr ?_⟩
      refine ⟨by simp, (hw.2.1 f0 rfl).1, rfl, rfl, ?_⟩
      intro f h
      simp only [Exit.fault.injEq] at h
      subst h
      exact (hw.2.1 f0 rfl).2

/-- A run of the empty list goes straight to `_exit2`. -/
theorem run_empty (P : SeqParams) (env : Env) (fuel : Nat) (t : PcapTxThread)
    (he : t.packetSequenceList_.length = 0) :
    run P env fuel t = runExit P fuel { t with overHead := 0 } := by
  unfold run
  rw [if_pos he]

/-! ## The carry fold takes at most two iterations -/

theorem foldLoop_small (n x : Nat) (h : x ≤ 0xffff) : foldLoop n x = x := by
  cases n with
  | zero => rfl
  | succ n => simp only [foldLoop]; rw [if_neg (by omega)]

theorem foldLoop_stable : ∀ (m k x : Nat), foldLoop m x ≤ 0xffff →
    foldLoop (m + k) x = foldLoop m x
  | 0, k, x, h => by
    simp only [foldLoop] at h
    simp only [Nat.zero_add, foldLoop]
    exact foldLoop_small k x h
  | m + 1, k, x, h => by
    have e : m + 1 + k = (m + k) + 1 := by omega
    rw [e]
    simp only [foldLoop] at h ⊢
    by_cases hx : 0xffff < x
    · simp only [if_pos hx] at h ⊢
      exact foldLoop_stable m k _ h
    · simp only [if_neg hx]

theorem foldLoop_two_le (x : Nat) (h : x < 4294967296) : foldLoop 2 x ≤ 0xffff := by
  have e1 : ∀ y : Nat, y &&& 0xffff = y % 65536 := fun y => Nat.and_pow_two_sub_one_eq_mod y 16
  have e2 : ∀ y : Nat, y >>> 16 = y / 65536 := fun y => Nat.shiftRight_eq_div_pow y 16
  simp only [foldLoop, e1, e2]
  split
  · split <;> omega
  · omega

theorem newCksum32_lt (pktLen ttagId origCksum : Nat) (hid : ttagId < 256) :
    (if pktLen % 2 = 1 then
        not16 origCksum + not16 0x221d + 0x231d + not16 0x6100 + (0x6100 ||| ttagId)
      else not16 origCksum + not16 0x0022 + (ttagId <<< 8 ||| 0x23)) < 262144 := by
  have h1 := not16_le origCksum
  have h2 := lor_6100 ttagId hid
  have h3 := shl_23 ttagId hid
  have h4 : not16 0x221d = 56802 := by decide
  have h5 : not16 0x6100 = 40703 := by decide
  have h6 : not16 0x0022 = 65501 := by decide
  split <;> omega

/-- Claim C20: for every original checksum, every `ttagId` below 256 and
either parity of the packet length, the sum `~HC + ~m + m'` of
`sendQueueTransmit` needs no reduction modulo `2 ^ 32`, two iterations of the
carry-fold loop bring it to at most `0xffff` and every further iteration
leaves it there, so the loop run to its end stops after at most two
iterations, and the value written back is `0xffff` minus the folded sum. -/
theorem cksum_fold_two_iterations (pktLen ttagId origCksum : Nat) (hid : ttagId < 256) :
    newCksum32 pktLen ttagId origCksum =
      (if pktLen % 2 = 1 then
        not16 origCksum + not16 0x221d + 0x231d + not16 0x6100 + (0x6100 ||| ttagId)
      else not16 origCksum + not16 0x0022 + (ttagId <<< 8 ||| 0x23)) ∧
    newCksum32 pktLen ttagId origCksum < U32 ∧
    foldLoop 2 (newCksum32 pktLen ttagId origCksum) ≤ 0xffff ∧
    (∀ n, 2 ≤ n → foldLoop n (newCksum32 pktLen ttagId origCksum)
      = foldLoop 2 (newCksum32 pktLen ttagId origCksum)) ∧
    foldCksum (newCksum32 pktLen ttagId origCksum)
      = foldLoop 2 (newCksum32 pktLen ttagId origCksum) ∧
    not16 (foldCksum (newCksum32 pktLen ttagId origCksum))
      = 0xffff - foldCksum (newCksum32 pktLen ttagId origCksum) := by
  have hlt := newCksum32_lt pktLen ttagId origCksum hid
  have heq : newCksum32 pktLen ttagId origCksum =
      (if pktLen % 2 = 1 then
        not16 origCksum + not16 0x221d + 0x231d + not16 0x6100 + (0x6100 ||| ttagId)
      else not16 origCksum + not16 0x0022 + (ttagId <<< 8 ||| 0x23)) := by
    unfold newCksum32 U32
    exact Nat.mod_eq_of_lt (by omega)
  have hx : newCksum32 pktLen ttagId origCksum < 4294967296 := by rw [heq]; omega
  have h2 := foldLoop_two_le _ hx
  have hst : ∀ n, 2 ≤ n → foldLoop n (newCksum32 pktLen ttagId origCksum)
      = foldLoop 2 (newCksum32 pktLen ttagId origCksum) := by
    intro n hn
    have := foldLoop_stable 2 (n - 2) _ h2
    rwa [show 2 + (n - 2) = n by omega] at this
  have hf : foldCksum (newCksum32 pktLen ttagId origCksum)
      = foldLoop 2 (newCksum32 pktLen ttagId origCksum) := by
    unfold foldCksum
    by_cases hn : 2 ≤ newCksum32 pktLen ttagId origCksum
    · exact hst _ hn
    · rw [foldLoop_small _ _ (by omega), foldLoop_small _ _ (by omega)]
  refine ⟨heq, hx, h2, hst, hf, ?_⟩
  rw [hf]
  unfold not16
  omega

theorem cksum_fold_two_iterations_witness :
    newCksum32 65 0x5a 0xb406 = 150865 ∧ foldLoop 2 (newCksum32 65 0x5a 0xb406) = 19795 ∧
    foldCksum (newCksum32 65 0x5a 0xb406) = foldLoop 2 (newCksum32 65 0x5a 0xb406) :=
  ⟨by decide, by decide,
    (cksum_fold_two_iterations 65 0x5a 0xb406 (by decide)).2.2.2.2.1⟩

/-! ## The overhead is never positive -/

theorem overHead_preserved (env : Env) (sync : Bool) :
    Preserved env sync (fun t => t.overHead ≤ 0) (fun _ => True)
      (fun f _ => f ≠ Fault.overheadAssert) where
  pkt := by
    intro q idx off r ts t t1 hI h
    obtain ⟨id, nx, mi, sl, o, d1, d2, b, ht1, ho1, ho2, _⟩ :=
      txPacket_frame env q idx off sync r ts t t1 h
    rw [ht1]
    cases sync with
    | true => exact ho1 rfl
    | false => simp only; rw [ho2 rfl]; exact hI
  pktStop := by intros; trivial
  pktFault := by
    intro q idx off r ts t f hI h
    rcases txPacket_fault env q idx off sync r ts t f h with ⟨h1, _⟩ | ⟨_, _, h3⟩ | ⟨h1, _⟩
    · intro hf; subst hf; simp [Fault.ofStamp] at h1
    · exfalso
      have : (0 : Int) ≤ (env.elapsed t.sunk.length : Int) := Int.ofNat_nonneg _
      omega
    · rw [h1]; decide
  seqFault := by intro t _; decide
  tail := by
    intro d t _
    obtain ⟨sl, o, he, ho⟩ := runDelay_frame env d (d + t.overHead) t
    rw [he]
    exact ho
  loop := by
    intro t _ _
    obtain ⟨sl, o, he, ho⟩ := runDelay_frame env (t.loopDelay_ : Int)
      (toInt64 ((t.loopDelay_ : Int) + t.overHead)) t
    rw [he]
    exact ho

/-- Claim C14: every application of the overhead-aware delay policy leaves
`overHead ≤ 0`, whatever the delay and the previous overhead were (the policy
itself, the tail and loop delays of `run`, and the delay before each packet,
which succeeds and leaves `overHead ≤ 0` when the measured time is not
negative and `overHead ≤ 0` held before); `sendQueueTransmit` entered with
`overHead ≤ 0` never fails the assertion `overHead <= 0` and returns with
`overHead ≤ 0`; and a run never fails that assertion and ends with
`overHead ≤ 0`. -/
theorem overhead_never_positive :
    (∀ (usecs : Int) (t : PcapTxThread), (applyDelay usecs t).overHead ≤ 0) ∧
    (∀ (env : Env) (d usecs : Int) (t : PcapTxThread),
      (runDelay env d usecs t).overHead ≤ 0) ∧
    (∀ (elapsed : Int) (hdrTs ts : Timeval) (t : PcapTxThread), 0 ≤ elapsed →
      t.overHead ≤ 0 → ∃ t1, syncDelay elapsed hdrTs ts t = .ok t1 ∧ t1.overHead ≤ 0) ∧
    (∀ (env : Env) (q : Nat) (seq : PacketSequence) (sync : Bool) (t : PcapTxThread),
      t.overHead ≤ 0 →
      (∀ code t1, sendQueueTransmit env q seq sync t = .ret code t1 → t1.overHead ≤ 0) ∧
      (∀ f t1, sendQueueTransmit env q seq sync t = .abort f t1 →
        f ≠ Fault.overheadAssert ∧ t1.overHead ≤ 0)) ∧
    (∀ (P : SeqParams) (env : Env) (fuel : Nat) (t : PcapTxThread),
      (run P env fuel t).exit ≠ Exit.fault Fault.overheadAssert ∧
      (run P env fuel t).t.overHead ≤ 0) := by
  refine ⟨?_, ?_, ?_, ?_, ?_⟩
  · intro usecs t
    obtain ⟨sl, o, he, ho, _⟩ := applyDelay_frame usecs t
    rw [he]; exact ho
  · intro env d usecs t
    obtain ⟨sl, o, he, ho⟩ := runDelay_frame env d usecs t
    rw [he]; exact ho
  · intro elapsed hdrTs ts t he ho
    obtain ⟨t1, h1⟩ := syncDelay_ok elapsed hdrTs ts t he ho
    obtain ⟨sl, o, hfr, ho1⟩ := syncDelay_frame elapsed hdrTs ts t t1 h1
    exact ⟨t1, h1, by rw [hfr]; exact ho1⟩
  · intro env q seq sync t hI
    have h := sendLoop_inv env sync (overHead_preserved env sync) q seq.ttagL4CksumOffset_ seq.records 0
      (match seq.records with
        | r :: _ => r.hdr.ts
        | [] => ⟨0, 0⟩) t hI
    constructor
    · intro code t1 hq
      unfold sendQueueTransmit at hq
      exact (h.1 code t1 hq).1
    · intro f t1 hq
      unfold sendQueueTransmit at hq
      exact ⟨(h.2 f t1 hq).2, (h.2 f t1 hq).1⟩
  · intro P env fuel t
    by_cases he : t.packetSequenceList_.length = 0
    · rw [run_empty P env fuel t he]
      obtain ⟨ss, st, hfr, _⟩ := runExit_frame P fuel { t with overHead := 0 }
      constructor
      · intro hf
        have := runExit_fault P fuel _ _ hf
        simp [Fault.ofStats] at this
      · rw [hfr]
    · obtain ⟨t1, ss, st, hfr, _, hcase⟩ :=
        run_inv P env (overHead_preserved env true) fuel t he (by simp [runInit])
      rcases hcase with ⟨hI, hf⟩ | ⟨_, hI, _, _, hf⟩
      · constructor
        · intro h
          have := hf _ h
          simp [Fault.ofStats] at this
        · rw [hfr]
          rcases hI with ⟨t2, hI2, _, rfl⟩ | ⟨hI1, _⟩
          · exact hI2
          · exact hI1
      · constructor
        · intro h
          exact hf _ h rfl
        · rw [hfr]; exact hI

/-! ## Clear, build, clear -/

theorem clearPacketList_eq (t : PcapTxThread) :
    clearPacketList t = if t.state_ = TxState.kRunning then none else some (emptyProgram t) := by
  unfold clearPacketList
  split
  · rfl
  · simp [setPacketListLoopMode, emptyProgram, U64]

theorem applyOp_emptyProgram (P : SeqParams) (t t1 : PcapTxThread) (o : BuildOp)
    (h : applyOp P t o = some t1) :
    emptyProgram t1 = emptyProgram t ∧ t1.state_ = t.state_ := by
  cases o with
  | loopMode loop s n =>
    simp only [applyOp, Option.some.injEq] at h
    subst h
    exact ⟨rfl, rfl⟩
  | call c =>
    cases c with
    | loopNext size repeats sec nsec =>
      simp only [applyOp, applyCall, Option.some.injEq] at h
      subst h
      exact ⟨rfl, rfl⟩
    | append sec nsec packet length =>
      simp only [applyOp, applyCall] at h
      cases ha : appendToPacketList P t sec nsec packet length with
      | none => rw [ha] at h; simp at h
      | some res =>
        obtain ⟨op, t2⟩ := res
        rw [ha] at h
        simp only [Option.some.injEq] at h
        subst h
        obtain ⟨c0, cur0, l1, c, cur, _, _, _, _, _, hcase⟩ :=
          appendToPacketList_inv P t sec nsec packet length op t2 ha
        rcases hcase with ⟨_, _, l3, _, ht⟩ | ⟨_, ht⟩
        · rw [ht]; exact ⟨rfl, rfl⟩
        · rw [ht]; exact ⟨rfl, rfl⟩

theorem applyOps_emptyProgram (P : SeqParams) :
    ∀ (ops : List BuildOp) (t t1 : PcapTxThread), applyOps P t ops = some t1 →
      emptyProgram t1 = emptyProgram t ∧ t1.state_ = t.state_
  | [], t, t1, h => by
    simp only [applyOps, Option.some.injEq] at h
    subst h; exact ⟨rfl, rfl⟩
  | o :: os, t, t1, h => by
    simp only [applyOps] at h
    cases ho : applyOp P t o with
    | none => rw [ho] at h; simp at h
    | some t2 =>
      rw [ho] at h
      simp only at h
      obtain ⟨h1, h2⟩ := applyOp_emptyProgram P t t2 o ho
      obtain ⟨h3, h4⟩ := applyOps_emptyProgram P os t2 t1 h
      exact ⟨h3.trans h1, h4.trans h2⟩

/-- Claim C18: when `clearPacketList` gave the state `t0` and any sequence of
`loopNextPacketSet`, `appendToPacketList` and `setPacketListLoopMode` calls
was then made, a second `clearPacketList` succeeds and gives `t0` again: the
sequence list is empty, `packetListSize_ = 0`, no sequence and no packet set
is open (`packetCount_ = 0`, `repeatSize_ = 0`), `returnToQIdx_ = -1` and
`loopDelay_ = 0`. -/
theorem clear_build_clear (P : SeqParams) (t t0 t1 : PcapTxThread) (ops : List BuildOp)
    (h0 : clearPacketList t = some t0) (h1 : applyOps P t0 ops = some t1) :
    clearPacketList t1 = some t0 ∧ t0.packetSequenceList_ = [] ∧ t0.packetListSize_ = 0 ∧
      t0.currentPacketSequence_ = none ∧ t0.packetCount_ = 0 ∧ t0.repeatSize_ = 0 ∧
      t0.returnToQIdx_ = -1 ∧ t0.loopDelay_ = 0 := by
  rw [clearPacketList_eq] at h0
  split at h0
  · simp at h0
  · rename_i hrun
    simp only [Option.some.injEq] at h0
    subst h0
    obtain ⟨he, hs⟩ := applyOps_emptyProgram P ops _ t1 h1
    refine ⟨?_, rfl, rfl, rfl, rfl, rfl, rfl, rfl⟩
    rw [clearPacketList_eq, hs, he]
    have : (emptyProgram t).state_ = t.state_ := rfl
    rw [this, if_neg hrun]
    rfl

theorem clear_build_clear_witness :
    clearPacketList PcapTxThread.initial = some demoCleared ∧
    (applyOps demoParams demoCleared demoOps).isSome = true ∧
    clearPacketList ((applyOps demoParams demoCleared demoOps).getD PcapTxThread.initial)
      = some demoCleared :=
  ⟨by decide, by decide,
    (clear_build_clear demoParams PcapTxThread.initial demoCleared
      ((applyOps demoParams demoCleared demoOps).getD PcapTxThread.initial) demoOps
      (by decide) (by decide)).1⟩

/-! ## The code at concrete inputs -/

/-- Claim C11 (the code departs from it). For the one-packet program
(`packetListSize_ = 1`) and a run that sank `2 ^ 32` packets, the quotient
`pkts / packetListSize_` is `2 ^ 32`, but stored in `int c` it is 0: the first
walk is skipped and stream 7 is credited nothing, where after three packets it
is credited 3 packets and 180 bytes. -/
theorem stats_quotient_narrowed :
    demoAfter32.packetListSize_ = 1 ∧
    txPktsDelta demoAfter32.stats_.pkts demoAfter32.lastStats_.pkts
      / demoAfter32.packetListSize_ = 4294967296 ∧
    statsC demoAfter32 = 0 ∧ statsD demoAfter32 = 0 ∧
    (updateTxStreamStats demoGuidParams 5 demoAfter32).exit = Exit.finished ∧
    ssGet (updateTxStreamStats demoGuidParams 5 demoAfter32).t.streamStats_ 7 = ⟨0, 0⟩ ∧
    ssGet (updateTxStreamStats demoGuidParams 5 demoAfter3).t.streamStats_ 7 = ⟨3, 180⟩ :=
  ⟨by rfl, by rfl, by rfl, by rfl, by rfl, by rfl, by rfl⟩

/-- Claim C13 (the code departs from it). In the program of `demoHugeCalls`
every sequence holds exactly `packets_ = 1` record and `packetListSize_` is
the `2 × (2 ^ 31 - 1)` packets of one revolution. After `2 ^ 31 + 5` packets
the remainder is `2 ^ 31 + 5`, but stored in `int d` it is negative: no
sequence is credited whole, the record walk of the first sequence runs to the
end of the buffer with `d` still not zero, and `Q_ASSERT(d == 0)` fails. -/
theorem partial_walk_assert_fails :
    demoAfterHuge.packetSequenceList_.map (fun s => (s.packets_, s.records.length))
      = [(1, 1), (1, 1)] ∧
    demoAfterHuge.packetListSize_ = 4294967294 ∧
    txPktsDelta demoAfterHuge.stats_.pkts demoAfterHuge.lastStats_.pkts
      % demoAfterHuge.packetListSize_ = 2147483653 ∧
    statsD demoAfterHuge = -2147483643 ∧
    (updateTxStreamStats demoGuidParams 5 demoAfterHuge).exit = Exit.fault Fault.dAssert :=
  ⟨by rfl, by rfl, by rfl, by rfl, by rfl⟩

/-- Claim C15 (the code departs from it). In a run of the program of
`demoS2Calls` in which the sink rejects the packet with index 2, the value of
`pcap_sendpacket` is not looked at: the run goes on to sink all ten packets,
and `stats_` counts ten packets and 600 bytes, the rejected one among them. -/
theorem sink_rejection_ignored :
    (run demoParams demoEnvReject 10 (built demoParams demoCleared demoS2Calls)).exit
      = Exit.finished ∧
    (run demoParams demoEnvReject 10 (built demoParams demoCleared demoS2Calls)).t.sunk.map
      (fun e => e.accepted)
      = [true, true, false, true, true, true, true, true, true, true] ∧
    (run demoParams demoEnvReject 10 (built demoParams demoCleared demoS2Calls)).t.stats_
      = ⟨10, 600⟩ :=
  ⟨by rfl, by rfl, by rfl⟩

/-- Claim C17 (the code departs from it). In a one-shot run of the program of
`demoS2Calls` during which `stop()` is called in the delay after the last
packet, `run` completes with `state_ = kFinished` and `stop_` still set; the
next run of the same program, in which `stop()` is never called, then ends
after its first packet. -/
theorem late_stop_leaks :
    (run demoParams demoEnvLateStop 10 (built demoParams demoCleared demoS2Calls)).exit
      = Exit.finished ∧
    (run demoParams demoEnvLateStop 10 (built demoParams demoCleared demoS2Calls)).t.state_
      = TxState.kFinished ∧
    (run demoParams demoEnvLateStop 10 (built demoParams demoCleared demoS2Calls)).t.sunk.length
      = 10 ∧
    (run demoParams demoEnvLateStop 10 (built demoParams demoCleared demoS2Calls)).t.stop_
      = true ∧
    (run demoParams demoEnv 10
      (run demoParams demoEnvLateStop 10
        (built demoParams demoCleared demoS2Calls)).t).t.sunk.length = 11 :=
  ⟨by rfl, by rfl, by rfl, by rfl, by rfl⟩

/-- Claim C12 (the code departs from it). Scenario S6 with every packet
signed for stream 7: the first set (3 packets, 3 repeats) rolls over into a
group of two sequences, the second set has 1 packet and 2 repeats. The
one-shot run sinks `3 × 3 + 2 × 1 = 11` packets and 660 bytes of stream 7,
but `packetListSize_` is 9 (the rolled-over sequence weighted by the repeat
count 1 of a fresh sequence), so `updateTxStreamStats` sees one revolution and
two more packets and credits stream 7 with 13 packets and 780 bytes. -/
theorem stream_stats_overcredited :
    (built demoGuidParams demoTracked demoS6Calls).packetSequenceList_.map
      (fun s => (s.repeatSize_, s.repeatCount_, s.packets_)) = [(2, 3, 2), (1, 1, 1), (1, 2, 1)] ∧
    (built demoGuidParams demoTracked demoS6Calls).packetListSize_ = 9 ∧
    (run demoGuidParams demoEnv 10 (built demoGuidParams demoTracked demoS6Calls)).exit
      = Exit.finished ∧
    (run demoGuidParams demoEnv 10 (built demoGuidParams demoTracked demoS6Calls)).t.stats_
      = ⟨11, 660⟩ ∧
    ssGet (run demoGuidParams demoEnv 10
      (built demoGuidParams demoTracked demoS6Calls)).t.streamStats_ 7 = ⟨13, 780⟩ :=
  ⟨by rfl, by rfl, by rfl, by rfl, by rfl⟩

/-- Counterexample to claim C16 as stated. With loop mode on and an empty
packet list, `run` goes to `_exit2` at once: it reaches `kFinished` with no
packet sunk and without `stop()` ever being called. -/
theorem empty_loop_program_finishes :
    (setPacketListLoopMode demoCleared true 0 0).returnToQIdx_ = 0 ∧
    (run demoParams demoEnv 10 (setPacketListLoopMode demoCleared true 0 0)).exit
      = Exit.finished ∧
    (run demoParams demoEnv 10 (setPacketListLoopMode demoCleared true 0 0)).t.state_
      = TxState.kFinished ∧
    (run demoParams demoEnv 10 (setPacketListLoopMode demoCleared true 0 0)).t.sunk = [] :=
  ⟨by rfl, by rfl, by rfl, by rfl⟩

/-- Counterexample to claim C19 as stated. Scenario S2 (one sequence of two
packets on the same timestamp, `R = 5` repeats, gap `G = 10000` µs), run with
no measured overhead: the delay function is called after each of the five
passes, 50000 µs in all, not `(5 - 1) × 10000 = 40000`. -/
theorem s2_sleeps_after_every_pass :
    (built demoParams demoCleared demoS2Calls).packetSequenceList_.map
      (fun s => (s.repeatSize_, s.repeatCount_, s.usecDelay_)) = [(1, 5, 10000)] ∧
    (run demoParams demoEnv 10 (built demoParams demoCleared demoS2Calls)).t.slept
      = [10000, 10000, 10000, 10000, 10000] ∧
    (run demoParams demoEnv 10 (built demoParams demoCleared demoS2Calls)).t.slept.sum
      ≠ (5 - 1) * 10000 :=
  ⟨by rfl, by rfl, by decide⟩

theorem no_ttag_arith (p0 k : Nat) (_hp : p0 < 18446744073709551616)
    (h : (p0 + k) % 18446744073709551616 = toU64 ((p0 : Int) + -1)) :
    18446744073709551615 ≤ k := by
  unfold toU64 at h
  omega

theorem setPacketListTtagMarkers_nil (t : PcapTxThread) (ri : Nat) :
    setPacketListTtagMarkers t [] ri = { t with firstTtagPkt_ := -1, ttagDeltaMarkers_ := [] } := by
  simp [setPacketListTtagMarkers]

/-- The invariant of a run without T-Tag that starts with `p0` packets
counted, `n0` packets in the trace and the packet list `l0`. -/
theorem noTtag_preserved (env : Env) (p0 n0 : Nat) (l0 : List PacketSequence)
    (hp0 : p0 < 18446744073709551616) (sync : Bool) :
    Preserved env sync
      (fun t => t.ttagDeltaMarkers_ = [] ∧ t.nextTtagPkt_ = toU64 ((p0 : Int) + -1) ∧
        n0 ≤ t.sunk.length ∧
        t.stats_.pkts = (p0 + (t.sunk.length - n0)) % 18446744073709551616 ∧
        t.packetSequenceList_ = l0 ∧ ∀ e ∈ t.sunk.drop n0, e.stamped = false)
      (fun _ => True)
      (fun f t => f.ofStamp = true → 18446744073709551615 ≤ t.sunk.length - n0) where
  pkt := by
    intro q idx off r ts t t1 hI h
    obtain ⟨hd, hn, hlen, hpk, hl, hev⟩ := hI
    obtain ⟨id, nx, mi, sl, o, d1, d2, b, ht1, _, _, _, _, hb, hbf, htick⟩ :=
      txPacket_frame env q idx off sync r ts t t1 h
    have hbfalse : b = false := by
      cases b with
      | false => rfl
      | true =>
        exfalso
        have hdue := hb.mp rfl
        simp [stamperTick, stamperOf, hdue, hd] at htick
    subst hbfalse
    obtain ⟨_, _, _, hnx, _⟩ := hbf rfl
    subst ht1
    refine ⟨hd, by simp only; rw [hnx]; exact hn, ?_, ?_, ?_, ?_⟩
    · simp only [List.length_append, List.length_singleton]; omega
    · simp only [List.length_append, List.length_singleton]
      rw [hpk, U64]
      have e : t.sunk.length + 1 - n0 = (t.sunk.length - n0) + 1 := by omega
      rw [e]
      omega
    · simpa using hl
    · intro e he
      simp only at he
      rw [List.drop_append_of_le_length hlen] at he
      rcases List.mem_append.mp he with h1 | h1
      · exact hev e h1
      · simp only [List.mem_singleton] at h1
        rw [h1]
  pktStop := by intros; trivial
  pktFault := by
    intro q idx off r ts t f hI h hf
    obtain ⟨hd, hn, hlen, hpk, hl, hev⟩ := hI
    rcases txPacket_fault env q idx off sync r ts t f h with ⟨_, h2⟩ | ⟨h1, _⟩ | ⟨h1, _⟩
    · rw [hpk, hn] at h2
      exact no_ttag_arith p0 _ hp0 h2
    · subst h1; simp [Fault.ofStamp] at hf
    · subst h1; simp [Fault.ofStamp] at hf
  seqFault := by
    intro t _ hf
    simp [Fault.ofStamp] at hf
  tail := by
    intro d t hI
    obtain ⟨sl, o, he, _⟩ := runDelay_frame env d (d + t.overHead) t
    rw [he]
    exact hI
  loop := by
    intro t hI _
    obtain ⟨sl, o, he, _⟩ := runDelay_frame env (t.loopDelay_ : Int)
      (toInt64 ((t.loopDelay_ : Int) + t.overHead)) t
    rw [he]
    exact hI

/-- A run whose delta-marker list is empty and whose `firstTtagPkt_` is -1
stamps nothing and keeps the packet list; it can only end on a stamping fault
after at least `2 ^ 64 - 1` packets. -/
theorem run_noTtag (P : SeqParams) (env : Env) (fuel : Nat) (t : PcapTxThread)
    (hd : t.ttagDeltaMarkers_ = []) (hfirst : t.firstTtagPkt_ = -1)
    (hp0 : t.stats_.pkts < U64) :
    (∀ e ∈ (run P env fuel t).t.sunk.drop t.sunk.length, e.stamped = false) ∧
    (run P env fuel t).t.packetSequenceList_ = t.packetSequenceList_ ∧
    ((run P env fuel t).t.sunk.length - t.sunk.length < ULLONG_MAX →
      ∀ f, (run P env fuel t).exit = Exit.fault f → f.ofStamp = false) := by
  by_cases he : t.packetSequenceList_.length = 0
  · rw [run_empty P env fuel t he]
    obtain ⟨ss, st, hfr, _⟩ := runExit_frame P fuel { t with overHead := 0 }
    refine ⟨?_, ?_, ?_⟩
    · rw [hfr]; simp
    · rw [hfr]
    · intro _ f hf
      have := runExit_fault P fuel _ f hf
      cases f <;> simp_all [Fault.ofStats, Fault.ofStamp]
  · have hI : (fun (t' : PcapTxThread) => t'.ttagDeltaMarkers_ = [] ∧
          t'.nextTtagPkt_ = toU64 ((t.stats_.pkts : Int) + -1) ∧
          t.sunk.length ≤ t'.sunk.length ∧
          t'.stats_.pkts = (t.stats_.pkts + (t'.sunk.length - t.sunk.length))
            % 18446744073709551616 ∧
          t'.packetSequenceList_ = t.packetSequenceList_ ∧
          ∀ e ∈ t'.sunk.drop t.sunk.length, e.stamped = false) (runInit t) := by
      refine ⟨hd, ?_, Nat.le_refl _, ?_, rfl, ?_⟩
      · simp only [runInit, hfirst]
      · simp only [runInit, Nat.sub_self, Nat.add_zero]
        exact (Nat.mod_eq_of_lt hp0).symm
      · simp [runInit]
    obtain ⟨t1, ss, st, hfr, _, hcase⟩ :=
      run_inv P env (noTtag_preserved env t.stats_.pkts t.sunk.length t.packetSequenceList_ hp0 true)
        fuel t he hI
    rw [hfr]
    rcases hcase with ⟨hw, hf⟩ | ⟨_, hI1, _, _, hf⟩
    · have hI1 : t1.packetSequenceList_ = t.packetSequenceList_ ∧
          ∀ e ∈ t1.sunk.drop t.sunk.length, e.stamped = false := by
        rcases hw with ⟨t2, hI2, _, rfl⟩ | ⟨hI1, _⟩
        · exact ⟨hI2.2.2.2.2.1, hI2.2.2.2.2.2⟩
        · exact ⟨hI1.2.2.2.2.1, hI1.2.2.2.2.2⟩
      refine ⟨hI1.2, hI1.1, ?_⟩
      intro _ f hfe
      have := hf f hfe
      cases f <;> simp_all [Fault.ofStats, Fault.ofStamp]
    · refine ⟨hI1.2.2.2.2.2, hI1.2.2.2.2.1, ?_⟩
      intro hlt f hfe
      have h1 := hf f hfe
      cases hs : f.ofStamp with
      | false => rfl
      | true =>
        exfalso
        have h2 := h1 hs
        simp only [ULLONG_MAX] at hlt
        omega

/-- Claim C9: after `setPacketListTtagMarkers` with an empty marker list
(`firstTtagPkt_ = -1`, no delta markers), no packet of a run is stamped: every
packet the run sinks went through the test `stats_->pkts == nextTtagPkt_`
with the result false, the packet list (every packet byte) is as before the
run, and in a run that sinks fewer than `2 ^ 64 - 1` packets the stamping
block is never entered, so the empty delta-marker list is never indexed. -/
theorem no_ttag_never_stamps (P : SeqParams) (env : Env) (fuel : Nat) (t : PcapTxThread)
    (ri : Nat) (hp0 : t.stats_.pkts < U64) :
    (setPacketListTtagMarkers t [] ri).firstTtagPkt_ = -1 ∧
    (setPacketListTtagMarkers t [] ri).ttagDeltaMarkers_ = [] ∧
    (∀ e ∈ (run P env fuel (setPacketListTtagMarkers t [] ri)).t.sunk.drop t.sunk.length,
      e.stamped = false) ∧
    (run P env fuel (setPacketListTtagMarkers t [] ri)).t.packetSequenceList_
      = t.packetSequenceList_ ∧
    ((run P env fuel (setPacketListTtagMarkers t [] ri)).t.sunk.length - t.sunk.length
        < ULLONG_MAX →
      ∀ f, (run P env fuel (setPacketListTtagMarkers t [] ri)).exit = Exit.fault f →
        f.ofStamp = false) := by
  have h := run_noTtag P env fuel (setPacketListTtagMarkers t [] ri)
    (by rw [setPacketListTtagMarkers_nil]) (by rw [setPacketListTtagMarkers_nil])
    (by rw [setPacketListTtagMarkers_nil]; exact hp0)
  rw [setPacketListTtagMarkers_nil] at h ⊢
  exact ⟨rfl, rfl, h⟩

/-- Witness of claim C9: the one-shot run of scenario S2 after
`setPacketListTtagMarkers` with no markers sinks ten packets, none stamped. -/
theorem no_ttag_never_stamps_witness :
    (built demoParams demoCleared demoS2Calls).stats_.pkts < U64 ∧
    (run demoParams demoEnv 10 (setPacketListTtagMarkers
      (built demoParams demoCleared demoS2Calls) [] 0)).t.sunk.length = 10 ∧
    ∀ e ∈ (run demoParams demoEnv 10 (setPacketListTtagMarkers
        (built demoParams demoCleared demoS2Calls) [] 0)).t.sunk.drop
          (built demoParams demoCleared demoS2Calls).sunk.length,
      e.stamped = false :=
  ⟨by decide, by rfl,
    (no_ttag_never_stamps demoParams demoEnv 10 (built demoParams demoCleared demoS2Calls) 0
      (by decide)).2.2.1⟩

/-! ## A looping run ends only on a stop -/

/-- The invariant of a looping run that starts with `n0` packets in the trace
and `stop_ = s0`: `stop_` is only ever set by a call of `stop()`. -/
theorem loop_preserved (env : Env) (n0 : Nat) (s0 : Bool) (sync : Bool) :
    Preserved env sync
      (fun t => 0 ≤ t.returnToQIdx_ ∧ n0 ≤ t.sunk.length ∧
        (t.stop_ = true → s0 = true ∨ ∃ k, n0 ≤ k ∧ k ≤ t.sunk.length ∧
          (env.stopReq k = true ∨ env.stopReqDelay k = true)))
      (fun t => n0 < t.sunk.length ∧
        (s0 = true ∨ ∃ k, n0 ≤ k ∧ k < t.sunk.length ∧
          (env.stopReq k = true ∨ env.stopReqDelay k = true)))
      (fun _ _ => True) where
  pkt := by
    intro q idx off r ts t t1 hI h
    obtain ⟨hr, hlen, hst⟩ := hI
    obtain ⟨id, nx, mi, sl, o, d1, d2, b, ht1, _⟩ :=
      txPacket_frame env q idx off sync r ts t t1 h
    subst ht1
    refine ⟨hr, ?_, ?_⟩
    · simp only [List.length_append, List.length_singleton]; omega
    · intro hs
      simp only [Bool.or_eq_true] at hs
      simp only [List.length_append, List.length_singleton]
      rcases hs with hs | hs
      · rcases hst hs with h0 | ⟨k, hk1, hk2, hk3⟩
        · exact Or.inl h0
        · exact Or.inr ⟨k, hk1, by omega, hk3⟩
      · exact Or.inr ⟨t.sunk.length, hlen, by omega, Or.inl hs⟩
  pktStop := by
    intro q idx off r ts t t1 hI h hstop
    obtain ⟨hr, hlen, hst⟩ := hI
    obtain ⟨id, nx, mi, sl, o, d1, d2, b, ht1, _⟩ :=
      txPacket_frame env q idx off sync r ts t t1 h
    subst ht1
    simp only [Bool.or_eq_true] at hstop
    simp only [List.length_append, List.length_singleton]
    refine ⟨by omega, ?_⟩
    rcases hstop with hs | hs
    · rcases hst hs with h0 | ⟨k, hk1, hk2, hk3⟩
      · exact Or.inl h0
      · exact Or.inr ⟨k, hk1, by omega, hk3⟩
    · exact Or.inr ⟨t.sunk.length, hlen, by omega, Or.inl hs⟩
  pktFault := by intros; trivial
  seqFault := by intros; trivial
  tail := by
    intro d t hI
    obtain ⟨hr, hlen, hst⟩ := hI
    obtain ⟨sl, o, he, _⟩ := runDelay_frame env d (d + t.overHead) t
    rw [he]
    refine ⟨hr, hlen, ?_⟩
    intro hs
    simp only [Bool.or_eq_true] at hs
    rcases hs with hs | hs
    · exact hst hs
    · exact Or.inr ⟨t.sunk.length, hlen, Nat.le_refl _, Or.inr hs⟩
  loop := by
    intro t hI _
    obtain ⟨hr, hlen, hst⟩ := hI
    obtain ⟨sl, o, he, _⟩ := runDelay_frame env (t.loopDelay_ : Int)
      (toInt64 ((t.loopDelay_ : Int) + t.overHead)) t
    rw [he]
    refine ⟨hr, hlen, ?_⟩
    intro hs
    simp only [Bool.or_eq_true] at hs
    rcases hs with hs | hs
    · exact hst hs
    · exact Or.inr ⟨t.sunk.length, hlen, Nat.le_refl _, Or.inr hs⟩

/-- Claim C16, as amended. For every non-empty packet list with loop mode on
(`returnToQIdx_ ≥ 0`), a run that reaches `kFinished` has sunk at least one
packet and found `stop_` set after a packet: `stop_` was set when the run
began, or `stop()` was called while one of the packets of the run was
processed or during a delay taken before one of them. -/
theorem loop_run_ends_on_stop (P : SeqParams) (env : Env) (fuel : Nat) (t : PcapTxThread)
    (hne : t.packetSequenceList_ ≠ []) (hloop : 0 ≤ t.returnToQIdx_)
    (hfin : (run P env fuel t).exit = Exit.finished) :
    (run P env fuel t).t.state_ = TxState.kFinished ∧
    t.sunk.length < (run P env fuel t).t.sunk.length ∧
    (t.stop_ = true ∨ ∃ k, t.sunk.length ≤ k ∧ k < (run P env fuel t).t.sunk.length ∧
      (env.stopReq k = true ∨ env.stopReqDelay k = true)) := by
  have he : t.packetSequenceList_.length ≠ 0 := by
    intro h; exact hne (List.length_eq_zero.mp h)
  obtain ⟨t1, ss, st, hfr, hst, hcase⟩ :=
    run_inv P env (loop_preserved env t.sunk.length t.stop_ true) fuel t he
      ⟨by simpa [runInit] using hloop, by simp [runInit], fun h => Or.inl (by simpa [runInit] using h)⟩
  rcases hcase with ⟨hw, _⟩ | ⟨hnf, _⟩
  · rcases hw with ⟨t2, _, hX, rfl⟩ | ⟨hI1, hneg⟩
    · rw [hfr]
      exact ⟨hst hfin, hX.1, hX.2⟩
    · exfalso
      have := hI1.1
      omega
  · exact absurd hfin hnf

/-- Witness of claim C16: scenario S2 in loop mode, with `stop()` called while
the packet with index 3 is processed, finishes after four packets. -/
theorem loop_run_ends_on_stop_witness :
    (run demoParams demoEnvStopAt3 10
      (setPacketListLoopMode (built demoParams demoCleared demoS2Calls) true 0 0)).exit
      = Exit.finished ∧
    (run demoParams demoEnvStopAt3 10
      (setPacketListLoopMode (built demoParams demoCleared demoS2Calls) true 0 0)).t.sunk.length
      = 4 ∧
    (setPacketListLoopMode (built demoParams demoCleared demoS2Calls) true 0 0).sunk.length
      < (run demoParams demoEnvStopAt3 10
        (setPacketListLoopMode (built demoParams demoCleared demoS2Calls) true 0 0)).t.sunk.length :=
  ⟨by rfl, by rfl,
    (loop_run_ends_on_stop demoParams demoEnvStopAt3 10
      (setPacketListLoopMode (built demoParams demoCleared demoS2Calls) true 0 0)
      (by decide) (by decide) (by rfl)).2.1⟩

/-! ## Playing the steps of the closed-form expansion -/

theorem playSteps_append (env : Env) : ∀ (a b : List Step) (t : PcapTxThread),
    playSteps env (a ++ b) t = playSteps env b (playSteps env a t)
  | [], b, t => rfl
  | s :: a, b, t => by
    simp only [List.cons_append, playSteps]
    exact playSteps_append env a b _

theorem frameCount_append : ∀ (a b : List Step),
    frameCount (a ++ b) = frameCount a + frameCount b
  | [], b => by simp [frameCount]
  | .frame q idx r ts :: a, b => by
    have ih := frameCount_append a b
    show frameCount (a ++ b) + 1 = frameCount a + 1 + frameCount b
    omega
  | .tail u :: a, b => frameCount_append a b

theorem frameBytes_append : ∀ (a b : List Step),
    frameBytes (a ++ b) = frameBytes a + frameBytes b
  | [], b => by simp [frameBytes]
  | .frame q idx r ts :: a, b => by
    have ih := frameBytes_append a b
    show r.hdr.caplen + frameBytes (a ++ b) = r.hdr.caplen + frameBytes a + frameBytes b
    omega
  | .tail u :: a, b => frameBytes_append a b

theorem stepsDue_append : ∀ (a b : List Step),
    stepsDue (a ++ b) = stepsDue a + stepsDue b
  | [], b => by simp [stepsDue]
  | .frame q idx r ts :: a, b => by
    have ih := stepsDue_append a b
    show (r.hdr.ts.tv_sec - ts.tv_sec) * 1000000 + (r.hdr.ts.tv_usec - ts.tv_usec)
        + stepsDue (a ++ b)
      = (r.hdr.ts.tv_sec - ts.tv_sec) * 1000000 + (r.hdr.ts.tv_usec - ts.tv_usec)
        + stepsDue a + stepsDue b
    omega
  | .tail u :: a, b => by
    have ih := stepsDue_append a b
    show u + stepsDue (a ++ b) = u + stepsDue a + stepsDue b
    omega

theorem stepEvents_append (env : Env) : ∀ (a b : List Step) (n : Nat),
    stepEvents env n (a ++ b) = stepEvents env n a ++ stepEvents env (n + frameCount a) b
  | [], b, n => by simp [stepEvents, frameCount]
  | .frame q idx r ts :: a, b, n => by
    have ih := stepEvents_append env a b (n + 1)
    have e : n + 1 + frameCount a = n + (frameCount a + 1) := by omega
    rw [e] at ih
    show _ :: stepEvents env (n + 1) (a ++ b)
      = (_ :: stepEvents env (n + 1) a) ++ stepEvents env (n + (frameCount a + 1)) b
    rw [ih]; rfl
  | .tail u :: a, b, n => stepEvents_append env a b n

theorem length_stepEvents (env : Env) : ∀ (a : List Step) (n : Nat),
    (stepEvents env n a).length = frameCount a
  | [], n => rfl
  | .frame q idx r ts :: a, n => by
    have ih := length_stepEvents env a (n + 1)
    show (stepEvents env (n + 1) a).length + 1 = frameCount a + 1
    omega
  | .tail u :: a, n => length_stepEvents env a n

/-- What one step writes when `stop()` is never called. -/
theorem playStep_spec (env : Env) (hns : NeverStopped env) (s : Step) (t : PcapTxThread)
    (hp : t.stats_.pkts < U64) (hb : t.stats_.bytes < U64) :
    ∃ sl o du, playStep env s t
      = { t with
          slept := sl
          overHead := o
          due := du
          stats_ := ⟨(t.stats_.pkts + frameCount [s]) % U64,
            (t.stats_.bytes + frameBytes [s]) % U64⟩
          sunk := t.sunk ++ stepEvents env t.sunk.length [s] } ∧ o ≤ 0 := by
  cases s with
  | frame q idx r ts =>
    obtain ⟨sl, o, he, ho, _⟩ := applyDelay_frame
      ((r.hdr.ts.tv_sec - ts.tv_sec) * 1000000 + (r.hdr.ts.tv_usec - ts.tv_usec)
        + (t.overHead - env.elapsed t.sunk.length))
      { t with overHead := t.overHead - env.elapsed t.sunk.length, due := t.due ++
        [(r.hdr.ts.tv_sec - ts.tv_sec) * 1000000 + (r.hdr.ts.tv_usec - ts.tv_usec)] }
    refine ⟨sl, o, t.due ++
      [(r.hdr.ts.tv_sec - ts.tv_sec) * 1000000 + (r.hdr.ts.tv_usec - ts.tv_usec)], ?_, ho⟩
    simp only [playStep]
    rw [he]
    simp [frameCount, frameBytes, stepEvents, hns.1]
  | tail u =>
    obtain ⟨sl, o, he, ho⟩ := runDelay_frame env u (u + t.overHead) t
    refine ⟨sl, o, t.due ++ [u], ?_, ho⟩
    simp only [playStep]
    rw [he]
    have h1 : t.stats_.pkts % U64 = t.stats_.pkts := Nat.mod_eq_of_lt hp
    have h2 : t.stats_.bytes % U64 = t.stats_.bytes := Nat.mod_eq_of_lt hb
    simp [frameCount, frameBytes, stepEvents, hns.2, h1, h2]

/-- What a list of steps writes when `stop()` is never called. -/
theorem playSteps_spec (env : Env) (hns : NeverStopped env) :
    ∀ (ss : List Step) (t : PcapTxThread), t.stats_.pkts < U64 → t.stats_.bytes < U64 →
      ∃ sl o du, playSteps env ss t
        = { t with
            slept := sl
            overHead := o
            due := du
            stats_ := ⟨(t.stats_.pkts + frameCount ss) % U64,
              (t.stats_.bytes + frameBytes ss) % U64⟩
            sunk := t.sunk ++ stepEvents env t.sunk.length ss } ∧ (t.overHead ≤ 0 → o ≤ 0)
  | [], t, hp, hb => by
    refine ⟨t.slept, t.overHead, t.due, ?_, fun h => h⟩
    have h1 : t.stats_.pkts % U64 = t.stats_.pkts := Nat.mod_eq_of_lt hp
    have h2 : t.stats_.bytes % U64 = t.stats_.bytes := Nat.mod_eq_of_lt hb
    simp [playSteps, frameCount, frameBytes, stepEvents, h1, h2]
  | s :: ss, t, hp, hb => by
    obtain ⟨sl1, o1, du1, h1, ho1⟩ := playStep_spec env hns s t hp hb
    have hp1 : (playStep env s t).stats_.pkts < U64 := by
      rw [h1]; exact Nat.mod_lt _ (by decide)
    have hb1 : (playStep env s t).stats_.bytes < U64 := by
      rw [h1]; exact Nat.mod_lt _ (by decide)
    obtain ⟨sl2, o2, du2, h2, ho2⟩ := playSteps_spec env hns ss (playStep env s t) hp1 hb1
    refine ⟨sl2, o2, du2, ?_, fun _ => ho2 (by rw [h1]; exact ho1)⟩
    simp only [playSteps]
    rw [h2, h1]
    have e1 : frameCount (s :: ss) = frameCount [s] + frameCount ss :=
      frameCount_append [s] ss
    have e2 : frameBytes (s :: ss) = frameBytes [s] + frameBytes ss :=
      frameBytes_append [s] ss
    have e3 := stepEvents_append env [s] ss t.sunk.length
    simp only [List.singleton_append] at e3
    simp only [List.length_append, length_stepEvents, e1, e2, e3, List.append_assoc,
      PcapTxThread.mk.injEq, StatsTuple.mk.injEq, true_and, and_true]
    constructor <;> simp only [U64] <;> omega

/-! ## A one-shot run is its closed-form expansion -/

theorem Ready_mono (l : List PacketSequence) (m n : Nat) (t : PcapTxThread) (h : m ≤ n)
    (hr : Ready l n t) : Ready l m t :=
  { hr with clear := fun j hj => hr.clear j (Nat.lt_of_lt_of_le hj h) }

/-- Playing steps keeps the state ready for the packets that remain. -/
theorem Ready_play (env : Env) (hns : NeverStopped env) (l : List PacketSequence)
    (a : List Step) (m : Nat) (t : PcapTxThread) (hr : Ready l (frameCount a + m) t) :
    Ready l m (playSteps env a t) := by
  obtain ⟨sl, o, du, he, ho⟩ := playSteps_spec env hns a t hr.pkts hr.bytes
  rw [he]
  refine ⟨hr.list, hr.stop, ho hr.over, Nat.mod_lt _ (by decide), Nat.mod_lt _ (by decide),
    ?_, hr.oneShot⟩
  intro j hj
  have h := hr.clear (frameCount a + j) (by omega)
  simp only [U64] at h ⊢
  intro hc
  apply h
  rw [← hc]
  omega

theorem txPacket_plain (env : Env) (q idx off : Nat) (r : Record) (ts : Timeval)
    (t : PcapTxThread) (hdue : t.stats_.pkts ≠ t.nextTtagPkt_) (hcap : r.hdr.caplen ≠ 0)
    (ho : t.overHead ≤ 0) :
    txPacket env q idx off true r ts t = .ok (playStep env (.frame q idx r ts) t) := by
  have hpos : ¬ (0 : Int) < t.overHead - (env.elapsed t.sunk.length : Int) := by
    have : (0 : Int) ≤ (env.elapsed t.sunk.length : Int) := Int.ofNat_nonneg _
    omega
  simp only [txPacket, stampStep, if_neg hdue, if_true, syncDelay, if_neg hpos, if_neg hcap,
    playStep, Bool.false_eq_true, if_false]

theorem sendLoop_plain (env : Env) (hns : NeverStopped env) (l : List PacketSequence)
    (q off : Nat) :
    ∀ (recs : List Record) (idx : Nat) (ts : Timeval) (t : PcapTxThread),
      (∀ r ∈ recs, r.hdr.caplen ≠ 0) → Ready l (frameCount (recSteps q recs idx ts)) t →
      sendLoop env q off true recs idx ts t
        = .ret 0 (playSteps env (recSteps q recs idx ts) t)
  | [], idx, ts, t, _, _ => rfl
  | r :: rs, idx, ts, t, hcap, hr => by
    have hdue : t.stats_.pkts ≠ t.nextTtagPkt_ := by
      have h := hr.clear 0 (by simp [recSteps, frameCount])
      rwa [Nat.add_zero, Nat.mod_eq_of_lt hr.pkts] at h
    have htx := txPacket_plain env q idx off r ts t hdue (hcap r (List.mem_cons_self _ _)) hr.over
    have hr1 : Ready l (frameCount (recSteps q rs (idx + 1) r.hdr.ts))
        (playSteps env [.frame q idx r ts] t) := by
      apply Ready_play env hns l [.frame q idx r ts]
      have e : frameCount [Step.frame q idx r ts] + frameCount (recSteps q rs (idx + 1) r.hdr.ts)
          = frameCount (recSteps q (r :: rs) idx ts) := by
        simp only [recSteps, frameCount]; omega
      rw [e]; exact hr
    simp only [playSteps] at hr1
    have ih := sendLoop_plain env hns l q off rs (idx + 1) r.hdr.ts _
      (fun r' hr' => hcap r' (List.mem_cons_of_mem _ hr')) hr1
    simp only [sendLoop, htx, hr1.stop, Bool.false_eq_true, if_false, if_true, recSteps,
      playSteps]
    exact ih

theorem seqAt_cast (t : PcapTxThread) (n : Nat) (s : PacketSequence)
    (h : t.packetSequenceList_[n]? = some s) : seqAt t (n : Int) = some (n, s) := by
  unfold seqAt
  rw [if_neg (by omega)]
  simp only [Int.toNat_ofNat, h]

theorem sendQueueTransmit_plain (env : Env) (hns : NeverStopped env) (l : List PacketSequence)
    (q : Nat) (s : PacketSequence) (m : Nat) (t : PcapTxThread)
    (hcap : ∀ r ∈ s.records, r.hdr.caplen ≠ 0)
    (hr : Ready l (frameCount (seqSteps q s) + m) t) :
    sendQueueTransmit env q s true t
        = .ret 0 (playSteps env (recSteps q s.records 0
            (match s.records with
              | r :: _ => r.hdr.ts
              | [] => ⟨0, 0⟩)) t) ∧
      Ready l m (playSteps env (seqSteps q s) t) := by
  constructor
  · unfold sendQueueTransmit
    apply sendLoop_plain env hns l q s.ttagL4CksumOffset_ s.records 0 _ t hcap
    apply Ready_mono l _ _ t _ hr
    simp only [seqSteps, frameCount_append]
    omega
  · exact Ready_play env hns l (seqSteps q s) m t hr

theorem forK_plain (env : Env) (hns : NeverStopped env) (l : List PacketSequence)
    (hcap : AllSendable l) (i : Nat) :
    ∀ (n k m : Nat) (t : PcapTxThread), i + k + n ≤ l.length →
      Ready l (frameCount (setSteps l i n k) + m) t →
      forK env (i : Int) n (k : Int) t = .next (playSteps env (setSteps l i n k) t) ∧
        Ready l m (playSteps env (setSteps l i n k) t)
  | 0, k, m, t, _, hr => by
    refine ⟨rfl, ?_⟩
    simpa [setSteps, frameCount, playSteps] using hr
  | n + 1, k, m, t, hle, hr => by
    have hlt : i + k < l.length := by omega
    have hget : l[i + k]? = some l[i + k] := List.getElem?_eq_getElem hlt
    have hset : setSteps l i (n + 1) k = seqSteps (i + k) l[i + k] ++ setSteps l i n (k + 1) := by
      simp only [setSteps, hget]
    rw [hset] at hr ⊢
    rw [frameCount_append, Nat.add_assoc] at hr
    have hmem : l[i + k] ∈ l := List.getElem_mem hlt
    obtain ⟨hsq, hr1⟩ := sendQueueTransmit_plain env hns l (i + k) l[i + k] _ t
      (hcap _ hmem) hr
    obtain ⟨ih1, ih2⟩ := forK_plain env hns l hcap i n (k + 1) m _ (by omega) hr1
    have hseq : seqAt t ((i : Int) + (k : Int)) = some (i + k, l[i + k]) := by
      have := seqAt_cast t (i + k) l[i + k] (by rw [hr.list]; exact hget)
      rwa [Nat.cast_add] at this
    have hk1 : ((k : Int) + 1) = ((k + 1 : Nat) : Int) := by push_cast; rfl
    rw [playSteps_append]
    refine ⟨?_, ih2⟩
    simp only [forK, hseq, hsq, Int.le_refl, if_true, hk1]
    rw [← ih1]
    congr 1
    simp only [seqSteps, playSteps_append, playSteps, playStep]

theorem forJ_plain (env : Env) (hns : NeverStopped env) (l : List PacketSequence)
    (hcap : AllSendable l) (i : Nat) (rptSz : Int) (hle : i + rptSz.toNat ≤ l.length) :
    ∀ (c m : Nat) (t : PcapTxThread),
      Ready l (frameCount (groupSteps l i rptSz.toNat c) + m) t →
      forJ env (i : Int) rptSz c t = .next (playSteps env (groupSteps l i rptSz.toNat c) t) ∧
        Ready l m (playSteps env (groupSteps l i rptSz.toNat c) t)
  | 0, m, t, hr => by
    refine ⟨rfl, ?_⟩
    simpa [groupSteps, frameCount, playSteps] using hr
  | c + 1, m, t, hr => by
    have hgs : groupSteps l i rptSz.toNat (c + 1)
        = setSteps l i rptSz.toNat 0 ++ groupSteps l i rptSz.toNat c := by
      simp [groupSteps, List.replicate_succ]
    rw [hgs] at hr ⊢
    rw [frameCount_append, Nat.add_assoc] at hr
    obtain ⟨hk1, hk2⟩ := forK_plain env hns l hcap i rptSz.toNat 0 _ t (by omega) hr
    obtain ⟨ih1, ih2⟩ := forJ_plain env hns l hcap i rptSz hle c m _ hk2
    rw [playSteps_append]
    refine ⟨?_, ih2⟩
    have hz : ((0 : Nat) : Int) = 0 := rfl
    rw [hz] at hk1
    simp only [forJ, hk1]
    exact ih1

theorem programSteps_end (l : List PacketSequence) (fuel j : Nat) (h : l.length ≤ j) :
    programSteps l fuel j = [] := by
  cases fuel with
  | zero => rfl
  | succ fuel =>
    have : l[j]? = none := List.getElem?_eq_none h
    simp only [programSteps, this]

theorem toInt32_small (x : Int) (h0 : 0 ≤ x) (h1 : x < 2147483648) : toInt32 x = x := by
  unfold toInt32
  omega

/-- The outer walk of a one-shot run over a grouped list, never stopped and
with no T-Tag due, reaches `_exit` in the state the closed-form expansion
gives. -/
theorem walk_plain (env : Env) (hns : NeverStopped env) (l : List PacketSequence)
    (hcap : AllSendable l) (hlen : l.length < 2147483648) :
    ∀ (fuel i m : Nat) (t : PcapTxThread), grouped l fuel i = true →
      Ready l (frameCount (programSteps l fuel i) + m) t →
      walk env fuel (i : Int) t = ⟨Exit.finished, playSteps env (programSteps l fuel i) t⟩ ∧
        Ready l m (playSteps env (programSteps l fuel i) t)
  | 0, i, m, t, hg, _ => by simp [grouped] at hg
  | fuel + 1, i, m, t, hg, hr => by
    cases hget : l[i]? with
    | none => simp [grouped, hget] at hg
    | some h =>
      simp only [grouped, hget, Bool.and_eq_true, Bool.or_eq_true, decide_eq_true_eq] at hg
      obtain ⟨⟨hrs, hspan⟩, hnext⟩ := hg
      have hps : programSteps l (fuel + 1) i
          = groupSteps l i h.repeatSize_.toNat h.repeatCount_.toNat ++
            programSteps l fuel (i + h.repeatSize_.toNat) := by
        simp only [programSteps, hget]
      rw [hps] at hr ⊢
      rw [frameCount_append, Nat.add_assoc] at hr
      obtain ⟨hj1, hj2⟩ := forJ_plain env hns l hcap i h.repeatSize_ hspan
        h.repeatCount_.toNat _ t hr
      have hseq : seqAt t (i : Int) = some (i, h) :=
        seqAt_cast t i h (by rw [hr.list]; exact hget)
      have hi1 : toInt32 ((i : Int) + h.repeatSize_) = ((i + h.repeatSize_.toNat : Nat) : Int) := by
        have e : (h.repeatSize_.toNat : Int) = h.repeatSize_ := Int.toNat_of_nonneg (by omega)
        rw [Nat.cast_add, e]
        apply toInt32_small
        · omega
        · omega
      rw [playSteps_append]
      have hl1 := hj2.list
      by_cases hlt : i + h.repeatSize_.toNat < l.length
      · have hg1 : grouped l fuel (i + h.repeatSize_.toNat) = true := by
          rcases hnext with h1 | h1
          · omega
          · exact h1
        obtain ⟨ih1, ih2⟩ := walk_plain env hns l hcap hlen fuel _ m _ hg1 hj2
        refine ⟨?_, ih2⟩
        simp only [walk, hseq, hj1, hi1, hl1]
        rw [if_pos (by exact_mod_cast hlt)]
        exact ih1
      · have hend := programSteps_end l fuel (i + h.repeatSize_.toNat) (by omega)
        rw [hend] at hj2 ⊢
        simp only [playSteps]
        refine ⟨?_, ?_⟩
        · simp only [walk, hseq, hj1, hi1, hl1]
          rw [if_neg (by exact_mod_cast hlt), if_neg (by have := hj2.oneShot; omega)]
        · simpa [frameCount] using hj2

/-! ## One-shot runs -/

theorem Ready_runInit (t : PcapTxThread) (m : Nat) (hone : t.returnToQIdx_ < 0)
    (hstop : t.stop_ = false) (hnt : t.firstTtagPkt_ = -1) (hpk : t.stats_.pkts < U64)
    (hby : t.stats_.bytes < U64) (hfew : m < ULLONG_MAX) :
    Ready t.packetSequenceList_ m (runInit t) := by
  refine ⟨rfl, hstop, Int.le_refl 0, hpk, hby, ?_, hone⟩
  intro j hj hc
  simp only [runInit, hnt, U64] at hc
  have := no_ttag_arith t.stats_.pkts j hpk hc
  simp only [ULLONG_MAX] at hfew
  omega

/-- A one-shot run over a grouped list, never stopped and without T-Tag,
leaves the outer walk in the state the closed-form expansion gives, and then
runs the code from `_exit2`. -/
theorem run_plain (P : SeqParams) (env : Env) (fuel : Nat) (t : PcapTxThread)
    (hone : t.returnToQIdx_ < 0)
    (hgr : grouped t.packetSequenceList_ fuel 0 = true)
    (hlen : t.packetSequenceList_.length < 2147483648)
    (hcap : AllSendable t.packetSequenceList_) (hns : NeverStopped env)
    (hstop : t.stop_ = false) (hnt : t.firstTtagPkt_ = -1) (hpk : t.stats_.pkts < U64)
    (hby : t.stats_.bytes < U64)
    (hfew : frameCount (programSteps t.packetSequenceList_ fuel 0) < ULLONG_MAX) :
    run P env fuel t
      = runExit P fuel (playSteps env (programSteps t.packetSequenceList_ fuel 0) (runInit t)) := by
  have hr := Ready_runInit t (frameCount (programSteps t.packetSequenceList_ fuel 0) + 0)
    hone hstop hnt hpk hby (by simpa using hfew)
  obtain ⟨hw, _⟩ := walk_plain env hns t.packetSequenceList_ hcap hlen fuel 0 0 (runInit t) hgr hr
  have hne : t.packetSequenceList_.length ≠ 0 := by
    intro h0
    have hnil : t.packetSequenceList_ = [] := List.length_eq_zero.mp h0
    rw [hnil] at hgr
    cases fuel <;> simp [grouped] at hgr
  unfold run
  rw [if_neg hne]
  have hz : ((0 : Nat) : Int) = 0 := rfl
  rw [hz] at hw
  rw [hw]

/-! ## Time slept in a one-shot run -/

theorem applyDelay_credit (u : Int) (t : PcapTxThread) :
    (applyDelay u t).slept.sum + (applyDelay u t).overHead = t.slept.sum + u := by
  unfold applyDelay
  split
  · simp
  · simp

theorem measured_succ_left (env : Env) : ∀ (m n : Nat),
    measured env n (m + 1) = (env.elapsed n : Int) + measured env (n + 1) m
  | 0, n => by simp [measured]
  | m + 1, n => by
    have ih := measured_succ_left env m n
    have e : n + 1 + m = n + (m + 1) := by omega
    simp only [measured] at ih ⊢
    rw [e]
    omega

theorem playStep_credit (env : Env) (s : Step) (t : PcapTxThread) :
    (playStep env s t).slept.sum + (playStep env s t).overHead
      = t.slept.sum + t.overHead + stepsDue [s] - measured env t.sunk.length (frameCount [s]) ∧
    (playStep env s t).sunk.length = t.sunk.length + frameCount [s] := by
  cases s with
  | frame q idx r ts =>
    have h := applyDelay_credit
      ((r.hdr.ts.tv_sec - ts.tv_sec) * 1000000 + (r.hdr.ts.tv_usec - ts.tv_usec)
        + (t.overHead - env.elapsed t.sunk.length))
      { t with overHead := t.overHead - env.elapsed t.sunk.length, due := t.due ++
        [(r.hdr.ts.tv_sec - ts.tv_sec) * 1000000 + (r.hdr.ts.tv_usec - ts.tv_usec)] }
    obtain ⟨sl, o, he, _⟩ := applyDelay_frame
      ((r.hdr.ts.tv_sec - ts.tv_sec) * 1000000 + (r.hdr.ts.tv_usec - ts.tv_usec)
        + (t.overHead - env.elapsed t.sunk.length))
      { t with overHead := t.overHead - env.elapsed t.sunk.length, due := t.due ++
        [(r.hdr.ts.tv_sec - ts.tv_sec) * 1000000 + (r.hdr.ts.tv_usec - ts.tv_usec)] }
    simp only [playStep, stepsDue, frameCount, measured, Nat.add_zero, Nat.zero_add]
    rw [he] at h ⊢
    simp only [List.length_append, List.length_singleton] at h ⊢
    constructor
    · omega
    · trivial
  | tail u =>
    have h := applyDelay_credit (u + t.overHead) { t with due := t.due ++ [u] }
    obtain ⟨sl, o, he, _⟩ := applyDelay_frame (u + t.overHead) { t with due := t.due ++ [u] }
    simp only [playStep, runDelay, stepsDue, frameCount, measured, Nat.add_zero]
    rw [he] at h ⊢
    simp only at h ⊢
    constructor
    · omega
    · trivial

/-- The steps conserve time: what is slept plus the overhead left is what was
there before, plus the delays that fell due, minus the times measured. -/
theorem playSteps_credit (env : Env) : ∀ (ss : List Step) (t : PcapTxThread),
    (playSteps env ss t).slept.sum + (playSteps env ss t).overHead
      = t.slept.sum + t.overHead + stepsDue ss - measured env t.sunk.length (frameCount ss) ∧
    (playSteps env ss t).sunk.length = t.sunk.length + frameCount ss
  | [], t => by simp [playSteps, stepsDue, frameCount, measured]
  | .frame q idx r ts :: ss, t => by
    obtain ⟨h1, h2⟩ := playStep_credit env (.frame q idx r ts) t
    obtain ⟨h3, h4⟩ := playSteps_credit env ss (playStep env (.frame q idx r ts) t)
    have hm := measured_succ_left env (frameCount ss) t.sunk.length
    simp only [stepsDue, frameCount, measured, Nat.add_zero, Nat.zero_add,
      Int.add_zero, Int.zero_add] at h1 h2
    rw [h2] at h3 h4
    simp only [playSteps, stepsDue, frameCount]
    constructor <;> omega
  | .tail u :: ss, t => by
    obtain ⟨h1, h2⟩ := playStep_credit env (.tail u) t
    obtain ⟨h3, h4⟩ := playSteps_credit env ss (playStep env (.tail u) t)
    simp only [stepsDue, frameCount, measured, Nat.add_zero, Int.add_zero] at h1 h2
    rw [h2] at h3 h4
    simp only [playSteps, stepsDue, frameCount]
    constructor <;> omega

theorem frameCount_recSteps (q : Nat) : ∀ (recs : List Record) (idx : Nat) (ts : Timeval),
    frameCount (recSteps q recs idx ts) = recs.length
  | [], _, _ => rfl
  | r :: rs, idx, ts => by
    simp only [recSteps, frameCount, List.length_cons, frameCount_recSteps q rs]

theorem frameCount_seqSteps (q : Nat) (s : PacketSequence) :
    frameCount (seqSteps q s) = s.records.length := by
  simp only [seqSteps, frameCount_append, frameCount_recSteps, frameCount]
  omega

/-- Steps of a list of one sequence with repeat size 1: its passes. -/
theorem programSteps_single (s : PacketSequence) (fuel : Nat) (hsz : s.repeatSize_ = 1) :
    programSteps [s] (fuel + 1) 0
      = (List.replicate s.repeatCount_.toNat (seqSteps 0 s)).flatten := by
  have hend := programSteps_end [s] fuel 1 (by simp)
  simp [programSteps, hsz, hend, groupSteps, setSteps]

theorem frameCount_passes (s : PacketSequence) : ∀ (n : Nat),
    frameCount (List.replicate n (seqSteps 0 s)).flatten = n * s.records.length
  | 0 => by simp [frameCount]
  | n + 1 => by
    simp only [List.replicate_succ, List.flatten_cons, frameCount_append, frameCount_seqSteps,
      frameCount_passes s n]
    rw [Nat.add_mul, Nat.one_mul, Nat.add_comm]

theorem play_same_ts (env : Env) (hel : ∀ k, env.elapsed k = 0) (q : Nat) (ts0 : Timeval) :
    ∀ (recs : List Record) (idx : Nat) (t : PcapTxThread),
      (∀ r ∈ recs, r.hdr.ts = ts0) → t.overHead = 0 →
      (playSteps env (recSteps q recs idx ts0) t).slept = t.slept ∧
      (playSteps env (recSteps q recs idx ts0) t).overHead = 0
  | [], idx, t, _, ho => ⟨rfl, ho⟩
  | r :: rs, idx, t, hts, ho => by
    have hr : r.hdr.ts = ts0 := hts r (List.mem_cons_self _ _)
    simp only [recSteps, playSteps]
    rw [hr]
    have hstep : (playStep env (.frame q idx r ts0) t).slept = t.slept ∧
        (playStep env (.frame q idx r ts0) t).overHead = 0 := by
      simp [playStep, applyDelay, hr, ho, hel]
    obtain ⟨ih1, ih2⟩ := play_same_ts env hel q ts0 rs (idx + 1) _
      (fun r' h' => hts r' (List.mem_cons_of_mem _ h')) hstep.2
    exact ⟨ih1.trans hstep.1, ih2⟩

theorem play_pass_same_ts (env : Env) (hel : ∀ k, env.elapsed k = 0) (q : Nat)
    (ts0 : Timeval) (s : PacketSequence) (t : PcapTxThread)
    (hts : ∀ r ∈ s.records, r.hdr.ts = ts0) (hG : 0 ≤ s.usecDelay_) (ho : t.overHead = 0) :
    (playSteps env (seqSteps q s) t).slept.sum = t.slept.sum + s.usecDelay_ ∧
    (playSteps env (seqSteps q s) t).overHead = 0 := by
  have hanchor : recSteps q s.records 0
      (match s.records with
        | r :: _ => r.hdr.ts
        | [] => ⟨0, 0⟩) = recSteps q s.records 0 ts0 := by
    cases hrec : s.records with
    | nil => rfl
    | cons r rs =>
      have : r.hdr.ts = ts0 := hts r (by rw [hrec]; exact List.mem_cons_self _ _)
      simp only [this]
  obtain ⟨h1, h2⟩ := play_same_ts env hel q ts0 s.records 0 t hts ho
  simp only [seqSteps, hanchor, playSteps_append, playSteps, playStep, runDelay, h2,
    Int.add_zero]
  unfold applyDelay
  split
  · simp [h1]
  · have : s.usecDelay_ = 0 := by omega
    simp [h1, this]

theorem play_passes_same_ts (env : Env) (hel : ∀ k, env.elapsed k = 0) (ts0 : Timeval)
    (s : PacketSequence) (hts : ∀ r ∈ s.records, r.hdr.ts = ts0) (hG : 0 ≤ s.usecDelay_) :
    ∀ (n : Nat) (t : PcapTxThread), t.overHead = 0 →
      (playSteps env (List.replicate n (seqSteps 0 s)).flatten t).slept.sum
        = t.slept.sum + (n : Int) * s.usecDelay_ ∧
      (playSteps env (List.replicate n (seqSteps 0 s)).flatten t).overHead = 0
  | 0, t, ho => by simp [playSteps, ho]
  | n + 1, t, ho => by
    obtain ⟨h1, h2⟩ := play_pass_same_ts env hel 0 ts0 s t hts hG ho
    obtain ⟨h3, h4⟩ := play_passes_same_ts env hel ts0 s hts hG n _ h2
    simp only [List.replicate_succ, List.flatten_cons, playSteps_append]
    refine ⟨?_, h4⟩
    rw [h3, h1]
    push_cast
    rw [Int.add_mul, Int.one_mul]
    omega

/-! ## Time conserved by any run -/

theorem applyDelay_cases (u : Int) (t : PcapTxThread) :
    (applyDelay u t).slept.sum + (applyDelay u t).overHead = t.slept.sum + u ∧
    ((applyDelay u t).overHead = 0 ∨ (applyDelay u t).overHead = u) ∧
    (applyDelay u t).overHead ≤ 0 := by
  unfold applyDelay
  split
  · simp
  · simp only [or_true, true_and]
    omega

theorem measured_nonneg (env : Env) (n : Nat) : ∀ (m : Nat), 0 ≤ measured env n m
  | 0 => Int.le_refl 0
  | m + 1 => by
    have ih := measured_nonneg env n m
    have h : (0 : Int) ≤ (env.elapsed (n + m) : Int) := Int.ofNat_nonneg _
    show 0 ≤ measured env n m + (env.elapsed (n + m) : Int)
    omega

/-- What the delay before a packet does to the time account. -/
theorem txPacket_credit (env : Env) (q idx off : Nat) (r : Record) (ts : Timeval)
    (t t1 : PcapTxThread) (h : txPacket env q idx off true r ts t = .ok t1) :
    t1.slept.sum + t1.overHead
      = t.slept.sum + ((r.hdr.ts.tv_sec - ts.tv_sec) * 1000000
          + (r.hdr.ts.tv_usec - ts.tv_usec))
        + (t.overHead - (env.elapsed t.sunk.length : Int)) ∧
    (t1.overHead = 0 ∨ t1.overHead = (r.hdr.ts.tv_sec - ts.tv_sec) * 1000000
          + (r.hdr.ts.tv_usec - ts.tv_usec)
        + (t.overHead - (env.elapsed t.sunk.length : Int))) := by
  unfold txPacket at h
  simp only [if_true] at h
  cases hst : stampStep off r t with
  | error f => rw [hst] at h; simp at h
  | ok res =>
    obtain ⟨b, d1, orig, t2⟩ := res
    rw [hst] at h
    simp only at h
    have h2 : t2.slept = t.slept ∧ t2.overHead = t.overHead := by
      rcases stampStep_inv off r t b d1 orig t2 hst with ⟨_, _, _, rfl⟩ | ⟨_, _, _, hadv⟩
      · exact ⟨rfl, rfl⟩
      · obtain ⟨d, _, ht2⟩ := ttagAdvance_frame t t2 hadv
        rw [ht2]
        exact ⟨rfl, rfl⟩
    cases hsy : syncDelay (env.elapsed t.sunk.length) r.hdr.ts ts t2 with
    | error f => rw [hsy] at h; simp at h
    | ok t3 =>
      rw [hsy] at h
      simp only at h
      by_cases hcap : r.hdr.caplen = 0
      · rw [if_pos hcap] at h; simp at h
      · rw [if_neg hcap] at h
        simp only [Except.ok.injEq] at h
        unfold syncDelay at hsy
        simp only at hsy
        by_cases hpos : 0 < t2.overHead - (env.elapsed t.sunk.length : Int)
        · rw [if_pos hpos] at hsy; simp at hsy
        · rw [if_neg hpos] at hsy
          simp only [Except.ok.injEq] at hsy
          obtain ⟨c1, c2, _⟩ := applyDelay_cases
            ((r.hdr.ts.tv_sec - ts.tv_sec) * 1000000 + (r.hdr.ts.tv_usec - ts.tv_usec)
              + (t2.overHead - (env.elapsed t.sunk.length : Int)))
            { t2 with overHead := t2.overHead - (env.elapsed t.sunk.length : Int), due := t2.due ++
              [(r.hdr.ts.tv_sec - ts.tv_sec) * 1000000 + (r.hdr.ts.tv_usec - ts.tv_usec)] }
          rw [hsy] at c1 c2
          rw [← h]
          simp only at c1 c2 ⊢
          rw [h2.1, h2.2] at c1
          rw [h2.2] at c2
          exact ⟨by omega, c2⟩

/-- What a tail or loop delay does to the time account. -/
theorem runDelay_credit (env : Env) (d usecs : Int) (t : PcapTxThread) :
    (runDelay env d usecs t).slept.sum + (runDelay env d usecs t).overHead
      = t.slept.sum + usecs ∧
    ((runDelay env d usecs t).overHead = 0 ∨ (runDelay env d usecs t).overHead = usecs) ∧
    (runDelay env d usecs t).overHead ≤ 0 ∧
    (runDelay env d usecs t).due = t.due ++ [d] ∧
    (runDelay env d usecs t).sunk = t.sunk ∧
    (runDelay env d usecs t).loopDelay_ = t.loopDelay_ := by
  obtain ⟨c1, c2, c3⟩ := applyDelay_cases usecs { t with due := t.due ++ [d] }
  obtain ⟨sl, o, he, _⟩ := runDelay_frame env d usecs t
  refine ⟨c1, c2, c3, ?_, ?_, ?_⟩ <;> rw [he]

theorem toInt64_small (x : Int) (h1 : -9223372036854775808 ≤ x)
    (h2 : x < 9223372036854775808) : toInt64 x = x := by
  unfold toInt64
  omega

/-- The time account of a run that starts with `n0` packets and `d0` due
delays in the traces, `c0` microseconds slept and the loop delay `L`: while
every delay that fell due is non-negative and the measured times add up to at
most `2 ^ 63`, what was slept plus the overhead is what fell due minus what
was measured, and the overhead is no less than minus what was measured. -/
theorem conserve_preserved (env : Env) (n0 d0 L : Nat) (c0 : Int)
    (hL : L < 9223372036854775808) :
    Preserved env true
      (fun t => n0 ≤ t.sunk.length ∧ d0 ≤ t.due.length ∧ t.loopDelay_ = L ∧
        t.overHead ≤ 0 ∧
        ((∀ D ∈ t.due.drop d0, 0 ≤ D) →
          measured env n0 (t.sunk.length - n0) ≤ 9223372036854775808 →
          t.slept.sum + t.overHead
            = c0 + (t.due.drop d0).sum - measured env n0 (t.sunk.length - n0) ∧
          0 ≤ t.overHead + measured env n0 (t.sunk.length - n0)))
      (fun _ => True) (fun _ _ => True) where
  pkt := by
    intro q idx off r ts t t1 hI h
    obtain ⟨hn, hd, hl, ho, hc⟩ := hI
    obtain ⟨c1, c2⟩ := txPacket_credit env q idx off r ts t t1 h
    obtain ⟨id, nx, mi, sl, o, d1, d2, b, ht1, ho1, _⟩ :=
      txPacket_frame env q idx off true r ts t t1 h
    have hsunk : t1.sunk.length = t.sunk.length + 1 := by rw [ht1]; simp
    have hdue : t1.due = t.due ++
        [(r.hdr.ts.tv_sec - ts.tv_sec) * 1000000 + (r.hdr.ts.tv_usec - ts.tv_usec)] := by
      rw [ht1]
      simp
    have hloop : t1.loopDelay_ = t.loopDelay_ := by rw [ht1]
    have ho1b : t1.overHead ≤ 0 := by rw [ht1]; exact ho1 rfl
    have hm : measured env n0 (t1.sunk.length - n0)
        = measured env n0 (t.sunk.length - n0) + (env.elapsed t.sunk.length : Int) := by
      have e : t1.sunk.length - n0 = (t.sunk.length - n0) + 1 := by omega
      have e2 : n0 + (t.sunk.length - n0) = t.sunk.length := by omega
      rw [e]
      show measured env n0 (t.sunk.length - n0)
          + (env.elapsed (n0 + (t.sunk.length - n0)) : Int) = _
      rw [e2]
    have hdrop : t1.due.drop d0 = t.due.drop d0 ++
        [(r.hdr.ts.tv_sec - ts.tv_sec) * 1000000 + (r.hdr.ts.tv_usec - ts.tv_usec)] := by
      rw [hdue, List.drop_append_of_le_length hd]
    refine ⟨by omega, by rw [hdue]; simp; omega, by rw [hloop]; exact hl, ho1b, ?_⟩
    intro hnn hms
    have hel : (0 : Int) ≤ (env.elapsed t.sunk.length : Int) := Int.ofNat_nonneg _
    have hgap : 0 ≤ (r.hdr.ts.tv_sec - ts.tv_sec) * 1000000
        + (r.hdr.ts.tv_usec - ts.tv_usec) := by
      apply hnn
      rw [hdrop]
      simp
    obtain ⟨hc1, hc2⟩ := hc
      (by
        intro D hD
        apply hnn
        rw [hdrop]
        exact List.mem_append_left _ hD)
      (by omega)
    rw [hdrop, hm, List.sum_append, List.sum_singleton]
    constructor
    · omega
    · rcases c2 with c2 | c2
      · have := measured_nonneg env n0 (t.sunk.length - n0)
        omega
      · omega
  pktStop := by intros; trivial
  pktFault := by intros; trivial
  seqFault := by intros; trivial
  tail := by
    intro d t hI
    obtain ⟨hn, hd, hl, ho, hc⟩ := hI
    obtain ⟨c1, c2, c3, c4, c5, c6⟩ := runDelay_credit env d (d + t.overHead) t
    have hdrop : (runDelay env d (d + t.overHead) t).due.drop d0 = t.due.drop d0 ++ [d] := by
      rw [c4, List.drop_append_of_le_length hd]
    refine ⟨by rw [c5]; exact hn, by rw [c4]; simp; omega, by rw [c6]; exact hl, c3, ?_⟩
    intro hnn hms
    rw [c5] at hms ⊢
    have hdn : 0 ≤ d := by
      apply hnn
      rw [hdrop]
      simp
    obtain ⟨hc1, hc2⟩ := hc
      (by
        intro D hD
        apply hnn
        rw [hdrop]
        exact List.mem_append_left _ hD)
      hms
    rw [hdrop, List.sum_append, List.sum_singleton]
    constructor
    · omega
    · rcases c2 with c2 | c2
      · have := measured_nonneg env n0 (t.sunk.length - n0)
        omega
      · omega
  loop := by
    intro t hI _
    obtain ⟨hn, hd, hl, ho, hc⟩ := hI
    have hcr := runDelay_credit env (t.loopDelay_ : Int)
      (toInt64 ((t.loopDelay_ : Int) + t.overHead)) t
    generalize hu : toInt64 ((t.loopDelay_ : Int) + t.overHead) = u at hcr ⊢
    obtain ⟨c1, c2, c3, c4, c5, c6⟩ := hcr
    have hdrop : (runDelay env (t.loopDelay_ : Int) u t).due.drop d0
          = t.due.drop d0 ++ [(t.loopDelay_ : Int)] := by
      rw [c4, List.drop_append_of_le_length hd]
    refine ⟨by rw [c5]; exact hn, by rw [c4]; simp; omega, by rw [c6]; exact hl, c3, ?_⟩
    intro hnn hms
    rw [c5] at hms ⊢
    obtain ⟨hc1, hc2⟩ := hc
      (by
        intro D hD
        apply hnn
        rw [hdrop]
        exact List.mem_append_left _ hD)
      hms
    have hLn : (0 : Int) ≤ (t.loopDelay_ : Int) := Int.ofNat_nonneg _
    have hLb : (t.loopDelay_ : Int) < 9223372036854775808 := by
      rw [hl]
      exact_mod_cast hL
    have hw : toInt64 ((t.loopDelay_ : Int) + t.overHead) = (t.loopDelay_ : Int) + t.overHead :=
      toInt64_small _ (by omega) (by omega)
    rw [hu] at hw
    rw [hdrop, List.sum_append, List.sum_singleton]
    constructor
    · omega
    · rcases c2 with c2 | c2
      · have := measured_nonneg env n0 (t.sunk.length - n0)
        omega
      · omega

/-- Any run conserves time: while every delay that fell due during the run is
non-negative, the loop delay is below `2 ^ 63` and the measured times add up
to at most `2 ^ 63`, what the run slept plus the overhead left at its end is
what fell due minus what was measured. -/
theorem run_conserves (P : SeqParams) (env : Env) (fuel : Nat) (t : PcapTxThread)
    (hL : t.loopDelay_ < 9223372036854775808)
    (hnn : ∀ D ∈ (run P env fuel t).t.due.drop t.due.length, 0 ≤ D)
    (hms : measured env t.sunk.length ((run P env fuel t).t.sunk.length - t.sunk.length)
      ≤ 9223372036854775808) :
    (run P env fuel t).t.slept.sum + (run P env fuel t).t.overHead
      = t.slept.sum + ((run P env fuel t).t.due.drop t.due.length).sum
        - measured env t.sunk.length ((run P env fuel t).t.sunk.length - t.sunk.length) := by
  by_cases he : t.packetSequenceList_.length = 0
  · rw [run_empty P env fuel t he] at hnn hms ⊢
    obtain ⟨ss, st, hfr, _⟩ := runExit_frame P fuel { t with overHead := 0 }
    rw [hfr]
    simp [measured]
  · obtain ⟨t1, ss, st, hfr, _, hcase⟩ :=
      run_inv P env (conserve_preserved env t.sunk.length t.due.length t.loopDelay_
        t.slept.sum hL) fuel t he
        (by
          refine ⟨Nat.le_refl _, Nat.le_refl _, rfl, Int.le_refl 0, ?_⟩
          intro _ _
          simp [runInit, measured])
    rw [hfr] at hnn hms ⊢
    simp only at hnn hms ⊢
    have key : ∀ t2 : PcapTxThread, t2.slept = t1.slept → t2.overHead = t1.overHead →
        t2.due = t1.due → t2.sunk = t1.sunk →
        (t.sunk.length ≤ t2.sunk.length ∧ t.due.length ≤ t2.due.length ∧
          t2.loopDelay_ = t.loopDelay_ ∧ t2.overHead ≤ 0 ∧
          ((∀ D ∈ t2.due.drop t.due.length, 0 ≤ D) →
            measured env t.sunk.length (t2.sunk.length - t.sunk.length)
              ≤ 9223372036854775808 →
            t2.slept.sum + t2.overHead
              = t.slept.sum + (t2.due.drop t.due.length).sum
                - measured env t.sunk.length (t2.sunk.length - t.sunk.length) ∧
            0 ≤ t2.overHead + measured env t.sunk.length (t2.sunk.length - t.sunk.length))) →
        t1.slept.sum + t1.overHead
          = t.slept.sum + (t1.due.drop t.due.length).sum
            - measured env t.sunk.length (t1.sunk.length - t.sunk.length) := by
      intro t2 e1 e2 e3 e4 hI
      rw [e1, e2, e3, e4] at hI
      exact (hI.2.2.2.2 hnn hms).1
    rcases hcase with ⟨hI, _⟩ | ⟨_, hI, _⟩
    · rcases hI with ⟨t2, hI2, _, rfl⟩ | ⟨hI1, _⟩
      · exact key t2 rfl rfl rfl rfl hI2
      · exact key t1 rfl rfl rfl rfl hI1
    · exact key t1 rfl rfl rfl rfl hI

/-! ## Claims on the time slept -/

/-- Claim C19, as amended. For a one-shot program of one group made of a
single sequence with `R` repeats and an inter-repeat gap `G ≥ 0` whose packets
all carry the same timestamp, run with zero measured overhead, never stopped
and without T-Tag, the time the delay function is asked to sleep is `R × G` in
all: the gap is applied after every pass, the last one included. -/
theorem single_sequence_sleeps (P : SeqParams) (env : Env) (fuel : Nat) (t : PcapTxThread)
    (s : PacketSequence) (ts0 : Timeval) (hl : t.packetSequenceList_ = [s])
    (hsz : s.repeatSize_ = 1) (hG : 0 ≤ s.usecDelay_)
    (hts : ∀ r ∈ s.records, r.hdr.ts = ts0) (hcap : ∀ r ∈ s.records, r.hdr.caplen ≠ 0)
    (hel : ∀ k, env.elapsed k = 0) (hns : NeverStopped env) (hone : t.returnToQIdx_ = -1)
    (hstop : t.stop_ = false) (hnt : t.firstTtagPkt_ = -1) (hpk : t.stats_.pkts < U64)
    (hby : t.stats_.bytes < U64)
    (hfew : s.repeatCount_.toNat * s.records.length < ULLONG_MAX) (hfuel : 0 < fuel) :
    (run P env fuel t).t.slept.sum
      = t.slept.sum + (s.repeatCount_.toNat : Int) * s.usecDelay_ := by
  obtain ⟨f, rfl⟩ : ∃ f, fuel = f + 1 := ⟨fuel - 1, by omega⟩
  have hps := programSteps_single s f hsz
  have hrun := run_plain P env (f + 1) t (by omega)
    (by rw [hl]; simp [grouped, hsz])
    (by rw [hl]; simp)
    (by rw [hl]; intro s' hs' r hr
        simp only [List.mem_singleton] at hs'
        subst hs'; exact hcap r hr)
    hns hstop hnt hpk hby
    (by rw [hl, hps, frameCount_passes]; exact hfew)
  rw [hrun, hl, hps]
  obtain ⟨ss, st, hfr, _⟩ := runExit_frame P (f + 1)
    (playSteps env (List.replicate s.repeatCount_.toNat (seqSteps 0 s)).flatten (runInit t))
  rw [hfr]
  exact (play_passes_same_ts env hel ts0 s hts hG s.repeatCount_.toNat (runInit t) rfl).1

/-- Witness of claim C19: scenario S2, five repeats with a gap of 10000 µs. -/
theorem single_sequence_sleeps_witness :
    (run demoParams demoEnv 10 (built demoParams demoCleared demoS2Calls)).t.slept.sum
      = 0 + ((5 : Int).toNat : Int) * 10000 :=
  single_sequence_sleeps demoParams demoEnv 10 (built demoParams demoCleared demoS2Calls)
    ((built demoParams demoCleared demoS2Calls).packetSequenceList_.head (by decide)) ⟨0, 0⟩
    (by rfl) (by rfl) (by decide) (by decide) (by decide) (fun _ => rfl)
    ⟨fun _ => rfl, fun _ => rfl⟩ (by rfl) (by rfl) (by rfl) (by decide) (by decide)
    (by decide) (by decide)

/-- Claim C21, as amended. The overhead-aware delay policy conserves time. For
every due delay `D` and every overhead `o ≤ 0`, with `s` the amount slept (0
when the delay function is not called) and `o'` the overhead afterwards:
`s + o' = D + o`, `0 ≤ s ≤ max(D, 0)`, and unless `D + o = 0` exactly one of
`s` and `o'` is not zero. Hence any run (one-shot or looping, stopped or not,
with or without T-Tag, ended by a fault or out of fuel) in which the delays
that fell due (the gap before each packet, the delay after each sequence, the
loop delay before each return to the start) are non-negative, the loop delay
is below `2 ^ 63` µs and the measured times add up to at most `2 ^ 63` µs,
conserves time: what it slept plus the overhead left at its end (minus the
debt still outstanding) is the sum of the delays that fell due minus the sum
of the measured times. For a one-shot run over a grouped list that is never
stopped and has no T-Tag, the delays that fell due are those of the expansion
of the program. -/
theorem delay_policy_conserves_time :
    (∀ (D o : Int) (t : PcapTxThread), o ≤ 0 → t.overHead = o →
      ∃ s : Int, (applyDelay (D + o) t).slept = (if 0 < s then t.slept ++ [s] else t.slept) ∧
        s + (applyDelay (D + o) t).overHead = D + o ∧ 0 ≤ s ∧ s ≤ max D 0 ∧
        (D + o ≠ 0 →
          (s ≠ 0 ∧ (applyDelay (D + o) t).overHead = 0) ∨
          (s = 0 ∧ (applyDelay (D + o) t).overHead ≠ 0))) ∧
    (∀ (P : SeqParams) (env : Env) (fuel : Nat) (t : PcapTxThread),
      t.loopDelay_ < 9223372036854775808 →
      (∀ D ∈ (run P env fuel t).t.due.drop t.due.length, 0 ≤ D) →
      measured env t.sunk.length ((run P env fuel t).t.sunk.length - t.sunk.length)
        ≤ 9223372036854775808 →
      (run P env fuel t).t.slept.sum + (run P env fuel t).t.overHead
        = t.slept.sum + ((run P env fuel t).t.due.drop t.due.length).sum
          - measured env t.sunk.length
              ((run P env fuel t).t.sunk.length - t.sunk.length)) ∧
    (∀ (P : SeqParams) (env : Env) (fuel : Nat) (t : PcapTxThread),
      t.returnToQIdx_ = -1 → grouped t.packetSequenceList_ fuel 0 = true →
      t.packetSequenceList_.length < 2147483648 → AllSendable t.packetSequenceList_ →
      NeverStopped env → t.stop_ = false → t.firstTtagPkt_ = -1 → t.stats_.pkts < U64 →
      t.stats_.bytes < U64 →
      frameCount (programSteps t.packetSequenceList_ fuel 0) < ULLONG_MAX →
      (run P env fuel t).t.slept.sum + (run P env fuel t).t.overHead
        = t.slept.sum + stepsDue (programSteps t.packetSequenceList_ fuel 0)
          - measured env t.sunk.length
              (frameCount (programSteps t.packetSequenceList_ fuel 0))) := by
  refine ⟨?_, run_conserves, ?_⟩
  · intro D o t ho hto
    by_cases hpos : 0 < D + o
    · refine ⟨D + o, ?_, ?_, by omega, ?_, ?_⟩
      · simp [applyDelay, hpos]
      · simp [applyDelay, hpos]
      · have : D + o ≤ D := by omega
        exact Int.le_trans this (Int.le_max_left D 0)
      · intro _
        exact Or.inl ⟨by omega, by simp [applyDelay, hpos]⟩
    · refine ⟨0, ?_, ?_, Int.le_refl 0, Int.le_max_right D 0, ?_⟩
      · simp [applyDelay, hpos]
      · simp [applyDelay, hpos]
      · intro hne
        exact Or.inr ⟨rfl, by simp [applyDelay, hpos, hne]⟩
  · intro P env fuel t hone hgr hlen hcap hns hstop hnt hpk hby hfew
    rw [run_plain P env fuel t (by omega) hgr hlen hcap hns hstop hnt hpk hby hfew]
    obtain ⟨ss, st, hfr, _⟩ := runExit_frame P fuel
      (playSteps env (programSteps t.packetSequenceList_ fuel 0) (runInit t))
    rw [hfr]
    have h := (playSteps_credit env (programSteps t.packetSequenceList_ fuel 0) (runInit t)).1
    simp only [runInit, Int.add_zero] at h ⊢
    exact h

/-- Witness of claim C21: scenario S2 in loop mode with a loop delay of 5 ms,
3 µs measured before every packet and `stop()` called while the packet with
index 10 is processed. The run slept 54970 µs and ends 3 µs in debt; 55000 µs
fell due and 33 µs were measured. -/
theorem delay_policy_conserves_time_witness :
    (run demoParams demoEnvSlow 10 demoLoop5ms).t.slept.sum = 54970 ∧
    (run demoParams demoEnvSlow 10 demoLoop5ms).t.overHead = -3 ∧
    (run demoParams demoEnvSlow 10 demoLoop5ms).t.due.sum = 55000 ∧
    measured demoEnvSlow 0 11 = 33 ∧
    (run demoParams demoEnvSlow 10 demoLoop5ms).t.slept.sum
        + (run demoParams demoEnvSlow 10 demoLoop5ms).t.overHead
      = demoLoop5ms.slept.sum
        + ((run demoParams demoEnvSlow 10 demoLoop5ms).t.due.drop
            demoLoop5ms.due.length).sum
        - measured demoEnvSlow demoLoop5ms.sunk.length
            ((run demoParams demoEnvSlow 10 demoLoop5ms).t.sunk.length
              - demoLoop5ms.sunk.length) :=
  ⟨by decide, by decide, by decide, by decide,
    delay_policy_conserves_time.2.1 demoParams demoEnvSlow 10 demoLoop5ms
      (by decide) (by decide) (by decide)⟩

/-- Counterexample to claim C21 as stated. Scenario S2 in loop mode with a
loop delay of 9223372036855000000 µs (more than `2 ^ 63`), no time measured
and `stop()` called while the packet with index 10 is processed: every delay
that fell due is non-negative, but the loop delay wraps to a negative `long`,
nothing is slept for it and the overhead becomes `-9223372036854551616`, so
what was slept plus the overhead left is not what fell due minus what was
measured. -/
theorem huge_loop_delay_loses_time :
    demoLoopHuge.loopDelay_ = 9223372036855000000 ∧
    (run demoParams demoEnvStopAt10 10 demoLoopHuge).exit = Exit.finished ∧
    (∀ D ∈ (run demoParams demoEnvStopAt10 10 demoLoopHuge).t.due, 0 ≤ D) ∧
    (run demoParams demoEnvStopAt10 10 demoLoopHuge).t.due
      = [0, 0, 10000, 0, 0, 10000, 0, 0, 10000, 0, 0, 10000, 0, 0, 10000,
          9223372036855000000, 0] ∧
    (run demoParams demoEnvStopAt10 10 demoLoopHuge).t.slept
      = [10000, 10000, 10000, 10000, 10000] ∧
    (run demoParams demoEnvStopAt10 10 demoLoopHuge).t.overHead = -9223372036854551616 ∧
    measured demoEnvStopAt10 0 (run demoParams demoEnvStopAt10 10 demoLoopHuge).t.sunk.length
      = 0 ∧
    (run demoParams demoEnvStopAt10 10 demoLoopHuge).t.slept.sum
        + (run demoParams demoEnvStopAt10 10 demoLoopHuge).t.overHead
      ≠ (run demoParams demoEnvStopAt10 10 demoLoopHuge).t.due.sum
        - measured demoEnvStopAt10 0
            (run demoParams demoEnvStopAt10 10 demoLoopHuge).t.sunk.length := by
  refine ⟨by decide, by decide, by decide, by decide, by decide, by decide, by decide,
    by decide⟩

/-! ## A one-shot run with T-Tag sinks the frames of the expansion -/

end PcapTx
